import Mathlib

/-!
Verification development for a bit-level RISC-V numeric-operations simulator.

The simulator represents machine words as LSB-first vectors of single bits
(`Bits`), and implements integer and floating-point arithmetic as explicit
bit-by-bit algorithms (ripple-carry addition, shift-add multiplication,
restoring division, IEEE-754 binary32 multiply).  This file gives a shallow
embedding of those algorithms as executable Lean functions — `Bit` becomes
`Bool`, `Bits` becomes `List Bool` with index 0 the least significant bit —
and proves the stated properties of the system against the embedding.
-/

set_option maxHeartbeats 4000000
set_option maxRecDepth 8192
set_option linter.unusedVariables false

namespace RV

/-- A single bit, 0 or 1, embedded as `Bool` (`true` = 1). -/
abbrev Bit := Bool

/-- An LSB-first bit vector: index 0 carries 2^0. -/
abbrev Bits := List Bool

/-- Numeric value of a single bit. -/
def bitVal (b : Bool) : Nat := if b then 1 else 0

/-- Unsigned numeric value of an LSB-first bit vector. -/
def bitsToNat : Bits → Nat
  | [] => 0
  | b :: r => bitVal b + 2 * bitsToNat r

/-- Value of the low `n` bits of a vector (missing positions read as 0). -/
def valW (n : Nat) (l : Bits) : Nat := bitsToNat (List.take n l)

/-! ### BitVec substrate (src/core/bitvec.cpp)

`trim_leading` drops MSB-side zeros (the back of the LSB-first vector) but
keeps at least one bit; `bv_pad_left` truncates to the low `width` bits or
appends `fill` bits at the MSB end; `twos_negate` inverts every bit and adds 1
with a ripple carry that stops as soon as the carry dies. -/

/-- Removes MSB-side zeros but keeps at least one bit; empty maps to a single 0. -/
def trim_leading (b_in : Bits) : Bits :=
  if b_in = [] then [false]
  else if b_in.reverse.dropWhile (fun x => x == false) = [] then [false]
  else (b_in.reverse.dropWhile (fun x => x == false)).reverse

/-- Pads on the MSB side to exactly `width` bits, truncating the high side if
the vector is already at least `width` long. -/
def bv_pad_left (b : Bits) (width : Nat) (fill : Bool) : Bits :=
  if width ≤ b.length then b.take width
  else b ++ List.replicate (width - b.length) fill

/-- Zero extension: `bv_pad_left` with fill 0. -/
def zero_extend (b : Bits) (width : Nat) : Bits := bv_pad_left b width false

/-- Sign extension: `bv_pad_left` with the MSB as fill (0 for the empty vector). -/
def sign_extend (b : Bits) (width : Nat) : Bits :=
  bv_pad_left b width (b.getLast?.getD false)

/-- The add-one ripple inside `twos_negate`: carry starts at 1 and the loop
exits as soon as the carry is 0, leaving the remaining bits untouched. -/
def addOneRipple : Bits → Bits
  | [] => []
  | b :: r => if b then false :: addOneRipple r else true :: r

/-- Width-preserving two's-complement negation: invert all bits, add 1, drop
the carry past the MSB.  Negating empty yields a single 0. -/
def twos_negate (b : Bits) : Bits :=
  if b = [] then [false] else addOneRipple (b.map (fun x => !x))

/-! ### Ripple-carry adder and borrow subtractor

The sources contain three copies of the same ripple adder
(`add_fixed_width` in mdu.cpp, `add_unsigned` in f32.cpp, `add_32` in
alu.cpp) and two copies of the borrow subtractor (`subtract_unsigned` in
f32.cpp, `subtract_unsigned_32` in mdu.cpp).  All read operand bit `i` as 0
when `i` is out of range (`add_32`/`subtract_unsigned_32` assert length 32
and index directly, which agrees with the padded read on their length-32
arguments).  One recursive translation serves all of them; consuming the
heads of the lists step by step is the same as indexing `a[i]` for
`i = 0, 1, …, width−1`. -/

/-- Ripple-carry addition over `n` bit positions, returning the sum bits and
the final carry-out. -/
def rippleAdd : Bits → Bits → Bool → Nat → Bits × Bool
  | _, _, c, 0 => ([], c)
  | a, b, c, n+1 =>
      let ai := a.headD false
      let bi := b.headD false
      let s := Bool.xor (Bool.xor ai bi) c
      let c' := (ai && bi) || (ai && c) || (bi && c)
      let res := rippleAdd a.tail b.tail c' n
      (s :: res.1, res.2)

/-- Borrow subtraction over `n` bit positions, returning the difference bits
and the final borrow-out. -/
def rippleSub : Bits → Bits → Bool → Nat → Bits × Bool
  | _, _, c, 0 => ([], c)
  | a, b, c, n+1 =>
      let ai := a.headD false
      let bi := b.headD false
      let d := Bool.xor (Bool.xor ai bi) c
      let c' := ((!ai) && (bi || c)) || (bi && c)
      let res := rippleSub a.tail b.tail c' n
      (d :: res.1, res.2)

/-- `add_unsigned` of f32.cpp (also `add_fixed_width` of mdu.cpp): keep
`width` bits of the sum, report the carry out of the top position. -/
def add_unsigned (a b : Bits) (width : Nat) : Bits × Bool :=
  rippleAdd a b false width

/-- `subtract_unsigned` of f32.cpp: keep `width` bits of `a - b`, report the
borrow out of the top position. -/
def subtract_unsigned (a b : Bits) (width : Nat) : Bits × Bool :=
  rippleSub a b false width

/-- `subtract_unsigned_32` of mdu.cpp: the 32-bit difference; the caller
guarantees `a ≥ b` so the final borrow is discarded. -/
def subtract_unsigned_32 (a b : Bits) : Bits :=
  (rippleSub a b false 32).1

/-- MSB-down comparison of the low `n` bits of two vectors:
1 if `a > b`, −1 if `a < b`, 0 if equal. -/
def cmpFrom (a b : Bits) : Nat → Int
  | 0 => 0
  | n+1 =>
      let ai := a.getD n false
      let bi := b.getD n false
      if ai = bi then cmpFrom a b n
      else if ai then 1 else -1

/-- `compare_unsigned` of f32.cpp: compares only the low `min` width bits. -/
def compare_unsigned (a b : Bits) : Int :=
  cmpFrom a b (min a.length b.length)

/-- `compare_unsigned_32` of mdu.cpp: compares bits 31 down to 0. -/
def compare_unsigned_32 (a b : Bits) : Int :=
  cmpFrom a b 32

/-- `shift_right_logical` of f32.cpp: within the first `width` positions,
bit `i` takes the old bit `i+1` and the top position becomes 0. -/
def shift_right_logical (v : Bits) (width : Nat) : Bits :=
  if width = 0 then v
  else ((v.take width).drop 1 ++ [false]) ++ v.drop width

/-- `shift_left_logical` of f32.cpp: within the first `width` positions,
bit `i` takes the old bit `i−1` and position 0 becomes 0. -/
def shift_left_logical (v : Bits) (width : Nat) : Bits :=
  if width = 0 then v
  else (false :: v.take (width - 1)) ++ v.drop width

/-! ### Hex parsing and formatting (src/core/bitvec.cpp)

`bv_from_hex_string` strips an optional `0x`/`0X` and underscores, walks the
remaining characters from right to left turning each hex digit into four
LSB-first bits, and trims MSB-side zeros.  `bv_to_hex_string` pads the width
to a multiple of 4, emits lowercase nibble characters LSB-first, reverses to
human order and trims leading `'0'` characters keeping at least one.  The
source checks digit ranges with character comparisons and `tolower`; the
translation enumerates exactly the same 22 accepted characters. -/

/-- Value of a hex digit character, `none` for an invalid digit
(the source throws `std::invalid_argument` there). -/
def hex_nibble_from_char (c : Char) : Option Nat :=
  if c = '0' then some 0
  else if c = '1' then some 1
  else if c = '2' then some 2
  else if c = '3' then some 3
  else if c = '4' then some 4
  else if c = '5' then some 5
  else if c = '6' then some 6
  else if c = '7' then some 7
  else if c = '8' then some 8
  else if c = '9' then some 9
  else if c = 'a' ∨ c = 'A' then some 10
  else if c = 'b' ∨ c = 'B' then some 11
  else if c = 'c' ∨ c = 'C' then some 12
  else if c = 'd' ∨ c = 'D' then some 13
  else if c = 'e' ∨ c = 'E' then some 14
  else if c = 'f' ∨ c = 'F' then some 15
  else none

/-- Lowercase hex character of a nibble value (the source indexes
`"0123456789abcdef"`; values above 15 never occur at call sites). -/
def char_from_nibble (v : Nat) : Char :=
  ("0123456789abcdef".toList).getD v 'x'

/-- The four LSB-first bits `(nib >> i) & 1`, `i = 0..3`, of a nibble. -/
def nib4 (n : Nat) : Bits :=
  [n.testBit 0, n.testBit 1, n.testBit 2, n.testBit 3]

/-- Strips a leading `0x` or `0X`. -/
def dropHexStart : List Char → List Char
  | '0' :: 'x' :: r => r
  | '0' :: 'X' :: r => r
  | l => l

/-- Builds a bit vector from a hex string: last character contributes
bits 0..3, and the result is trimmed of MSB-side zeros. -/
def bv_from_hex_string (s : String) : Option Bits :=
  let u := (dropHexStart s.toList).filter (fun c => c != '_')
  if u = [] then some [false]
  else
    match u.reverse.mapM hex_nibble_from_char with
    | none => none
    | some ns => some (trim_leading (List.flatten (ns.map nib4)))

/-- Collects nibble values LSB-first, four bits at a time. -/
def nibsOf : Bits → List Nat
  | b0 :: b1 :: b2 :: b3 :: rest =>
      (bitVal b0 + 2 * bitVal b1 + 4 * bitVal b2 + 8 * bitVal b3) :: nibsOf rest
  | _ => []

/-- Drops leading `'0'` characters while at least two characters remain. -/
def dropLeadZeros : List Char → List Char
  | '0' :: c :: rest => dropLeadZeros (c :: rest)
  | l => l
termination_by l => l.length

/-- Pads the MSB side with zeros up to a multiple of four bits. -/
def pad4 (b : Bits) : Bits :=
  if b.length % 4 = 0 then b
  else b ++ List.replicate (4 - b.length % 4) false

/-- Formats a bit vector as lowercase minimally-trimmed hex, optionally
prefixed with `0x`. -/
def bv_to_hex_string (b_in : Bits) (prefix0x : Bool) : String :=
  let b := if b_in = [] then [false] else b_in
  let s := ((nibsOf (pad4 b)).map char_from_nibble).reverse
  if prefix0x then String.mk ('0' :: 'x' :: dropLeadZeros s)
  else String.mk (dropLeadZeros s)

/-! ### Twos layer (src/core/twos.cpp) -/

/-- A sign bit and a trimmed, non-empty magnitude. -/
structure SignMag32 where
  sign : Bool
  mag : Bits

/-- Normalizes a vector to exactly 32 bits: sign-extend if shorter,
keep the low 32 bits (`bv_slice(in, 31, 0)`) if longer. -/
def ensure_i32_width (b : Bits) : Bits :=
  if b = [] then zero_extend [false] 32
  else if b.length < 32 then sign_extend b 32
  else if 32 < b.length then b.take 32
  else b

/-- Splits a 32-bit two's-complement vector into sign and trimmed magnitude:
the magnitude of a negative value is its width-32 two's-complement negation. -/
def decode_i32_to_sign_and_magnitude (b32_in : Bits) : SignMag32 :=
  let w := ensure_i32_width b32_in
  let sign := w.getD 31 false
  let mag0 := if sign then trim_leading (twos_negate w) else trim_leading w
  let mag := if mag0 = [] then [false] else mag0
  SignMag32.mk sign mag

/-- Semantic bridge: the signed (two's-complement) value of a 32-bit vector. -/
def sint32 (b : Bits) : Int :=
  if bitsToNat b < 2 ^ 31 then (bitsToNat b : Int)
  else (bitsToNat b : Int) - 2 ^ 32

/-! ### ALU (src/core/alu.cpp)

`alu_execute` zero-extends both operands to 32 bits.  `Add` uses the 32-bit
ripple adder; `Sub` adds the two's-complement negation of the second operand;
every other op selector passes the first operand through.  `add_32` of the
source asserts length 32 and indexes directly, which coincides with the
padded ripple adder on its length-32 arguments. -/

inductive AluOp
  | Add
  | Sub
  | Sll
  | Srl
  | Sra

structure AluFlags where
  N : Bool
  Z : Bool
  C : Bool
  V : Bool

structure AluResult where
  result : Bits
  flags : AluFlags

/-- The 32-bit adder of alu.cpp. -/
def add_32 (a b : Bits) : Bits × Bool := add_unsigned a b 32

/-- 1 iff every bit of the result is 0. -/
def compute_zero_flag (r : Bits) : Bool := r.all (fun bit => bit == false)

/-- The local `twos_negate_32` of alu.cpp: flip all 32 bits, add the
constant one through the full 32-bit adder. -/
def twos_negate_32 (v : Bits) : Bits :=
  (add_32 (v.map (fun x => !x)) (true :: List.replicate 31 false)).1

/-- One ALU operation with N/Z/C/V flag derivation. -/
def alu_execute (a b : Bits) (op : AluOp) : AluResult :=
  let a32 := zero_extend a 32
  let b32 := zero_extend b 32
  match op with
  | AluOp.Add =>
      let add_res := add_32 a32 b32
      let result := add_res.1
      AluResult.mk result
        (AluFlags.mk (result.getD 31 false) (compute_zero_flag result) add_res.2
          (decide (a32.getD 31 false = b32.getD 31 false ∧
            result.getD 31 false ≠ a32.getD 31 false)))
  | AluOp.Sub =>
      let neg_b := twos_negate_32 b32
      let add_res := add_32 a32 neg_b
      let result := add_res.1
      AluResult.mk result
        (AluFlags.mk (result.getD 31 false) (compute_zero_flag result) add_res.2
          (decide (a32.getD 31 false ≠ b32.getD 31 false ∧
            result.getD 31 false ≠ a32.getD 31 false)))
  | _ =>
      AluResult.mk a32
        (AluFlags.mk (a32.getD 31 false) (compute_zero_flag a32) false false)

/-! ### MDU (src/core/mdu.cpp) -/

inductive MulOp
  | Mul
  | Mulh
  | Mulhu
  | Mulhsu

inductive DivOp
  | Div
  | Divu
  | Rem
  | Remu

structure MulResult where
  lo : Bits
  hi : Bits
  overflow : Bool
  trace : List String
deriving DecidableEq

structure DivResult where
  q : Bits
  r : Bits
  overflow : Bool
  trace : List String
deriving DecidableEq

structure UnsignedDivResult where
  q : Bits
  r : Bits
  trace : List String

/-- Two's-complement negation at an arbitrary width (mdu.cpp): invert the low
`width` bits (reading absent positions as 0) and add one. -/
def twos_negate_fixed (v : Bits) (width : Nat) : Bits :=
  let inv := (List.range width).map (fun i => ! v.getD i false)
  let one := if width = 0 then ([] : Bits) else true :: List.replicate (width - 1) false
  (add_unsigned inv one width).1

def is_zero_32 (x : Bits) : Bool := x.all (fun bit => bit == false)

def is_all_ones_32 (x : Bits) : Bool := x.all (fun bit => bit == true)

/-- `0x80000000`: bit 31 set and all lower bits clear. -/
def is_int_min_32 (x : Bits) : Bool :=
  x.getD 31 false && ((List.range 31).all (fun i => x.getD i false == false))

/-- Trace line of one restoring-division step. -/
def divSnapshot (step : Nat) (R Q : Bits) : String :=
  "step " ++ toString step ++ ": R=" ++ bv_to_hex_string R true ++
    " Q=" ++ bv_to_hex_string Q true

/-- One restoring-division step for dividend bit `i`: shift the remainder
left bringing down bit `i`, and subtract the divisor when it fits. -/
def divStep (dividend divisor : Bits) (st : Bits × Bits × List String) (i : Nat) :
    Bits × Bits × List String :=
  let R1 := (shift_left_logical st.1 32).set 0 (dividend.getD i false)
  let cmp := compare_unsigned_32 R1 divisor
  let upd := if 0 ≤ cmp then (subtract_unsigned_32 R1 divisor, st.2.1.set i true)
             else (R1, st.2.1.set i false)
  (upd.1, upd.2, st.2.2 ++ [divSnapshot (31 - i) upd.1 upd.2])

/-- Runs `divStep` for bit indices `i-1, i-2, …, 0` (the source iterates
`i = 31` down to `0`). -/
def divGo (dividend divisor : Bits) : Nat → Bits × Bits × List String →
    Bits × Bits × List String
  | 0, st => st
  | i+1, st => divGo dividend divisor i (divStep dividend divisor st i)

/-- 32-step restoring division of 32-bit magnitudes. -/
def div_unsigned_32 (dividend divisor : Bits) : UnsignedDivResult :=
  let fin := divGo dividend divisor 32
    (List.replicate 32 false, List.replicate 32 false, [])
  UnsignedDivResult.mk fin.2.1 fin.1 fin.2.2

/-- Signed division with the RISC-V special cases. -/
def mdu_div (op : DivOp) (rs1 rs2 : Bits) : DivResult :=
  let rs1_32 := zero_extend rs1 32
  let rs2_32 := zero_extend rs2 32
  match op with
  | DivOp.Div =>
      let sm1 := decode_i32_to_sign_and_magnitude rs1_32
      let sm2 := decode_i32_to_sign_and_magnitude rs2_32
      let mag1 := zero_extend sm1.mag 32
      let mag2 := zero_extend sm2.mag 32
      if is_zero_32 mag2 then
        DivResult.mk (List.replicate 32 true) rs1_32 false
          ["divide-by-zero: q=-1, r=dividend"]
      else if is_int_min_32 rs1_32 && is_all_ones_32 rs2_32 then
        DivResult.mk rs1_32 (List.replicate 32 false) true
          ["INT_MIN / -1 special case"]
      else
        let sign_q := Bool.xor sm1.sign sm2.sign
        let ures := div_unsigned_32 mag1 mag2
        let q_signed := if sign_q then twos_negate_fixed ures.q 32 else ures.q
        let r_signed := if sm1.sign then twos_negate_fixed ures.r 32 else ures.r
        DivResult.mk q_signed r_signed false ures.trace
  | _ => DivResult.mk (List.replicate 32 false) (List.replicate 32 false) false []

/-- Trace line of one shift-add multiply step: high and low halves of the
64-bit product register. -/
def mulSnapshot (step : Nat) (p : Bits) : String :=
  "step " ++ toString step ++
    ": acc=" ++ bv_to_hex_string ((List.range 32).map (fun i => p.getD (32+i) false)) true ++
    " mul=" ++ bv_to_hex_string ((List.range 32).map (fun i => p.getD i false)) true

/-- One shift-add multiply step on the 64-bit register: if the LSB is set add
the multiplicand into the high half (carry past bit 63 discarded), then shift
the whole register right by one. -/
def mulStep (mag1_32 p : Bits) : Bits :=
  let p1 := if p.getD 0 false then
      p.take 32 ++
        (add_unsigned ((List.range 32).map (fun i => p.getD (32+i) false)) mag1_32 32).1
    else p
  shift_right_logical p1 64

/-- 32 multiply steps, snapshotting the register at the start of each step. -/
def mulLoop (mag1_32 p0 : Bits) : Bits × List String :=
  (List.range 32).foldl
    (fun st step => (mulStep mag1_32 st.1, st.2 ++ [mulSnapshot step st.1])) (p0, [])

/-- Signed 32×32→64 multiply via sign/magnitude decomposition and shift-add;
the `op` selector is ignored (the source always behaves like `Mul`). -/
def mdu_mul (op : MulOp) (rs1 rs2 : Bits) : MulResult :=
  let rs1_32 := zero_extend rs1 32
  let rs2_32 := zero_extend rs2 32
  let sm1 := decode_i32_to_sign_and_magnitude rs1_32
  let sm2 := decode_i32_to_sign_and_magnitude rs2_32
  let sign_res := Bool.xor sm1.sign sm2.sign
  let mag1_32 := zero_extend sm1.mag 32
  let mag2_32 := zero_extend sm2.mag 32
  let p0 := mag2_32 ++ List.replicate 32 false
  let lp := mulLoop mag1_32 p0
  let trace := lp.2 ++ [mulSnapshot 32 lp.1]
  let signed_prod := if sign_res then twos_negate_fixed lp.1 64 else lp.1
  let lo := (List.range 32).map (fun i => signed_prod.getD i false)
  let hi := (List.range 32).map (fun i => signed_prod.getD (32 + i) false)
  let sign32 := signed_prod.getD 31 false
  let overflow := (List.range 32).any (fun i => signed_prod.getD (32 + i) false != sign32)
  MulResult.mk lo hi overflow trace

/-! ### FPU (src/core/f32.cpp)

`unpack_f32` splits a 32-bit pattern into sign (bit 31), 8-bit exponent
(bits 23..30) and 23-bit fraction (bits 0..22); `pack_f32` reverses it.
`fmul_f32` classifies the operands (NaN, 0×∞, ∞, 0 in that order), pre-checks
exponent overflow on a 9-bit sum against 382, subtracts the bias 127 in 8
bits flushing to zero on borrow, multiplies the 24-bit significands by a
24-step shift-add over a 48-bit product register, then normalizes. -/

structure F32Fields where
  sign : Bool
  exponent : Bits
  fraction : Bits

structure FpuFlags where
  overflow : Bool
  underflow : Bool
  invalid : Bool
  inexact : Bool
deriving DecidableEq

structure FpuResult where
  bits : Bits
  flags : FpuFlags
  trace : List String
deriving DecidableEq

def bits_all_zero (x : Bits) : Bool := x.all (fun bit => bit == false)

def bits_all_ones (x : Bits) : Bool := x.all (fun bit => bit == true)

def unpack_f32 (bits : Bits) : F32Fields :=
  let b32 := zero_extend bits 32
  F32Fields.mk (b32.getD 31 false)
    ((List.range 8).map (fun i => b32.getD (23 + i) false))
    ((List.range 23).map (fun i => b32.getD i false))

def pack_f32 (f : F32Fields) : Bits :=
  (List.range 32).map (fun i =>
    if i = 31 then f.sign
    else if 23 ≤ i then f.exponent.getD (i - 23) false
    else f.fraction.getD i false)

/-- The canonical quiet NaN pattern used by fmul, parsed exactly as the
source does (`bv_from_hex_string("0x7fc00000")`, which cannot fail). -/
def nan_bits : Bits := (bv_from_hex_string "0x7fc00000").getD []

/-- The 24-step shift-add significand multiply: state is
(product, multiplicand, multiplier). -/
def fmulLoop : Nat → Bits × Bits × Bits → Bits × Bits × Bits
  | 0, st => st
  | n+1, st =>
      let prod := if st.2.2.getD 0 false then (add_unsigned st.1 st.2.1 48).1 else st.1
      fmulLoop n (prod, shift_left_logical st.2.1 48, shift_right_logical st.2.2 24)

/-- Common tail of fmul after normalization chose the significand window:
flush to ±0 on an all-zero exponent, saturate to ±∞ on an all-ones exponent,
otherwise pack the result. -/
def fmulFinish (sign_res : Bool) (exp_res : Bits) (prod : Bits) (shift : Nat) :
    FpuResult :=
  let sig_res := (List.range 24).map (fun i =>
    if i + shift < 48 then prod.getD (i + shift) false else false)
  if bits_all_zero exp_res then
    FpuResult.mk
      (pack_f32 (F32Fields.mk sign_res (List.replicate 8 false) (List.replicate 23 false)))
      (FpuFlags.mk false true false false)
      ["fmul_f32 start", "fmul_f32: after significand multiply",
        "fmul_f32: underflow to zero"]
  else if bits_all_ones exp_res then
    FpuResult.mk
      (pack_f32 (F32Fields.mk sign_res (List.replicate 8 true) (List.replicate 23 false)))
      (FpuFlags.mk true false false false)
      ["fmul_f32 start", "fmul_f32: after significand multiply",
        "fmul_f32: overflow to inf"]
  else
    FpuResult.mk
      (pack_f32 (F32Fields.mk sign_res exp_res
        ((List.range 23).map (fun i => sig_res.getD i false))))
      (FpuFlags.mk false false false false)
      ["fmul_f32 start", "fmul_f32: after significand multiply",
        "fmul_f32: normal finite result"]

/-- The arithmetic tail of fmul for two finite, non-zero-classified 32-bit
operands: 9-bit exponent-sum pre-check against 382, 8-bit bias subtraction
with flush-to-zero on borrow, 24-step significand multiply, normalization. -/
def fmulArith (a32 b32 : Bits) : FpuResult :=
  let fa := unpack_f32 a32
  let fb := unpack_f32 b32
  let sign_res := Bool.xor fa.sign fb.sign
  let expA_zero := bits_all_zero fa.exponent
  let expB_zero := bits_all_zero fb.exponent
  let expA9 := fa.exponent ++ [false]
  let expB9 := fb.exponent ++ [false]
  let exp_sum9 := (add_unsigned expA9 expB9 9).1
  let thresh382 : Bits := [false, true, true, true, true, true, true, false, true]
  if 0 ≤ compare_unsigned exp_sum9 thresh382 then
    FpuResult.mk
      (pack_f32 (F32Fields.mk sign_res (List.replicate 8 true) (List.replicate 23 false)))
      (FpuFlags.mk true false false false)
      ["fmul_f32 start", "fmul_f32: pre-check exponent overflow"]
  else
    let exp_sum := (add_unsigned fa.exponent fb.exponent 8).1
    let bias : Bits := [true, true, true, true, true, true, true, false]
    let sub := subtract_unsigned exp_sum bias 8
    if sub.2 then
      FpuResult.mk
        (pack_f32 (F32Fields.mk sign_res (List.replicate 8 false) (List.replicate 23 false)))
        (FpuFlags.mk false true false false)
        ["fmul_f32 start", "fmul_f32: exponent underflow before normalization"]
    else
      let sigA := (List.range 24).map (fun i =>
        if i = 23 then !expA_zero else fa.fraction.getD i false)
      let sigB := (List.range 24).map (fun i =>
        if i = 23 then !expB_zero else fb.fraction.getD i false)
      let fin := fmulLoop 24 (List.replicate 48 false, sigA ++ List.replicate 24 false, sigB)
      if fin.1.getD 47 false then
        let bump := add_unsigned sub.1 (true :: List.replicate 7 false) 8
        if bump.2 then
          FpuResult.mk
            (pack_f32 (F32Fields.mk sign_res (List.replicate 8 true) (List.replicate 23 false)))
            (FpuFlags.mk true false false false)
            ["fmul_f32 start", "fmul_f32: after significand multiply",
              "fmul_f32: exponent overflow after normalization"]
        else
          fmulFinish sign_res bump.1 fin.1 24
      else
        fmulFinish sign_res sub.1 fin.1 23

/-- IEEE-754 binary32 multiplication on bit patterns. -/
def fmul_f32 (a b : Bits) : FpuResult :=
  let a32 := zero_extend a 32
  let b32 := zero_extend b 32
  let fa := unpack_f32 a32
  let fb := unpack_f32 b32
  let sign_res := Bool.xor fa.sign fb.sign
  let expA_zero := bits_all_zero fa.exponent
  let expB_zero := bits_all_zero fb.exponent
  let expA_ones := bits_all_ones fa.exponent
  let expB_ones := bits_all_ones fb.exponent
  let fracA_zero := bits_all_zero fa.fraction
  let fracB_zero := bits_all_zero fb.fraction
  let a_is_zero := expA_zero && fracA_zero
  let b_is_zero := expB_zero && fracB_zero
  let a_is_inf := expA_ones && fracA_zero
  let b_is_inf := expB_ones && fracB_zero
  let a_is_nan := expA_ones && !fracA_zero
  let b_is_nan := expB_ones && !fracB_zero
  if a_is_nan || b_is_nan then
    FpuResult.mk nan_bits (FpuFlags.mk false false true false)
      ["fmul_f32 start", "fmul_f32: NaN operand"]
  else if (a_is_inf && b_is_zero) || (b_is_inf && a_is_zero) then
    FpuResult.mk nan_bits (FpuFlags.mk false false true false)
      ["fmul_f32 start", "fmul_f32: 0 * inf invalid"]
  else if a_is_inf || b_is_inf then
    FpuResult.mk
      (pack_f32 (F32Fields.mk sign_res (List.replicate 8 true) (List.replicate 23 false)))
      (FpuFlags.mk false false false false)
      ["fmul_f32 start", "fmul_f32: inf result"]
  else if a_is_zero || b_is_zero then
    FpuResult.mk
      (pack_f32 (F32Fields.mk sign_res (List.replicate 8 false) (List.replicate 23 false)))
      (FpuFlags.mk false false false false)
      ["fmul_f32 start", "fmul_f32: zero result"]
  else
    fmulArith a32 b32

/-! ### CPU (src/core/rv32_cpu.cpp)

`CpuState` holds 32 host-width registers, a program counter and a flat byte
memory.  Register reads of x0 give 0 and writes to x0 are discarded.  The
assertions of the source (4-aligned PC, in-bounds memory access) become
`Option`: a violated assertion is `none`.  All 32-bit host arithmetic wraps
modulo `2^32`. -/

structure CpuState where
  regs : List Nat
  pc : Nat
  mem : List Nat
deriving DecidableEq

def initCpu (mem_size : Nat) : CpuState :=
  CpuState.mk (List.replicate 32 0) 0 (List.replicate mem_size 0)

def resetCpu (s : CpuState) : CpuState :=
  CpuState.mk (List.replicate 32 0) 0 (List.replicate s.mem.length 0)

/-- Reads a little-endian 32-bit word; the source asserts
`addr + 3 < mem.size()`. -/
def load_u32 (mem : List Nat) (addr : Nat) : Option Nat :=
  if addr + 3 < mem.length then
    some (mem.getD addr 0 + 2 ^ 8 * mem.getD (addr+1) 0 +
      2 ^ 16 * mem.getD (addr+2) 0 + 2 ^ 24 * mem.getD (addr+3) 0)
  else none

/-- Stores a little-endian 32-bit word under the same bounds assertion. -/
def store_u32_mem (mem : List Nat) (addr value : Nat) : Option (List Nat) :=
  if addr + 3 < mem.length then
    some ((((mem.set addr (value % 256)).set (addr+1) (value / 2 ^ 8 % 256)).set
      (addr+2) (value / 2 ^ 16 % 256)).set (addr+3) (value / 2 ^ 24 % 256))
  else none

/-- Writes the program words at consecutive addresses. -/
def load_words (mem : List Nat) (addr : Nat) : List Nat → Option (List Nat)
  | [] => some mem
  | w :: ws =>
      match store_u32_mem mem addr w with
      | none => none
      | some m2 => load_words m2 (addr + 4) ws

/-- Loads a program into memory and points the PC at its base. -/
def load_program (s : CpuState) (words : List Nat) (base_addr : Nat) :
    Option CpuState :=
  match load_words s.mem base_addr words with
  | none => none
  | some m2 => some (CpuState.mk s.regs base_addr m2)

/-- `(int32_t)(x << (32-bits)) >> (32-bits)`: the signed value of the low
`bits` bits. -/
def sign_extend_imm (x : Nat) (bits : Nat) : Int :=
  let m := x % 2 ^ bits
  if m < 2 ^ (bits - 1) then (m : Int) else (m : Int) - 2 ^ bits

/-- Wraps an integer into an unsigned 32-bit value. -/
def toU32 (i : Int) : Nat := (i % ((2 : Int) ^ 32)).toNat

/-- Register read: x0 is hard-wired to 0. -/
def readReg (regs : List Nat) (idx : Nat) : Nat :=
  if idx = 0 then 0 else regs.getD idx 0

/-- Register write: writes to x0 are discarded. -/
def writeReg (regs : List Nat) (idx v : Nat) : List Nat :=
  if idx = 0 then regs else regs.set idx v

/-- Arithmetic right shift of an unsigned 32-bit value read as signed. -/
def sra32 (x s : Nat) : Nat :=
  toU32 (Int.ediv (if x < 2 ^ 31 then (x : Int) else (x : Int) - 2 ^ 32) (2 ^ s))

/-- One fetch/decode/execute step.  `none` models an assertion failure
(misaligned PC or out-of-bounds access). -/
def stepCpu (s : CpuState) : Option CpuState :=
  if s.pc % 4 ≠ 0 then none
  else match load_u32 s.mem s.pc with
  | none => none
  | some instr =>
    let opcode := instr % 2 ^ 7
    let rd := instr / 2 ^ 7 % 2 ^ 5
    let funct3 := instr / 2 ^ 12 % 2 ^ 3
    let rs1 := instr / 2 ^ 15 % 2 ^ 5
    let rs2 := instr / 2 ^ 20 % 2 ^ 5
    let funct7 := instr / 2 ^ 25 % 2 ^ 7
    let next_pc := (s.pc + 4) % 2 ^ 32
    if opcode = 0x13 then
      let imm := sign_extend_imm (instr / 2 ^ 20) 12
      let val1 := readReg s.regs rs1
      let shamt := instr / 2 ^ 20 % 32
      if funct3 = 0 then
        some (CpuState.mk (writeReg s.regs rd (toU32 ((val1 : Int) + imm))) next_pc s.mem)
      else if funct3 = 7 then
        some (CpuState.mk (writeReg s.regs rd (Nat.land val1 (toU32 imm))) next_pc s.mem)
      else if funct3 = 6 then
        some (CpuState.mk (writeReg s.regs rd (Nat.lor val1 (toU32 imm))) next_pc s.mem)
      else if funct3 = 4 then
        some (CpuState.mk (writeReg s.regs rd (Nat.xor val1 (toU32 imm))) next_pc s.mem)
      else if funct3 = 1 then
        some (CpuState.mk (writeReg s.regs rd (val1 * 2 ^ shamt % 2 ^ 32)) next_pc s.mem)
      else if funct3 = 5 then
        if funct7 = 0 then
          some (CpuState.mk (writeReg s.regs rd (val1 / 2 ^ shamt)) next_pc s.mem)
        else if funct7 = 0x20 then
          some (CpuState.mk (writeReg s.regs rd (sra32 val1 shamt)) next_pc s.mem)
        else some (CpuState.mk s.regs next_pc s.mem)
      else some (CpuState.mk s.regs next_pc s.mem)
    else if opcode = 0x33 then
      let val1 := readReg s.regs rs1
      let val2 := readReg s.regs rs2
      if funct3 = 0 then
        if funct7 = 0 then
          some (CpuState.mk (writeReg s.regs rd ((val1 + val2) % 2 ^ 32)) next_pc s.mem)
        else if funct7 = 0x20 then
          some (CpuState.mk
            (writeReg s.regs rd ((val1 + (2 ^ 32 - val2 % 2 ^ 32)) % 2 ^ 32)) next_pc s.mem)
        else some (CpuState.mk s.regs next_pc s.mem)
      else if funct3 = 7 then
        some (CpuState.mk (writeReg s.regs rd (Nat.land val1 val2)) next_pc s.mem)
      else if funct3 = 6 then
        some (CpuState.mk (writeReg s.regs rd (Nat.lor val1 val2)) next_pc s.mem)
      else if funct3 = 4 then
        some (CpuState.mk (writeReg s.regs rd (Nat.xor val1 val2)) next_pc s.mem)
      else if funct3 = 1 then
        some (CpuState.mk (writeReg s.regs rd (val1 * 2 ^ (val2 % 32) % 2 ^ 32)) next_pc s.mem)
      else if funct3 = 5 then
        if funct7 = 0 then
          some (CpuState.mk (writeReg s.regs rd (val1 / 2 ^ (val2 % 32))) next_pc s.mem)
        else if funct7 = 0x20 then
          some (CpuState.mk (writeReg s.regs rd (sra32 val1 (val2 % 32))) next_pc s.mem)
        else some (CpuState.mk s.regs next_pc s.mem)
      else some (CpuState.mk s.regs next_pc s.mem)
    else if opcode = 0x03 then
      let imm := sign_extend_imm (instr / 2 ^ 20) 12
      let addr := toU32 ((readReg s.regs rs1 : Int) + imm)
      if funct3 = 2 then
        match load_u32 s.mem addr with
        | none => none
        | some v => some (CpuState.mk (writeReg s.regs rd v) next_pc s.mem)
      else some (CpuState.mk s.regs next_pc s.mem)
    else if opcode = 0x23 then
      let imm_u := (instr / 2 ^ 25) * 2 ^ 5 + (instr / 2 ^ 7 % 2 ^ 5)
      let imm := sign_extend_imm imm_u 12
      let addr := toU32 ((readReg s.regs rs1 : Int) + imm)
      if funct3 = 2 then
        match store_u32_mem s.mem addr (readReg s.regs rs2) with
        | none => none
        | some m2 => some (CpuState.mk s.regs next_pc m2)
      else some (CpuState.mk s.regs next_pc s.mem)
    else if opcode = 0x63 then
      let imm_u := (instr / 2 ^ 31 % 2) * 2 ^ 12 + (instr / 2 ^ 7 % 2) * 2 ^ 11 +
        (instr / 2 ^ 25 % 2 ^ 6) * 2 ^ 5 + (instr / 2 ^ 8 % 2 ^ 4) * 2
      let offset := sign_extend_imm imm_u 13
      let val1 := readReg s.regs rs1
      let val2 := readReg s.regs rs2
      let tk : Bool := if funct3 = 0 then val1 == val2
        else if funct3 = 1 then val1 != val2 else false
      some (CpuState.mk s.regs
        (if tk then toU32 ((s.pc : Int) + offset) else next_pc) s.mem)
    else if opcode = 0x6F then
      let imm_u := (instr / 2 ^ 31 % 2) * 2 ^ 20 + (instr / 2 ^ 12 % 2 ^ 8) * 2 ^ 12 +
        (instr / 2 ^ 20 % 2) * 2 ^ 11 + (instr / 2 ^ 21 % 2 ^ 10) * 2
      let offset := sign_extend_imm imm_u 21
      some (CpuState.mk (writeReg s.regs rd ((s.pc + 4) % 2 ^ 32))
        (toU32 ((s.pc : Int) + offset)) s.mem)
    else if opcode = 0x67 then
      let imm := sign_extend_imm (instr / 2 ^ 20) 12
      let target := toU32 ((readReg s.regs rs1 : Int) + imm)
      some (CpuState.mk (writeReg s.regs rd ((s.pc + 4) % 2 ^ 32))
        (target - target % 2) s.mem)
    else if opcode = 0x17 then
      let imm20 := instr / 2 ^ 12 * 2 ^ 12
      some (CpuState.mk (writeReg s.regs rd ((s.pc + imm20) % 2 ^ 32)) next_pc s.mem)
    else if opcode = 0x37 then
      let imm20 := instr / 2 ^ 12 * 2 ^ 12
      some (CpuState.mk (writeReg s.regs rd imm20) next_pc s.mem)
    else some (CpuState.mk s.regs next_pc s.mem)

/-- States reachable from construction through `reset`, `load_program` and
`step`. -/
inductive Reach : CpuState → Prop
  | init : ∀ n, Reach (initCpu n)
  | reset : ∀ s, Reach s → Reach (resetCpu s)
  | load : ∀ s ws base s2, Reach s → load_program s ws base = some s2 → Reach s2
  | step : ∀ s s2, Reach s → stepCpu s = some s2 → Reach s2

/-- Substring containment on strings, witnessed by an explicit split. -/
def strContains (s pat : String) : Prop :=
  ∃ p q, s.toList = p ++ pat.toList ++ q

/-! ### FPU classification predicates (the helpers of f32.cpp) -/

/-- Zero: exponent all-zero and fraction all-zero. -/
def f32_is_zero (x : Bits) : Bool :=
  bits_all_zero (unpack_f32 x).exponent && bits_all_zero (unpack_f32 x).fraction

/-- Infinity: exponent all-ones and fraction all-zero. -/
def f32_is_inf (x : Bits) : Bool :=
  bits_all_ones (unpack_f32 x).exponent && bits_all_zero (unpack_f32 x).fraction

/-- NaN: exponent all-ones and fraction non-zero. -/
def f32_is_nan (x : Bits) : Bool :=
  bits_all_ones (unpack_f32 x).exponent && ! bits_all_zero (unpack_f32 x).fraction

/-- Concrete 32-bit pattern 0x7FC00001 (a quiet NaN). -/
def c6a : Bits := (List.range 32).map (fun i => (0x7FC00001 : Nat).testBit i)

/-- Concrete 32-bit pattern 0x3F800000 (the value 1.0). -/
def c6b : Bits := (List.range 32).map (fun i => (0x3F800000 : Nat).testBit i)

/-- The 32-bit pattern 0x4B000000: sign 0, biased exponent 150, fraction 0. -/
def c1x : Bits := (List.range 32).map (fun i => (0x4B000000 : Nat).testBit i)

/-- The 32-bit pattern 0x00800000: sign 0, biased exponent 1, fraction 0. -/
def c1w : Bits := (List.range 32).map (fun i => (0x00800000 : Nat).testBit i)

/-- Witness operands for the multiply claim: `5` and `-3` as 32-bit vectors. -/
def c2wa : Bits := (List.range 32).map (Nat.testBit 5)

def c2wb : Bits := (List.range 32).map (Nat.testBit 4294967293)

/-- Witness operands for the division claim: `-7` and `3` as 32-bit vectors. -/
def c3wa : Bits := (List.range 32).map (Nat.testBit 4294967289)

def c3wb : Bits := (List.range 32).map (Nat.testBit 3)

/-! ### Hex round-trip: digit values and minimal hex form -/

/-- Value of a little-endian (LSB-first) list of base-16 digits. -/
def digsVal : List Nat → Nat
  | [] => 0
  | d :: r => d + 16 * digsVal r

/-- Little-endian minimal hex digits of a number (empty for 0). -/
def hexRev (n : Nat) : List Char :=
  if h : n = 0 then [] else char_from_nibble (n % 16) :: hexRev (n / 16)
termination_by n
decreasing_by exact Nat.div_lt_self (Nat.pos_of_ne_zero h) (by norm_num)

/-- Big-endian minimal lowercase hex digits of a number (`"0"` for 0). -/
def hexMin (n : Nat) : List Char :=
  if n = 0 then ['0'] else (hexRev n).reverse

/-- Spec-side normal form of a hex string: prefix normalized to `0x`,
underscores removed, characters lowercased, leading zeros trimmed down to at
least one digit. -/
def hexNormalize (s : String) : String :=
  String.mk ('0' :: 'x' ::
    dropLeadZeros (((dropHexStart s.toList).filter (fun c => c != '_')).map Char.toLower))

/-- The last (most significant) digit of a little-endian digit list is nonzero. -/
def dsLastNonzero : List Nat → Prop
  | [] => True
  | [d] => d ≠ 0
  | _ :: r => dsLastNonzero r

/-- Witness memory: the single instruction `addi x0, x0, 1` (0x00100013)
stored little-endian at address 0. -/
def c9mem : List Nat := [0x13, 0x00, 0x10, 0x00] ++ List.replicate 12 0

def c9s : CpuState := CpuState.mk (List.replicate 32 0) 0 c9mem

def c9s2 : CpuState := CpuState.mk (List.replicate 32 0) 4 c9mem

/-! ### Basic value lemmas -/

theorem bitVal_le_one (b : Bool) : bitVal b ≤ 1 := by
  cases b <;> simp [bitVal]

theorem bitVal_false : bitVal false = 0 := rfl

theorem bitVal_true : bitVal true = 1 := rfl

theorem bitsToNat_lt (l : Bits) : bitsToNat l < 2 ^ l.length := by
  induction l with
  | nil => simp [bitsToNat]
  | cons b r ih =>
    have hb := bitVal_le_one b
    simp only [bitsToNat, List.length_cons, pow_succ]
    omega

theorem bitsToNat_append (a b : Bits) :
    bitsToNat (a ++ b) = bitsToNat a + 2 ^ a.length * bitsToNat b := by
  induction a with
  | nil => simp [bitsToNat]
  | cons x r ih =>
    simp only [List.cons_append, bitsToNat, List.append_eq, ih,
      List.length_cons, pow_succ]
    ring

theorem bitsToNat_replicate_false (n : Nat) :
    bitsToNat (List.replicate n false) = 0 := by
  induction n with
  | zero => rfl
  | succ k ih => simp [List.replicate, bitsToNat, ih, bitVal]

theorem bitsToNat_append_replicate_false (a : Bits) (n : Nat) :
    bitsToNat (a ++ List.replicate n false) = bitsToNat a := by
  simp [bitsToNat_append, bitsToNat_replicate_false]

theorem bitsToNat_take_add_drop (l : Bits) (n : Nat) :
    bitsToNat l = bitsToNat (l.take n) + 2 ^ (l.take n).length * bitsToNat (l.drop n) := by
  conv_lhs => rw [← List.take_append_drop n l]
  rw [bitsToNat_append]

theorem bitsToNat_take (l : Bits) (n : Nat) :
    bitsToNat (List.take n l) = bitsToNat l % 2 ^ n := by
  rcases le_or_lt n l.length with h | h
  · have hlen : (l.take n).length = n := by
      simp [List.length_take]
      omega
    have hlt : bitsToNat (l.take n) < 2 ^ n := by
      have := bitsToNat_lt (l.take n)
      rwa [hlen] at this
    have hdec := bitsToNat_take_add_drop l n
    rw [hlen] at hdec
    rw [hdec, Nat.add_mul_mod_self_left, Nat.mod_eq_of_lt hlt]
  · have hle : l.length ≤ n := le_of_lt h
    rw [List.take_of_length_le hle]
    have : bitsToNat l < 2 ^ n :=
      lt_of_lt_of_le (bitsToNat_lt l) (Nat.pow_le_pow_right (by norm_num) hle)
    exact (Nat.mod_eq_of_lt this).symm

theorem bitsToNat_drop (l : Bits) (n : Nat) :
    bitsToNat (List.drop n l) = bitsToNat l / 2 ^ n := by
  rcases le_or_lt n l.length with h | h
  · have hlen : (l.take n).length = n := by
      simp [List.length_take]
      omega
    have hlt : bitsToNat (l.take n) < 2 ^ n := by
      have := bitsToNat_lt (l.take n)
      rwa [hlen] at this
    have hdec := bitsToNat_take_add_drop l n
    rw [hlen] at hdec
    rw [hdec, Nat.add_mul_div_left _ _ (Nat.pos_pow_of_pos n (by norm_num)),
      Nat.div_eq_of_lt hlt]
    omega
  · have hle : l.length ≤ n := le_of_lt h
    rw [List.drop_of_length_le hle]
    have : bitsToNat l < 2 ^ n :=
      lt_of_lt_of_le (bitsToNat_lt l) (Nat.pow_le_pow_right (by norm_num) hle)
    simp [bitsToNat, Nat.div_eq_of_lt this]

theorem getD_eq_testBit (l : Bits) (i : Nat) :
    l.getD i false = (bitsToNat l).testBit i := by
  induction l generalizing i with
  | nil => simp [bitsToNat, List.getD]
  | cons b r ih =>
    cases i with
    | zero =>
      cases b <;>
        simp [bitsToNat, bitVal, List.getD, Nat.testBit_zero,
          Nat.add_mul_mod_self_left]
    | succ j =>
      have hgd : (b :: r).getD (j+1) false = r.getD j false := by simp [List.getD]
      rw [hgd, ih]
      have hv : bitsToNat (b :: r) = bitVal b + 2 * bitsToNat r := rfl
      rw [hv]
      rcases Bool.dichotomy b with hb | hb
      · subst hb
        have hq : (bitVal false + 2 * bitsToNat r) / 2 = bitsToNat r := by
          simp [bitVal]
        rw [Nat.testBit_succ, hq]
      · subst hb
        have hq : (bitVal true + 2 * bitsToNat r) / 2 = bitsToNat r := by
          simp [bitVal]
          omega
        rw [Nat.testBit_succ, hq]

theorem valW_succ (n : Nat) (l : Bits) :
    valW (n+1) l = bitVal (l.headD false) + 2 * valW n l.tail := by
  cases l with
  | nil => simp [valW, bitsToNat, bitVal]
  | cons b r => simp [valW, bitsToNat]

theorem valW_eq_mod (n : Nat) (l : Bits) : valW n l = bitsToNat l % 2 ^ n :=
  bitsToNat_take l n

theorem valW_of_length_le (n : Nat) (l : Bits) (h : l.length ≤ n) :
    valW n l = bitsToNat l := by
  rw [valW, List.take_of_length_le h]

theorem valW_lt (n : Nat) (l : Bits) : valW n l < 2 ^ n := by
  rw [valW_eq_mod]
  exact Nat.mod_lt _ (Nat.pos_pow_of_pos n (by norm_num))

/-- Two bit vectors of the same length with the same value are equal. -/
theorem bitsToNat_inj (a b : Bits) (hlen : a.length = b.length)
    (hval : bitsToNat a = bitsToNat b) : a = b := by
  induction a generalizing b with
  | nil => cases b with
    | nil => rfl
    | cons y r => simp at hlen
  | cons x r ih =>
    cases b with
    | nil => simp at hlen
    | cons y s =>
      simp only [List.length_cons, Nat.succ_inj] at hlen
      have hx := bitVal_le_one x
      have hy := bitVal_le_one y
      have hv : bitVal x + 2 * bitsToNat r = bitVal y + 2 * bitsToNat s := hval
      have hxy : bitVal x = bitVal y := by omega
      have hb : x = y := by
        cases x <;> cases y <;> simp [bitVal] at hxy ⊢
      subst hb
      have : bitsToNat r = bitsToNat s := by omega
      rw [ih s hlen this]

/-! ### Lemmas about the substrate -/

theorem trim_leading_append_replicate (l : Bits) (h : l ≠ []) :
    ∃ k, trim_leading l ++ List.replicate k false = l := by
  unfold trim_leading
  rw [if_neg h]
  have htd := List.takeWhile_append_dropWhile (fun x => x == false) l.reverse
  have htake : l.reverse.takeWhile (fun x => x == false) =
      List.replicate (l.reverse.takeWhile (fun x => x == false)).length false := by
    apply List.eq_replicate_of_mem
    intro b hb
    have := List.mem_takeWhile_imp hb
    simpa using this
  by_cases hrnil : l.reverse.dropWhile (fun x => x == false) = []
  · rw [if_pos hrnil]
    rw [hrnil, List.append_nil] at htd
    refine ⟨l.length - 1, ?_⟩
    have hlenT : (List.takeWhile (fun x => x == false) l.reverse).length = l.length := by
      rw [htd, List.length_reverse]
    have h2 : l.reverse = List.replicate l.length false := by
      conv_lhs => rw [← htd, htake, hlenT]
    have hl : l = List.replicate l.length false := by
      have h3 := congrArg List.reverse h2
      rwa [List.reverse_reverse, List.reverse_replicate] at h3
    conv_rhs => rw [hl]
    have hpos : 1 ≤ l.length := by
      cases l with
      | nil => exact absurd rfl h
      | cons x xs => simp
    have hlen : l.length = (l.length - 1) + 1 := by omega
    rw [hlen, List.replicate_succ]
    rfl
  · rw [if_neg hrnil]
    refine ⟨(l.reverse.takeWhile (fun x => x == false)).length, ?_⟩
    have h5 := congrArg List.reverse htd
    rw [List.reverse_append, List.reverse_reverse] at h5
    conv_rhs => rw [← h5]
    congr 1
    rw [htake, List.reverse_replicate]
    simp

theorem trim_leading_ne_nil (l : Bits) : trim_leading l ≠ [] := by
  unfold trim_leading
  by_cases h1 : l = []
  · rw [if_pos h1]
    simp
  · rw [if_neg h1]
    by_cases h2 : l.reverse.dropWhile (fun x => x == false) = []
    · rw [if_pos h2]
      simp
    · rw [if_neg h2]
      simpa using h2

theorem trim_leading_length_le (l : Bits) (h : l ≠ []) :
    (trim_leading l).length ≤ l.length := by
  obtain ⟨k, hk⟩ := trim_leading_append_replicate l h
  have := congrArg List.length hk
  simp at this
  omega

theorem bitsToNat_trim_leading (l : Bits) :
    bitsToNat (trim_leading l) = bitsToNat l := by
  by_cases h : l = []
  · subst h
    simp [trim_leading, bitsToNat, bitVal]
  · obtain ⟨k, hk⟩ := trim_leading_append_replicate l h
    conv_rhs => rw [← hk]
    rw [bitsToNat_append_replicate_false]

theorem addOneRipple_length (l : Bits) : (addOneRipple l).length = l.length := by
  induction l with
  | nil => rfl
  | cons b r ih =>
    cases b <;> simp [addOneRipple, ih]

theorem addOneRipple_val (l : Bits) :
    bitsToNat (addOneRipple l) = (bitsToNat l + 1) % 2 ^ l.length := by
  induction l with
  | nil => simp [addOneRipple, bitsToNat]
  | cons b r ih =>
    have hvF : ∀ t : Bits, bitsToNat (false :: t) = 2 * bitsToNat t := by
      intro t
      simp [bitsToNat, bitVal]
    have hvT : ∀ t : Bits, bitsToNat (true :: t) = 1 + 2 * bitsToNat t := by
      intro t
      simp [bitsToNat, bitVal]
    cases b with
    | false =>
      have h1 : addOneRipple (false :: r) = true :: r := rfl
      have hr := bitsToNat_lt r
      rw [h1, hvT, hvF, List.length_cons,
        Nat.mod_eq_of_lt (by rw [pow_succ]; omega)]
      omega
    | true =>
      have h1 : addOneRipple (true :: r) = false :: addOneRipple r := rfl
      rw [h1, hvF, ih, hvT, List.length_cons]
      have h2 : 1 + 2 * bitsToNat r + 1 = 2 * (bitsToNat r + 1) := by omega
      rw [h2, pow_succ, Nat.mul_comm (2 ^ r.length) 2, Nat.mul_mod_mul_left]

theorem map_not_val (l : Bits) :
    bitsToNat (l.map (fun x => !x)) = 2 ^ l.length - 1 - bitsToNat l := by
  induction l with
  | nil => simp [bitsToNat]
  | cons b r ih =>
    have hr := bitsToNat_lt r
    have hrn := bitsToNat_lt (r.map (fun x => !x))
    rw [List.length_map] at hrn
    have hvF : ∀ t : Bits, bitsToNat (false :: t) = 2 * bitsToNat t := by
      intro t
      simp [bitsToNat, bitVal]
    have hvT : ∀ t : Bits, bitsToNat (true :: t) = 1 + 2 * bitsToNat t := by
      intro t
      simp [bitsToNat, bitVal]
    cases b with
    | false =>
      have h1 : (false :: r).map (fun x => !x) = true :: r.map (fun x => !x) := rfl
      rw [h1, hvT, hvF, ih, List.length_cons, pow_succ]
      omega
    | true =>
      have h1 : (true :: r).map (fun x => !x) = false :: r.map (fun x => !x) := rfl
      rw [h1, hvF, hvT, ih, List.length_cons, pow_succ]
      omega

theorem twos_negate_length (b : Bits) (h : b ≠ []) :
    (twos_negate b).length = b.length := by
  rw [twos_negate, if_neg h, addOneRipple_length, List.length_map]

theorem twos_negate_val (b : Bits) (h : b ≠ []) :
    bitsToNat (twos_negate b) = (2 ^ b.length - bitsToNat b) % 2 ^ b.length := by
  rw [twos_negate, if_neg h, addOneRipple_val, map_not_val, List.length_map]
  have := bitsToNat_lt b
  congr 1
  omega

theorem rippleAdd_length (a b : Bits) (c : Bool) (n : Nat) :
    (rippleAdd a b c n).1.length = n := by
  induction n generalizing a b c with
  | zero => rfl
  | succ m ih => simp [rippleAdd, ih]

theorem fullAdder_identity (ai bi c : Bool) :
    bitVal (Bool.xor (Bool.xor ai bi) c) +
      2 * bitVal ((ai && bi) || (ai && c) || (bi && c)) =
    bitVal ai + bitVal bi + bitVal c := by
  cases ai <;> cases bi <;> cases c <;> rfl

theorem rippleAdd_val (a b : Bits) (c : Bool) (n : Nat) :
    bitsToNat (rippleAdd a b c n).1 + 2 ^ n * bitVal (rippleAdd a b c n).2 =
      valW n a + valW n b + bitVal c := by
  induction n generalizing a b c with
  | zero => simp [rippleAdd, bitsToNat, valW]
  | succ m ih =>
    simp only [rippleAdd, bitsToNat]
    rw [valW_succ m a, valW_succ m b]
    have hih := ih a.tail b.tail
      ((a.headD false && b.headD false) || (a.headD false && c) || (b.headD false && c))
    have hfa := fullAdder_identity (a.headD false) (b.headD false) c
    rw [pow_succ]
    set res := rippleAdd a.tail b.tail
      ((a.headD false && b.headD false) || (a.headD false && c) || (b.headD false && c)) m
      with hres
    cases hco : res.2
    · rw [hco] at hih
      rw [bitVal_false] at hih ⊢
      omega
    · rw [hco] at hih
      rw [bitVal_true] at hih ⊢
      omega

theorem fullSub_identity (ai bi c : Bool) :
    bitVal ai + 2 * bitVal (((!ai) && (bi || c)) || (bi && c)) =
      bitVal (Bool.xor (Bool.xor ai bi) c) + bitVal bi + bitVal c := by
  cases ai <;> cases bi <;> cases c <;> rfl

theorem rippleSub_length (a b : Bits) (c : Bool) (n : Nat) :
    (rippleSub a b c n).1.length = n := by
  induction n generalizing a b c with
  | zero => rfl
  | succ m ih => simp [rippleSub, ih]

theorem rippleSub_val (a b : Bits) (c : Bool) (n : Nat) :
    valW n a + 2 ^ n * bitVal (rippleSub a b c n).2 =
      bitsToNat (rippleSub a b c n).1 + valW n b + bitVal c := by
  induction n generalizing a b c with
  | zero => simp [rippleSub, bitsToNat, valW]
  | succ m ih =>
    simp only [rippleSub, bitsToNat]
    rw [valW_succ m a, valW_succ m b]
    have hih := ih a.tail b.tail
      (((!a.headD false) && (b.headD false || c)) || (b.headD false && c))
    have hfs := fullSub_identity (a.headD false) (b.headD false) c
    rw [pow_succ]
    set res := rippleSub a.tail b.tail
      (((!a.headD false) && (b.headD false || c)) || (b.headD false && c)) m
      with hres
    cases hco : res.2
    · rw [hco] at hih
      rw [bitVal_false] at hih ⊢
      omega
    · rw [hco] at hih
      rw [bitVal_true] at hih ⊢
      omega

theorem rippleSub_borrow_iff (a b : Bits) (n : Nat) :
    (rippleSub a b false n).2 = true ↔ valW n a < valW n b := by
  have hid := rippleSub_val a b false n
  have hdlt : bitsToNat (rippleSub a b false n).1 < 2 ^ n := by
    have := bitsToNat_lt (rippleSub a b false n).1
    rwa [rippleSub_length] at this
  have hblt := valW_lt n b
  constructor
  · intro h
    rw [h] at hid
    simp [bitVal] at hid
    omega
  · intro h
    by_contra hne
    have : (rippleSub a b false n).2 = false := by
      cases hx : (rippleSub a b false n).2
      · rfl
      · exact absurd hx hne
    rw [this] at hid
    simp [bitVal] at hid
    omega

theorem rippleSub_val_of_no_borrow (a b : Bits) (n : Nat)
    (h : valW n b ≤ valW n a) :
    bitsToNat (rippleSub a b false n).1 = valW n a - valW n b := by
  have hid := rippleSub_val a b false n
  have hb : (rippleSub a b false n).2 = false := by
    cases hx : (rippleSub a b false n).2
    · rfl
    · exact absurd ((rippleSub_borrow_iff a b n).1 hx) (by omega)
  rw [hb] at hid
  simp [bitVal] at hid
  omega

theorem valW_succ_getD (l : Bits) (n : Nat) :
    valW (n+1) l = valW n l + 2 ^ n * bitVal (l.getD n false) := by
  rcases Nat.lt_or_ge n l.length with h | h
  · have htake : l.take (n+1) = l.take n ++ [l[n]] := by
      rw [List.take_succ, List.getElem?_eq_getElem h]
      rfl
    have hlen : (l.take n).length = n := by
      simp [List.length_take]
      omega
    have hgd : l.getD n false = l[n] := by
      rw [List.getD_eq_getElem?_getD, List.getElem?_eq_getElem h]
      rfl
    rw [valW, htake, bitsToNat_append, hlen, hgd]
    simp [valW, bitsToNat]
  · have h1 : l.take (n+1) = l := List.take_of_length_le (by omega)
    have h2 : l.take n = l := List.take_of_length_le h
    have h3 : l.getD n false = false := by
      rw [List.getD_eq_getElem?_getD, List.getElem?_eq_none (by omega)]
      rfl
    rw [valW, valW, h1, h2, h3]
    simp [bitVal]

theorem cmpFrom_spec (a b : Bits) (n : Nat) :
    cmpFrom a b n =
      (if valW n a < valW n b then (-1 : Int)
       else if valW n b < valW n a then 1 else 0) := by
  induction n with
  | zero => simp [cmpFrom, valW, bitsToNat]
  | succ m ih =>
    have ha := valW_succ_getD a m
    have hb := valW_succ_getD b m
    have halt := valW_lt m a
    have hblt := valW_lt m b
    simp only [cmpFrom]
    rcases Bool.dichotomy (a.getD m false) with hA | hA <;>
      rcases Bool.dichotomy (b.getD m false) with hB | hB
    · rw [hA] at ha
      rw [hB] at hb
      norm_num [bitVal] at ha hb
      rw [hA, hB, if_pos rfl, ih, ha, hb]
    · rw [hA] at ha
      rw [hB] at hb
      norm_num [bitVal] at ha hb
      have hclt : valW (m+1) a < valW (m+1) b := by
        rw [ha, hb]
        omega
      rw [hA, hB, if_neg (show ¬((false : Bool) = true) by norm_num),
        if_neg (show ¬((false : Bool) = true) by norm_num), if_pos hclt]
    · rw [hA] at ha
      rw [hB] at hb
      norm_num [bitVal] at ha hb
      have hnlt : ¬ valW (m+1) a < valW (m+1) b := by
        rw [ha, hb]
        omega
      have hgt : valW (m+1) b < valW (m+1) a := by
        rw [ha, hb]
        omega
      rw [hA, hB, if_neg (show ¬((true : Bool) = false) by norm_num),
        if_pos (show (true : Bool) = true from rfl), if_neg hnlt, if_pos hgt]
    · rw [hA] at ha
      rw [hB] at hb
      norm_num [bitVal] at ha hb
      rw [hA, hB, if_pos rfl, ih, ha, hb]
      by_cases h1 : valW m a < valW m b
      · rw [if_pos h1, if_pos (show valW m a + 2 ^ m < valW m b + 2 ^ m by omega)]
      · rw [if_neg h1, if_neg (show ¬ valW m a + 2 ^ m < valW m b + 2 ^ m by omega)]
        by_cases h2 : valW m b < valW m a
        · rw [if_pos h2, if_pos (show valW m b + 2 ^ m < valW m a + 2 ^ m by omega)]
        · rw [if_neg h2, if_neg (show ¬ valW m b + 2 ^ m < valW m a + 2 ^ m by omega)]

theorem cmpFrom_nonneg_iff (a b : Bits) (n : Nat) :
    0 ≤ cmpFrom a b n ↔ valW n b ≤ valW n a := by
  rw [cmpFrom_spec]
  by_cases h1 : valW n a < valW n b
  · rw [if_pos h1]
    constructor
    · intro h
      omega
    · intro h
      omega
  · rw [if_neg h1]
    by_cases h2 : valW n b < valW n a
    · rw [if_pos h2]
      constructor <;> intro h <;> omega
    · rw [if_neg h2]
      constructor <;> intro h <;> omega

theorem cmpFrom_pos_iff (a b : Bits) (n : Nat) :
    0 < cmpFrom a b n ↔ valW n b < valW n a := by
  rw [cmpFrom_spec]
  by_cases h1 : valW n a < valW n b
  · rw [if_pos h1]
    constructor <;> intro h <;> omega
  · rw [if_neg h1]
    by_cases h2 : valW n b < valW n a
    · rw [if_pos h2]
      constructor <;> intro h <;> omega
    · rw [if_neg h2]
      constructor <;> intro h <;> omega

theorem shift_right_logical_exact (v : Bits) (w : Nat) (hw : v.length = w)
    (hpos : 0 < w) : shift_right_logical v w = v.drop 1 ++ [false] := by
  rw [shift_right_logical, if_neg (show ¬ w = 0 by omega),
    List.take_of_length_le (show v.length ≤ w by omega),
    List.drop_of_length_le (show v.length ≤ w by omega)]
  simp

theorem shift_right_logical_length (v : Bits) (w : Nat) (hw : v.length = w)
    (hpos : 0 < w) : (shift_right_logical v w).length = w := by
  rw [shift_right_logical_exact v w hw hpos]
  simp
  omega

theorem shift_right_logical_val (v : Bits) (w : Nat) (hw : v.length = w)
    (hpos : 0 < w) :
    bitsToNat (shift_right_logical v w) = bitsToNat v / 2 := by
  rw [shift_right_logical_exact v w hw hpos, bitsToNat_append, bitsToNat_drop]
  norm_num [bitsToNat, bitVal]

theorem shift_left_logical_exact (v : Bits) (w : Nat) (hw : v.length = w)
    (hpos : 0 < w) : shift_left_logical v w = false :: v.take (w - 1) := by
  rw [shift_left_logical, if_neg (show ¬ w = 0 by omega),
    List.drop_of_length_le (show v.length ≤ w by omega)]
  simp

theorem shift_left_logical_length (v : Bits) (w : Nat) (hw : v.length = w)
    (hpos : 0 < w) : (shift_left_logical v w).length = w := by
  rw [shift_left_logical_exact v w hw hpos]
  simp [List.length_take]
  omega

theorem shift_left_logical_val (v : Bits) (w : Nat) (hw : v.length = w)
    (hpos : 0 < w) :
    bitsToNat (shift_left_logical v w) = 2 * (bitsToNat v % 2 ^ (w - 1)) := by
  rw [shift_left_logical_exact v w hw hpos]
  show bitVal false + 2 * bitsToNat (v.take (w-1)) = _
  rw [bitsToNat_take]
  simp [bitVal]

/-! ### Lemmas about padding, decode and the signed value -/

theorem bv_pad_left_length (b : Bits) (w : Nat) (f : Bool) :
    (bv_pad_left b w f).length = w := by
  rw [bv_pad_left]
  by_cases h : w ≤ b.length
  · rw [if_pos h]
    simp [List.length_take]
    omega
  · rw [if_neg h]
    simp
    omega

theorem zero_extend_length (b : Bits) (w : Nat) : (zero_extend b w).length = w :=
  bv_pad_left_length b w false

theorem zero_extend_of_length_eq (b : Bits) (w : Nat) (h : b.length = w) :
    zero_extend b w = b := by
  rw [zero_extend, bv_pad_left, if_pos (le_of_eq h.symm), ← h, List.take_length]

theorem zero_extend_val (b : Bits) (w : Nat) :
    bitsToNat (zero_extend b w) = bitsToNat b % 2 ^ w := by
  rw [zero_extend, bv_pad_left]
  by_cases h : w ≤ b.length
  · rw [if_pos h, bitsToNat_take]
  · rw [if_neg h, bitsToNat_append_replicate_false]
    have : bitsToNat b < 2 ^ w :=
      lt_of_lt_of_le (bitsToNat_lt b)
        (Nat.pow_le_pow_right (by norm_num) (by omega))
    exact (Nat.mod_eq_of_lt this).symm

theorem zero_extend_val_of_le (b : Bits) (w : Nat) (h : b.length ≤ w) :
    bitsToNat (zero_extend b w) = bitsToNat b := by
  rw [zero_extend_val]
  exact Nat.mod_eq_of_lt
    (lt_of_lt_of_le (bitsToNat_lt b) (Nat.pow_le_pow_right (by norm_num) h))

theorem ensure_i32_width_of_length_eq (b : Bits) (h : b.length = 32) :
    ensure_i32_width b = b := by
  rw [ensure_i32_width, if_neg (by intro hnil; rw [hnil] at h; simp at h),
    if_neg (by omega), if_neg (by omega)]

/-- Reduction helpers for `if` over boolean conditions. -/
theorem ite_cond_true {A : Type _} (x y : A) :
    (if (true : Bool) = true then x else y) = x := rfl

theorem ite_cond_false {A : Type _} (x y : A) :
    (if (false : Bool) = true then x else y) = y := rfl

/-- Bit 31 of a 32-bit vector reads its sign: it is set exactly when the
unsigned value is at least `2^31`. -/
theorem getD_31_iff (b : Bits) (h : b.length = 32) :
    b.getD 31 false = true ↔ 2 ^ 31 ≤ bitsToNat b := by
  rw [getD_eq_testBit, Nat.testBit_to_div_mod, decide_eq_true_eq]
  have hlt := bitsToNat_lt b
  rw [h] at hlt
  have hq : bitsToNat b / 2 ^ 31 < 2 := by
    apply Nat.div_lt_of_lt_mul
    calc bitsToNat b < 2 ^ 32 := hlt
    _ = 2 ^ 31 * 2 := by norm_num
  constructor
  · intro hx
    by_contra hy
    have h0 : bitsToNat b / 2 ^ 31 = 0 := Nat.div_eq_of_lt (by omega)
    rw [h0] at hx
    norm_num at hx
  · intro hx
    have h1 : 1 ≤ bitsToNat b / 2 ^ 31 := (Nat.one_le_div_iff (by positivity)).2 hx
    have h2 : bitsToNat b / 2 ^ 31 = 1 := by omega
    rw [h2]

theorem getD_31_false_iff (b : Bits) (h : b.length = 32) :
    b.getD 31 false = false ↔ bitsToNat b < 2 ^ 31 := by
  rcases Bool.dichotomy (b.getD 31 false) with hb | hb
  · have h2 := getD_31_iff b h
    rw [hb] at h2 ⊢
    simp at h2
    simp
    omega
  · have h2 := (getD_31_iff b h).1 hb
    rw [hb]
    simp
    omega

theorem sint32_natAbs (b : Bits) (h : b.length = 32) :
    ((sint32 b).natAbs) =
      (if b.getD 31 false then 2 ^ 32 - bitsToNat b else bitsToNat b) := by
  have hlt := bitsToNat_lt b
  rw [h] at hlt
  rcases Bool.dichotomy (b.getD 31 false) with hb | hb
  · have hsmall := (getD_31_false_iff b h).1 hb
    rw [hb, ite_cond_false, sint32, if_pos hsmall]
    omega
  · have hbig := (getD_31_iff b h).1 hb
    rw [hb, ite_cond_true, sint32, if_neg (show ¬ bitsToNat b < 2 ^ 31 by omega)]
    have hcast : (bitsToNat b : Int) < 2 ^ 32 := by exact_mod_cast hlt
    omega

theorem sint32_neg_iff (b : Bits) (h : b.length = 32) :
    sint32 b < 0 ↔ b.getD 31 false = true := by
  have hlt := bitsToNat_lt b
  rw [h] at hlt
  have hcast : (bitsToNat b : Int) < 2 ^ 32 := by exact_mod_cast hlt
  rw [getD_31_iff b h, sint32]
  by_cases hc : bitsToNat b < 2 ^ 31
  · rw [if_pos hc]
    constructor
    · intro hx
      omega
    · intro hx
      omega
  · rw [if_neg hc]
    constructor
    · intro hx
      omega
    · intro hx
      omega

/-- On a 32-bit vector with sign bit 1, decode yields sign `true` and the
trimmed two's-complement magnitude. -/
theorem decode_unfold_true (b : Bits) (h : b.length = 32)
    (hb : b.getD 31 false = true) :
    decode_i32_to_sign_and_magnitude b =
      SignMag32.mk true (if trim_leading (twos_negate b) = [] then [false]
        else trim_leading (twos_negate b)) := by
  rw [decode_i32_to_sign_and_magnitude]
  simp only [ensure_i32_width_of_length_eq b h]
  rw [hb]
  rfl

/-- On a 32-bit vector with sign bit 0, decode yields sign `false` and the
trimmed vector itself as magnitude. -/
theorem decode_unfold_false (b : Bits) (h : b.length = 32)
    (hb : b.getD 31 false = false) :
    decode_i32_to_sign_and_magnitude b =
      SignMag32.mk false (if trim_leading b = [] then [false]
        else trim_leading b) := by
  rw [decode_i32_to_sign_and_magnitude]
  simp only [ensure_i32_width_of_length_eq b h]
  rw [hb]
  rfl

/-- The decoded sign bit of a 32-bit vector is its bit 31. -/
theorem decode_sign_eq (b : Bits) (h : b.length = 32) :
    (decode_i32_to_sign_and_magnitude b).sign = b.getD 31 false := by
  rcases Bool.dichotomy (b.getD 31 false) with hb | hb
  · rw [decode_unfold_false b h hb, hb]
  · rw [decode_unfold_true b h hb, hb]

/-- The decoded magnitude of a 32-bit vector has the absolute value of its
signed interpretation. -/
theorem decode_mag_val (b : Bits) (h : b.length = 32) :
    bitsToNat (decode_i32_to_sign_and_magnitude b).mag = (sint32 b).natAbs := by
  have hne : b ≠ [] := by
    intro hnil
    rw [hnil] at h
    simp at h
  have hlt := bitsToNat_lt b
  rw [h] at hlt
  rw [sint32_natAbs b h]
  rcases Bool.dichotomy (b.getD 31 false) with hb | hb
  · rw [decode_unfold_false b h hb, hb, ite_cond_false]
    show bitsToNat (if trim_leading b = [] then [false] else trim_leading b) = _
    rw [if_neg (trim_leading_ne_nil b), bitsToNat_trim_leading]
  · rw [decode_unfold_true b h hb, hb, ite_cond_true]
    show bitsToNat (if trim_leading (twos_negate b) = [] then [false]
      else trim_leading (twos_negate b)) = _
    rw [if_neg (trim_leading_ne_nil (twos_negate b)), bitsToNat_trim_leading,
      twos_negate_val b hne, h]
    have hbig := (getD_31_iff b h).1 hb
    apply Nat.mod_eq_of_lt
    omega

/-- The decoded magnitude is never longer than 32 bits. -/
theorem decode_mag_length_le (b : Bits) (h : b.length = 32) :
    (decode_i32_to_sign_and_magnitude b).mag.length ≤ 32 := by
  have hne : b ≠ [] := by
    intro hnil
    rw [hnil] at h
    simp at h
  rcases Bool.dichotomy (b.getD 31 false) with hb | hb
  · rw [decode_unfold_false b h hb]
    show (if trim_leading b = [] then [false] else trim_leading b).length ≤ 32
    rw [if_neg (trim_leading_ne_nil b)]
    have := trim_leading_length_le b hne
    omega
  · rw [decode_unfold_true b h hb]
    show (if trim_leading (twos_negate b) = [] then [false]
      else trim_leading (twos_negate b)).length ≤ 32
    rw [if_neg (trim_leading_ne_nil (twos_negate b))]
    have hl := twos_negate_length b hne
    have hne2 : twos_negate b ≠ [] := by
      intro hx
      rw [hx] at hl
      simp at hl
      omega
    have := trim_leading_length_le (twos_negate b) hne2
    omega

/-- The absolute value of a signed 32-bit quantity is at most `2^31`. -/
theorem sint32_natAbs_le (b : Bits) (h : b.length = 32) :
    (sint32 b).natAbs ≤ 2 ^ 31 := by
  have hlt := bitsToNat_lt b
  rw [h] at hlt
  rw [sint32_natAbs b h]
  rcases Bool.dichotomy (b.getD 31 false) with hb | hb
  · rw [hb, ite_cond_false]
    have := (getD_31_false_iff b h).1 hb
    omega
  · rw [hb, ite_cond_true]
    have := (getD_31_iff b h).1 hb
    omega

/-- Reconstruction: signed value from sign bit and magnitude. -/
theorem sint32_eq_sign_mag (b : Bits) (h : b.length = 32) :
    sint32 b = (if b.getD 31 false then -1 else 1) * ((sint32 b).natAbs : Int) := by
  have hlt := bitsToNat_lt b
  rw [h] at hlt
  have hcast : (bitsToNat b : Int) < 2 ^ 32 := by exact_mod_cast hlt
  rcases Bool.dichotomy (b.getD 31 false) with hb | hb
  · have hsmall := (getD_31_false_iff b h).1 hb
    rw [hb, ite_cond_false, one_mul, sint32, if_pos hsmall]
    omega
  · have hbig := (getD_31_iff b h).1 hb
    rw [hb, ite_cond_true, sint32, if_neg (show ¬ bitsToNat b < 2 ^ 31 by omega)]
    omega

/-! ### Adding the constant one through the full ripple adder -/

theorem rippleAdd_replicate_false_c0 (n : Nat) (l : Bits) (m : Nat)
    (h : l.length = n) :
    (rippleAdd l (List.replicate m false) false n).1 = l := by
  induction n generalizing l m with
  | zero =>
    cases l with
    | nil => rfl
    | cons x r => simp at h
  | succ k ih =>
    cases l with
    | nil => simp at h
    | cons x r =>
      simp only [List.length_cons, Nat.succ_inj] at h
      cases m with
      | zero =>
        have hr := ih r 0 h
        simp only [List.replicate_zero] at hr ⊢
        simp only [rippleAdd, List.headD_nil, List.headD_cons, List.tail_cons,
          List.tail_nil, Bool.xor_false, Bool.and_false, Bool.false_and,
          Bool.or_false, Bool.or_self]
        rw [hr]
      | succ m' =>
        have hr := ih r m' h
        simp only [List.replicate_succ]
        simp only [rippleAdd, List.headD_cons, List.tail_cons, Bool.xor_false,
          Bool.and_false, Bool.false_and, Bool.or_false, Bool.or_self]
        rw [hr]

theorem rippleAdd_replicate_false_c1 (n : Nat) (l : Bits) (m : Nat)
    (h : l.length = n) :
    (rippleAdd l (List.replicate m false) true n).1 = addOneRipple l := by
  induction n generalizing l m with
  | zero =>
    cases l with
    | nil => rfl
    | cons x r => simp at h
  | succ k ih =>
    cases l with
    | nil => simp at h
    | cons x r =>
      simp only [List.length_cons, Nat.succ_inj] at h
      have hhead : (List.replicate m false).headD false = false := by
        cases m <;> simp [List.replicate]
      have htail : (List.replicate m false).tail = List.replicate (m - 1) false := by
        cases m <;> simp [List.replicate]
      cases x with
      | false =>
        simp only [rippleAdd, List.headD_cons, List.tail_cons, hhead, htail,
          Bool.xor_false, Bool.false_xor, Bool.xor_true, Bool.and_false,
          Bool.false_and, Bool.and_true, Bool.true_and, Bool.or_false,
          Bool.false_or, Bool.or_self, Bool.not_false]
        rw [rippleAdd_replicate_false_c0 k r (m-1) h]
        rfl
      | true =>
        simp only [rippleAdd, List.headD_cons, List.tail_cons, hhead, htail,
          Bool.xor_false, Bool.true_xor, Bool.xor_true, Bool.and_false,
          Bool.false_and, Bool.and_true, Bool.true_and, Bool.or_false,
          Bool.false_or, Bool.or_self, Bool.not_true]
        rw [ih r (m-1) h]
        rfl

/-- Adding the one-hot constant 1 through the padded ripple adder produces the
early-exit add-one ripple of `twos_negate`. -/
theorem rippleAdd_one_eq_addOne (n : Nat) (l : Bits) (h : l.length = n+1) :
    (rippleAdd l (true :: List.replicate n false) false (n+1)).1 = addOneRipple l := by
  cases l with
  | nil => simp at h
  | cons x r =>
    simp only [List.length_cons, Nat.succ_inj] at h
    cases x with
    | false =>
      simp only [rippleAdd, List.headD_cons, List.tail_cons, Bool.xor_false,
        Bool.false_xor, Bool.xor_true, Bool.and_false, Bool.false_and,
        Bool.and_true, Bool.true_and, Bool.or_false, Bool.false_or,
        Bool.or_self, Bool.not_false]
      rw [rippleAdd_replicate_false_c0 n r n h]
      rfl
    | true =>
      simp only [rippleAdd, List.headD_cons, List.tail_cons, Bool.xor_false,
        Bool.true_xor, Bool.xor_true, Bool.and_false, Bool.false_and,
        Bool.and_true, Bool.true_and, Bool.or_false, Bool.false_or,
        Bool.or_self, Bool.not_true]
      rw [rippleAdd_replicate_false_c1 n r n h]
      rfl

/-- On 32-bit inputs the local negation of alu.cpp agrees with the
width-preserving `twos_negate` of bitvec.cpp. -/
theorem twos_negate_32_eq (b : Bits) (h : b.length = 32) :
    twos_negate_32 b = twos_negate b := by
  have hbne : b ≠ [] := by
    intro hx
    rw [hx] at h
    simp at h
  rw [twos_negate_32, add_32, add_unsigned, twos_negate, if_neg hbne]
  exact rippleAdd_one_eq_addOne 31 (b.map (fun x => !x)) (by simp [h])

/-! ### Claims C7 and C10 -/

/-- Claim C7: for every pair (a, b) of 32-bit `Bits`, the result field of
`alu_execute(a, b, Sub)` equals the result field of
`alu_execute(a, twos_negate(b), Add)`. -/
theorem c7_alu_sub_eq_add_negate (a b : Bits) (ha : a.length = 32)
    (hb : b.length = 32) :
    (alu_execute a b AluOp.Sub).result =
      (alu_execute a (twos_negate b) AluOp.Add).result := by
  have hbne : b ≠ [] := by
    intro hx
    rw [hx] at hb
    simp at hb
  have hnb : (twos_negate b).length = 32 := by
    rw [twos_negate_length b hbne, hb]
  show (add_32 (zero_extend a 32) (twos_negate_32 (zero_extend b 32))).1 =
    (add_32 (zero_extend a 32) (zero_extend (twos_negate b) 32)).1
  rw [zero_extend_of_length_eq b 32 hb,
    zero_extend_of_length_eq (twos_negate b) 32 hnb, twos_negate_32_eq b hb]

/-- Witness for C7 at a = 0, b = 0xFFFFFFFF. -/
theorem c7_witness :
    (alu_execute (List.replicate 32 false) (List.replicate 32 true) AluOp.Sub).result =
      (alu_execute (List.replicate 32 false)
        (twos_negate (List.replicate 32 true)) AluOp.Add).result :=
  c7_alu_sub_eq_add_negate (List.replicate 32 false) (List.replicate 32 true)
    (by decide) (by decide)

/-- Claim C10: for every op selector and inputs, `mdu_mul` returns exactly the
same `MulResult` as with the `Mul` selector — the source ignores `op`. -/
theorem c10_mdu_mul_ignores_op (op : MulOp) (rs1 rs2 : Bits) :
    mdu_mul op rs1 rs2 = mdu_mul MulOp.Mul rs1 rs2 := rfl

/-! ### Characterizing the MDU special-case predicates -/

theorem bitsToNat_eq_zero_iff (l : Bits) :
    bitsToNat l = 0 ↔ ∀ b ∈ l, b = false := by
  induction l with
  | nil => simp [bitsToNat]
  | cons hd tl ih =>
    have hx := bitVal_le_one hd
    constructor
    · intro h
      have hv : bitVal hd + 2 * bitsToNat tl = 0 := h
      have hx0 : bitVal hd = 0 := by omega
      have hr0 : bitsToNat tl = 0 := by omega
      intro b hb
      rcases List.mem_cons.1 hb with hbx | hbr
      · rw [hbx]
        cases hd
        · rfl
        · simp [bitVal] at hx0
      · exact ih.1 hr0 b hbr
    · intro h
      have hx0 : hd = false := h hd (List.mem_cons_self hd tl)
      have hr0 : bitsToNat tl = 0 := ih.2 (fun b hb => h b (List.mem_cons_of_mem hd hb))
      show bitVal hd + 2 * bitsToNat tl = 0
      rw [hx0, hr0, bitVal_false]

theorem is_zero_32_iff (x : Bits) : is_zero_32 x = true ↔ bitsToNat x = 0 := by
  rw [is_zero_32, List.all_eq_true, bitsToNat_eq_zero_iff]
  constructor
  · intro h b hb
    have := h b hb
    simpa using this
  · intro h b hb
    simpa using h b hb

theorem is_all_ones_32_iff (x : Bits) :
    is_all_ones_32 x = true ↔ bitsToNat x = 2 ^ x.length - 1 := by
  rw [is_all_ones_32, List.all_eq_true]
  induction x with
  | nil => simp [bitsToNat]
  | cons hd tl ih =>
    have hb := bitVal_le_one hd
    have hr := bitsToNat_lt tl
    constructor
    · intro h
      have hbt : hd = true := by simpa using h hd (List.mem_cons_self hd tl)
      have hrt : bitsToNat tl = 2 ^ tl.length - 1 :=
        ih.1 (fun y hy => h y (List.mem_cons_of_mem hd hy))
      show bitVal hd + 2 * bitsToNat tl = 2 ^ (tl.length + 1) - 1
      rw [hbt, bitVal_true, hrt, pow_succ]
      have : (0:Nat) < 2 ^ tl.length := Nat.pos_pow_of_pos _ (by norm_num)
      omega
    · intro h
      have hv : bitVal hd + 2 * bitsToNat tl = 2 ^ (tl.length + 1) - 1 := h
      rw [pow_succ] at hv
      have hpos : (0:Nat) < 2 ^ tl.length := Nat.pos_pow_of_pos _ (by norm_num)
      have hbt : bitVal hd = 1 := by omega
      have hrt : bitsToNat tl = 2 ^ tl.length - 1 := by omega
      intro y hy
      rcases List.mem_cons.1 hy with hyb | hyr
      · rw [hyb]
        cases hd
        · simp [bitVal] at hbt
        · simp
      · have := ih.2 hrt y hyr
        simpa using this

theorem valW_eq_zero_iff (l : Bits) (n : Nat) :
    valW n l = 0 ↔ ∀ i, i < n → l.getD i false = false := by
  induction n with
  | zero =>
    simp [valW, bitsToNat]
  | succ m ih =>
    rw [valW_succ_getD]
    constructor
    · intro h
      have h1 : valW m l = 0 := by
        have := Nat.pos_pow_of_pos m (show 0 < 2 by norm_num)
        omega
      have h2 : bitVal (l.getD m false) = 0 := by
        have := Nat.pos_pow_of_pos m (show 0 < 2 by norm_num)
        have hb := bitVal_le_one (l.getD m false)
        by_contra hx
        have : bitVal (l.getD m false) = 1 := by omega
        rw [this] at h
        omega
      intro i hi
      rcases Nat.lt_or_ge i m with him | him
      · exact (ih.1 h1) i him
      · have : i = m := by omega
        subst this
        cases hx : l.getD i false
        · rfl
        · rw [hx] at h2
          simp [bitVal] at h2
    · intro h
      have h1 : valW m l = 0 := ih.2 (fun i hi => h i (by omega))
      have h2 : l.getD m false = false := h m (by omega)
      rw [h1, h2, bitVal_false]
      simp

theorem is_int_min_32_iff (x : Bits) (h : x.length = 32) :
    is_int_min_32 x = true ↔ bitsToNat x = 2 ^ 31 := by
  rw [is_int_min_32, Bool.and_eq_true]
  have hdec : bitsToNat x = valW 31 x + 2 ^ 31 * bitVal (x.getD 31 false) := by
    have h1 := valW_succ_getD x 31
    have h2 : valW 32 x = bitsToNat x := valW_of_length_le 32 x (by omega)
    rw [← h2]
    exact h1
  have hlow : ((List.range 31).all (fun i => x.getD i false == false) = true) ↔
      valW 31 x = 0 := by
    rw [List.all_eq_true, valW_eq_zero_iff]
    constructor
    · intro hall i hi
      have := hall i (List.mem_range.2 hi)
      simpa using this
    · intro hall i hi
      simpa using hall i (List.mem_range.1 hi)
  rw [hlow]
  have hvlt := valW_lt 31 x
  constructor
  · intro hpair
    obtain ⟨hbit, hzero⟩ := hpair
    rw [hdec, hbit, hzero, bitVal_true]
    omega
  · intro hv
    rw [hdec] at hv
    rcases Bool.dichotomy (x.getD 31 false) with hb | hb
    · rw [hb, bitVal_false] at hv
      omega
    · rw [hb, bitVal_true] at hv
      exact ⟨hb, by omega⟩

/-- The magnitude of a signed 32-bit value is zero exactly when the raw bits
are zero. -/
theorem natAbs_sint32_eq_zero_iff (b : Bits) (h : b.length = 32) :
    (sint32 b).natAbs = 0 ↔ bitsToNat b = 0 := by
  have hlt := bitsToNat_lt b
  rw [h] at hlt
  rw [sint32_natAbs b h]
  rcases Bool.dichotomy (b.getD 31 false) with hb | hb
  · rw [hb, ite_cond_false]
  · rw [hb, ite_cond_true]
    have := (getD_31_iff b h).1 hb
    omega

/-! ### Branch lemmas for mdu_div -/

theorem mag2_val (b : Bits) (hb : b.length = 32) :
    bitsToNat (zero_extend (decode_i32_to_sign_and_magnitude b).mag 32) =
      (sint32 b).natAbs := by
  rw [zero_extend_val_of_le _ 32 (decode_mag_length_le b hb), decode_mag_val b hb]

theorem mdu_div_dbz (a b : Bits) (ha : a.length = 32) (hb : b.length = 32)
    (hz : bitsToNat b = 0) :
    mdu_div DivOp.Div a b =
      DivResult.mk (List.replicate 32 true) a false
        ["divide-by-zero: q=-1, r=dividend"] := by
  have hcond : is_zero_32
      (zero_extend (decode_i32_to_sign_and_magnitude b).mag 32) = true := by
    rw [is_zero_32_iff, mag2_val b hb, natAbs_sint32_eq_zero_iff b hb]
    exact hz
  simp only [mdu_div, zero_extend_of_length_eq a 32 ha,
    zero_extend_of_length_eq b 32 hb]
  rw [if_pos hcond]

theorem mdu_div_intmin (a b : Bits) (ha : a.length = 32) (hb : b.length = 32)
    (hia : bitsToNat a = 2 ^ 31) (hib : bitsToNat b = 2 ^ 32 - 1) :
    mdu_div DivOp.Div a b =
      DivResult.mk a (List.replicate 32 false) true
        ["INT_MIN / -1 special case"] := by
  have hznot : ¬ is_zero_32
      (zero_extend (decode_i32_to_sign_and_magnitude b).mag 32) = true := by
    rw [is_zero_32_iff, mag2_val b hb, natAbs_sint32_eq_zero_iff b hb]
    omega
  have hones : is_all_ones_32 b = true := by
    have h2 := is_all_ones_32_iff b
    rw [hb] at h2
    exact h2.2 hib
  have hcond : (is_int_min_32 a && is_all_ones_32 b) = true := by
    rw [Bool.and_eq_true]
    exact ⟨(is_int_min_32_iff a ha).2 hia, hones⟩
  simp only [mdu_div, zero_extend_of_length_eq a 32 ha,
    zero_extend_of_length_eq b 32 hb]
  rw [if_neg hznot, if_pos hcond]

theorem mdu_div_general (a b : Bits) (ha : a.length = 32) (hb : b.length = 32)
    (hz : bitsToNat b ≠ 0)
    (hs : ¬ (bitsToNat a = 2 ^ 31 ∧ bitsToNat b = 2 ^ 32 - 1)) :
    mdu_div DivOp.Div a b =
      DivResult.mk
        (if Bool.xor (decode_i32_to_sign_and_magnitude a).sign
            (decode_i32_to_sign_and_magnitude b).sign then
          twos_negate_fixed (div_unsigned_32
            (zero_extend (decode_i32_to_sign_and_magnitude a).mag 32)
            (zero_extend (decode_i32_to_sign_and_magnitude b).mag 32)).q 32
         else (div_unsigned_32
            (zero_extend (decode_i32_to_sign_and_magnitude a).mag 32)
            (zero_extend (decode_i32_to_sign_and_magnitude b).mag 32)).q)
        (if (decode_i32_to_sign_and_magnitude a).sign then
          twos_negate_fixed (div_unsigned_32
            (zero_extend (decode_i32_to_sign_and_magnitude a).mag 32)
            (zero_extend (decode_i32_to_sign_and_magnitude b).mag 32)).r 32
         else (div_unsigned_32
            (zero_extend (decode_i32_to_sign_and_magnitude a).mag 32)
            (zero_extend (decode_i32_to_sign_and_magnitude b).mag 32)).r)
        false
        (div_unsigned_32
          (zero_extend (decode_i32_to_sign_and_magnitude a).mag 32)
          (zero_extend (decode_i32_to_sign_and_magnitude b).mag 32)).trace := by
  have hznot : ¬ is_zero_32
      (zero_extend (decode_i32_to_sign_and_magnitude b).mag 32) = true := by
    rw [is_zero_32_iff, mag2_val b hb, natAbs_sint32_eq_zero_iff b hb]
    exact hz
  have hsnot : ¬ (is_int_min_32 a && is_all_ones_32 b) = true := by
    rw [Bool.and_eq_true, is_int_min_32_iff a ha]
    intro hpair
    obtain ⟨h1, h2⟩ := hpair
    have h3 := is_all_ones_32_iff b
    rw [hb] at h3
    exact hs ⟨h1, h3.1 h2⟩
  simp only [mdu_div, zero_extend_of_length_eq a 32 ha,
    zero_extend_of_length_eq b 32 hb]
  rw [if_neg hznot, if_neg hsnot]

/-! ### Claims C4 and C5 -/

/-- Claim C4: `mdu_div(Div, a, b)` reports `overflow = true` exactly for the
INT_MIN / −1 pair `(0x80000000, 0xFFFFFFFF)`; in that case the quotient is the
dividend and the remainder is zero. -/
theorem c4_div_overflow_iff (a b : Bits) (ha : a.length = 32)
    (hb : b.length = 32) :
    ((mdu_div DivOp.Div a b).overflow = true ↔
      (bitsToNat a = 2 ^ 31 ∧ bitsToNat b = 2 ^ 32 - 1)) ∧
    (bitsToNat a = 2 ^ 31 → bitsToNat b = 2 ^ 32 - 1 →
      (mdu_div DivOp.Div a b).q = a ∧
      (mdu_div DivOp.Div a b).r = List.replicate 32 false) := by
  by_cases hz : bitsToNat b = 0
  · rw [mdu_div_dbz a b ha hb hz]
    constructor
    · constructor
      · intro hx
        simp at hx
      · intro hpair
        obtain ⟨h1, h2⟩ := hpair
        omega
    · intro h1 h2
      omega
  · by_cases hs : bitsToNat a = 2 ^ 31 ∧ bitsToNat b = 2 ^ 32 - 1
    · obtain ⟨h1, h2⟩ := hs
      rw [mdu_div_intmin a b ha hb h1 h2]
      exact ⟨⟨fun _ => ⟨h1, h2⟩, fun _ => rfl⟩, fun _ _ => ⟨rfl, rfl⟩⟩
    · rw [mdu_div_general a b ha hb hz hs]
      constructor
      · constructor
        · intro hx
          simp at hx
        · intro hpair
          exact absurd hpair hs
      · intro h1 h2
        exact absurd ⟨h1, h2⟩ hs

/-- Witness for C4 at the INT_MIN / −1 pair. -/
theorem c4_witness :
    ((mdu_div DivOp.Div (List.replicate 31 false ++ [true])
        (List.replicate 32 true)).overflow = true ↔
      (bitsToNat (List.replicate 31 false ++ [true]) = 2 ^ 31 ∧
        bitsToNat (List.replicate 32 true) = 2 ^ 32 - 1)) ∧
    (bitsToNat (List.replicate 31 false ++ [true]) = 2 ^ 31 →
      bitsToNat (List.replicate 32 true) = 2 ^ 32 - 1 →
      (mdu_div DivOp.Div (List.replicate 31 false ++ [true])
        (List.replicate 32 true)).q = List.replicate 31 false ++ [true] ∧
      (mdu_div DivOp.Div (List.replicate 31 false ++ [true])
        (List.replicate 32 true)).r = List.replicate 32 false) :=
  c4_div_overflow_iff (List.replicate 31 false ++ [true]) (List.replicate 32 true)
    (by decide) (by decide)

/-- Claim C5: division by the 32-bit zero divisor returns quotient all ones,
remainder equal to the dividend bits, `overflow = false`, and a trace whose
first entry contains the substring `"divide-by-zero"`; `mdu_div` is a total
function here, no error is signalled. -/
theorem c5_div_by_zero (a : Bits) (ha : a.length = 32) :
    (mdu_div DivOp.Div a (List.replicate 32 false)).q = List.replicate 32 true ∧
    (mdu_div DivOp.Div a (List.replicate 32 false)).r = a ∧
    (mdu_div DivOp.Div a (List.replicate 32 false)).overflow = false ∧
    ∃ rest, (mdu_div DivOp.Div a (List.replicate 32 false)).trace =
        "divide-by-zero: q=-1, r=dividend" :: rest ∧
      strContains "divide-by-zero: q=-1, r=dividend" "divide-by-zero" := by
  have hz : bitsToNat (List.replicate 32 false) = 0 := bitsToNat_replicate_false 32
  rw [mdu_div_dbz a (List.replicate 32 false) ha (by simp) hz]
  refine ⟨rfl, rfl, rfl, [], rfl, ⟨[], (": q=-1, r=dividend").toList, by decide⟩⟩

/-- Witness for C5 at dividend 1. -/
theorem c5_witness :
    (mdu_div DivOp.Div (true :: List.replicate 31 false)
      (List.replicate 32 false)).q = List.replicate 32 true ∧
    (mdu_div DivOp.Div (true :: List.replicate 31 false)
      (List.replicate 32 false)).r = true :: List.replicate 31 false ∧
    (mdu_div DivOp.Div (true :: List.replicate 31 false)
      (List.replicate 32 false)).overflow = false ∧
    ∃ rest, (mdu_div DivOp.Div (true :: List.replicate 31 false)
        (List.replicate 32 false)).trace =
        "divide-by-zero: q=-1, r=dividend" :: rest ∧
      strContains "divide-by-zero: q=-1, r=dividend" "divide-by-zero" :=
  c5_div_by_zero (true :: List.replicate 31 false) (by decide)

theorem f32_is_zero_def (x : Bits) :
    (bits_all_zero (unpack_f32 x).exponent && bits_all_zero (unpack_f32 x).fraction) =
      f32_is_zero x := rfl

theorem f32_is_inf_def (x : Bits) :
    (bits_all_ones (unpack_f32 x).exponent && bits_all_zero (unpack_f32 x).fraction) =
      f32_is_inf x := rfl

theorem f32_is_nan_def (x : Bits) :
    (bits_all_ones (unpack_f32 x).exponent && ! bits_all_zero (unpack_f32 x).fraction) =
      f32_is_nan x := rfl

/-! ### Branch lemmas for fmul_f32 -/

theorem fmul_nan_branch (a b : Bits) (ha : a.length = 32) (hb : b.length = 32)
    (h : f32_is_nan a = true ∨ f32_is_nan b = true) :
    fmul_f32 a b = FpuResult.mk nan_bits (FpuFlags.mk false false true false)
      ["fmul_f32 start", "fmul_f32: NaN operand"] := by
  simp only [fmul_f32, zero_extend_of_length_eq a 32 ha,
    zero_extend_of_length_eq b 32 hb, f32_is_nan_def, f32_is_inf_def, f32_is_zero_def]
  rcases h with h | h
  · rw [h, Bool.true_or, if_pos rfl]
  · rw [h, Bool.or_true, if_pos rfl]

theorem fmul_infzero_branch (a b : Bits) (ha : a.length = 32) (hb : b.length = 32)
    (hna : f32_is_nan a = false) (hnb : f32_is_nan b = false)
    (h : (f32_is_inf a = true ∧ f32_is_zero b = true) ∨
      (f32_is_inf b = true ∧ f32_is_zero a = true)) :
    fmul_f32 a b = FpuResult.mk nan_bits (FpuFlags.mk false false true false)
      ["fmul_f32 start", "fmul_f32: 0 * inf invalid"] := by
  simp only [fmul_f32, zero_extend_of_length_eq a 32 ha,
    zero_extend_of_length_eq b 32 hb, f32_is_nan_def, f32_is_inf_def, f32_is_zero_def]
  rw [hna, hnb, if_neg (by simp)]
  rcases h with ⟨h1, h2⟩ | ⟨h1, h2⟩
  · rw [h1, h2, Bool.and_self, Bool.true_or, if_pos rfl]
  · rw [h1, h2, Bool.and_self, Bool.or_true, if_pos rfl]

theorem fmul_inf_branch (a b : Bits) (ha : a.length = 32) (hb : b.length = 32)
    (hna : f32_is_nan a = false) (hnb : f32_is_nan b = false)
    (hiz : (f32_is_inf a && f32_is_zero b || f32_is_inf b && f32_is_zero a) = false)
    (h : f32_is_inf a = true ∨ f32_is_inf b = true) :
    fmul_f32 a b = FpuResult.mk
      (pack_f32 (F32Fields.mk (Bool.xor (unpack_f32 a).sign (unpack_f32 b).sign)
        (List.replicate 8 true) (List.replicate 23 false)))
      (FpuFlags.mk false false false false)
      ["fmul_f32 start", "fmul_f32: inf result"] := by
  simp only [fmul_f32, zero_extend_of_length_eq a 32 ha,
    zero_extend_of_length_eq b 32 hb, f32_is_nan_def, f32_is_inf_def, f32_is_zero_def]
  rw [hna, hnb, if_neg (by simp), hiz, if_neg (by simp)]
  rcases h with h | h
  · rw [h, Bool.true_or, if_pos rfl]
  · rw [h, Bool.or_true, if_pos rfl]

theorem fmul_zero_branch (a b : Bits) (ha : a.length = 32) (hb : b.length = 32)
    (hna : f32_is_nan a = false) (hnb : f32_is_nan b = false)
    (hia : f32_is_inf a = false) (hib : f32_is_inf b = false)
    (h : f32_is_zero a = true ∨ f32_is_zero b = true) :
    fmul_f32 a b = FpuResult.mk
      (pack_f32 (F32Fields.mk (Bool.xor (unpack_f32 a).sign (unpack_f32 b).sign)
        (List.replicate 8 false) (List.replicate 23 false)))
      (FpuFlags.mk false false false false)
      ["fmul_f32 start", "fmul_f32: zero result"] := by
  simp only [fmul_f32, zero_extend_of_length_eq a 32 ha,
    zero_extend_of_length_eq b 32 hb, f32_is_nan_def, f32_is_inf_def, f32_is_zero_def]
  rw [hna, hnb, if_neg (by simp), hia, hib, if_neg (by simp), if_neg (by simp)]
  rcases h with h | h
  · rw [h, Bool.true_or, if_pos rfl]
  · rw [h, Bool.or_true, if_pos rfl]

theorem fmul_finite_branch (a b : Bits) (ha : a.length = 32) (hb : b.length = 32)
    (hna : f32_is_nan a = false) (hnb : f32_is_nan b = false)
    (hia : f32_is_inf a = false) (hib : f32_is_inf b = false)
    (hza : f32_is_zero a = false) (hzb : f32_is_zero b = false) :
    fmul_f32 a b = fmulArith a b := by
  simp only [fmul_f32, zero_extend_of_length_eq a 32 ha,
    zero_extend_of_length_eq b 32 hb, f32_is_nan_def, f32_is_inf_def, f32_is_zero_def]
  rw [hna, hnb, if_neg (by simp), hia, hib, if_neg (by simp), if_neg (by simp),
    hza, hzb, if_neg (by simp)]

/-! ### Claim C6 -/

/-- Claim C6: fmul handles special operands in priority order.  NaN operands,
or an infinity times a zero, give the canonical quiet NaN `0x7FC00000` with
`invalid = true`; otherwise an infinity gives ±∞ with sign the XOR of the
operand signs; otherwise a zero gives ±0 with the same sign rule. -/
theorem c6_fmul_special_priority (a b : Bits) (ha : a.length = 32)
    (hb : b.length = 32) :
    ((f32_is_nan a = true ∨ f32_is_nan b = true ∨
      (f32_is_inf a = true ∧ f32_is_zero b = true) ∨
      (f32_is_inf b = true ∧ f32_is_zero a = true)) →
      (fmul_f32 a b).bits = nan_bits ∧
      bitsToNat (fmul_f32 a b).bits = 0x7FC00000 ∧
      (fmul_f32 a b).flags.invalid = true) ∧
    (f32_is_nan a = false → f32_is_nan b = false →
      ¬ ((f32_is_inf a = true ∧ f32_is_zero b = true) ∨
        (f32_is_inf b = true ∧ f32_is_zero a = true)) →
      (f32_is_inf a = true ∨ f32_is_inf b = true) →
      (fmul_f32 a b).bits = pack_f32 (F32Fields.mk
        (Bool.xor (unpack_f32 a).sign (unpack_f32 b).sign)
        (List.replicate 8 true) (List.replicate 23 false))) ∧
    (f32_is_nan a = false → f32_is_nan b = false →
      f32_is_inf a = false → f32_is_inf b = false →
      (f32_is_zero a = true ∨ f32_is_zero b = true) →
      (fmul_f32 a b).bits = pack_f32 (F32Fields.mk
        (Bool.xor (unpack_f32 a).sign (unpack_f32 b).sign)
        (List.replicate 8 false) (List.replicate 23 false))) := by
  have hnan_val : bitsToNat nan_bits = 0x7FC00000 := by decide
  refine ⟨?_, ?_, ?_⟩
  · intro h
    by_cases hna : f32_is_nan a = true
    · rw [fmul_nan_branch a b ha hb (Or.inl hna)]
      exact ⟨rfl, hnan_val, rfl⟩
    · by_cases hnb : f32_is_nan b = true
      · rw [fmul_nan_branch a b ha hb (Or.inr hnb)]
        exact ⟨rfl, hnan_val, rfl⟩
      · have hna' : f32_is_nan a = false := by
          cases hx : f32_is_nan a
          · rfl
          · exact absurd hx hna
        have hnb' : f32_is_nan b = false := by
          cases hx : f32_is_nan b
          · rfl
          · exact absurd hx hnb
        have hiz : (f32_is_inf a = true ∧ f32_is_zero b = true) ∨
            (f32_is_inf b = true ∧ f32_is_zero a = true) := by
          rcases h with h | h | h | h
          · exact absurd h hna
          · exact absurd h hnb
          · exact Or.inl h
          · exact Or.inr h
        rw [fmul_infzero_branch a b ha hb hna' hnb' hiz]
        exact ⟨rfl, hnan_val, rfl⟩
  · intro hna hnb hniz hinf
    have hiz : (f32_is_inf a && f32_is_zero b || f32_is_inf b && f32_is_zero a)
        = false := by
      by_contra hx
      have hx2 : (f32_is_inf a && f32_is_zero b || f32_is_inf b && f32_is_zero a)
          = true := by
        cases hy : (f32_is_inf a && f32_is_zero b || f32_is_inf b && f32_is_zero a)
        · exact absurd hy hx
        · rfl
      rw [Bool.or_eq_true, Bool.and_eq_true, Bool.and_eq_true] at hx2
      exact hniz hx2
    rw [fmul_inf_branch a b ha hb hna hnb hiz hinf]
  · intro hna hnb hia hib hzero
    rw [fmul_zero_branch a b ha hb hna hnb hia hib hzero]

/-- Witness for C6 at a = quiet NaN with payload 1, b = 1.0. -/
theorem c6_witness :
    ((f32_is_nan c6a = true ∨ f32_is_nan c6b = true ∨
      (f32_is_inf c6a = true ∧ f32_is_zero c6b = true) ∨
      (f32_is_inf c6b = true ∧ f32_is_zero c6a = true)) →
      (fmul_f32 c6a c6b).bits = nan_bits ∧
      bitsToNat (fmul_f32 c6a c6b).bits = 0x7FC00000 ∧
      (fmul_f32 c6a c6b).flags.invalid = true) ∧
    (f32_is_nan c6a = false → f32_is_nan c6b = false →
      ¬ ((f32_is_inf c6a = true ∧ f32_is_zero c6b = true) ∨
        (f32_is_inf c6b = true ∧ f32_is_zero c6a = true)) →
      (f32_is_inf c6a = true ∨ f32_is_inf c6b = true) →
      (fmul_f32 c6a c6b).bits = pack_f32 (F32Fields.mk
        (Bool.xor (unpack_f32 c6a).sign (unpack_f32 c6b).sign)
        (List.replicate 8 true) (List.replicate 23 false))) ∧
    (f32_is_nan c6a = false → f32_is_nan c6b = false →
      f32_is_inf c6a = false → f32_is_inf c6b = false →
      (f32_is_zero c6a = true ∨ f32_is_zero c6b = true) →
      (fmul_f32 c6a c6b).bits = pack_f32 (F32Fields.mk
        (Bool.xor (unpack_f32 c6a).sign (unpack_f32 c6b).sign)
        (List.replicate 8 false) (List.replicate 23 false))) :=
  c6_fmul_special_priority c6a c6b (by decide) (by decide)

/-! ### Exponent arithmetic inside fmul -/

theorem unpack_exponent_length (x : Bits) : (unpack_f32 x).exponent.length = 8 := by
  simp [unpack_f32]

theorem unpack_exponent_lt (x : Bits) : bitsToNat (unpack_f32 x).exponent < 2 ^ 8 := by
  have h := bitsToNat_lt (unpack_f32 x).exponent
  rwa [unpack_exponent_length] at h

theorem exp9_val (x : Bits) :
    bitsToNat ((unpack_f32 x).exponent ++ [false]) =
      bitsToNat (unpack_f32 x).exponent := by
  rw [show ([false] : Bits) = List.replicate 1 false from rfl,
    bitsToNat_append_replicate_false]

theorem exp9_length (x : Bits) :
    ((unpack_f32 x).exponent ++ [false]).length = 9 := by
  simp [unpack_exponent_length]

/-- The 9-bit exponent sum never wraps: it is the exact sum of the two biased
exponents. -/
theorem exp_sum9_val (a b : Bits) :
    bitsToNat (add_unsigned ((unpack_f32 a).exponent ++ [false])
      ((unpack_f32 b).exponent ++ [false]) 9).1 =
      bitsToNat (unpack_f32 a).exponent + bitsToNat (unpack_f32 b).exponent := by
  have hv := rippleAdd_val ((unpack_f32 a).exponent ++ [false])
    ((unpack_f32 b).exponent ++ [false]) false 9
  rw [valW_of_length_le 9 _ (le_of_eq (exp9_length a)),
    valW_of_length_le 9 _ (le_of_eq (exp9_length b)), exp9_val a, exp9_val b,
    bitVal_false] at hv
  have hA := unpack_exponent_lt a
  have hB := unpack_exponent_lt b
  rw [add_unsigned]
  rcases Bool.dichotomy ((rippleAdd ((unpack_f32 a).exponent ++ [false])
      ((unpack_f32 b).exponent ++ [false]) false 9).2) with hc | hc
  · rw [hc, bitVal_false] at hv
    omega
  · rw [hc, bitVal_true] at hv
    have hlt : bitsToNat (rippleAdd ((unpack_f32 a).exponent ++ [false])
        ((unpack_f32 b).exponent ++ [false]) false 9).1 < 2 ^ 9 := by
      have h2 := bitsToNat_lt (rippleAdd ((unpack_f32 a).exponent ++ [false])
        ((unpack_f32 b).exponent ++ [false]) false 9).1
      rwa [rippleAdd_length] at h2
    omega

/-- The 8-bit exponent sum is the true sum reduced modulo 256. -/
theorem exp_sum8_val (a b : Bits) :
    bitsToNat (add_unsigned (unpack_f32 a).exponent (unpack_f32 b).exponent 8).1 =
      (bitsToNat (unpack_f32 a).exponent + bitsToNat (unpack_f32 b).exponent) % 256 := by
  have hv := rippleAdd_val (unpack_f32 a).exponent (unpack_f32 b).exponent false 8
  rw [valW_of_length_le 8 _ (le_of_eq (unpack_exponent_length a)),
    valW_of_length_le 8 _ (le_of_eq (unpack_exponent_length b)), bitVal_false] at hv
  have hA := unpack_exponent_lt a
  have hB := unpack_exponent_lt b
  have hlt : bitsToNat (rippleAdd (unpack_f32 a).exponent (unpack_f32 b).exponent
      false 8).1 < 2 ^ 8 := by
    have h2 := bitsToNat_lt (rippleAdd (unpack_f32 a).exponent
      (unpack_f32 b).exponent false 8).1
    rwa [rippleAdd_length] at h2
  rw [add_unsigned]
  rcases Bool.dichotomy ((rippleAdd (unpack_f32 a).exponent
      (unpack_f32 b).exponent false 8).2) with hc | hc
  · rw [hc, bitVal_false] at hv
    omega
  · rw [hc, bitVal_true] at hv
    omega

/-- The bias subtraction borrows exactly when the 8-bit exponent sum is below
127. -/
theorem bias_borrow_iff (a b : Bits) :
    (subtract_unsigned (add_unsigned (unpack_f32 a).exponent
        (unpack_f32 b).exponent 8).1
      ([true, true, true, true, true, true, true, false] : Bits) 8).2 = true ↔
    (bitsToNat (unpack_f32 a).exponent + bitsToNat (unpack_f32 b).exponent) % 256
      < 127 := by
  rw [subtract_unsigned, rippleSub_borrow_iff]
  have hlen : (add_unsigned (unpack_f32 a).exponent (unpack_f32 b).exponent 8).1.length
      = 8 := rippleAdd_length _ _ _ _
  rw [valW_of_length_le 8 _ (le_of_eq hlen), exp_sum8_val a b]
  have hbias : valW 8 ([true, true, true, true, true, true, true, false] : Bits)
      = 127 := by decide
  rw [hbias]

/-- The 9-bit pre-check does not fire when the exponent sum is below 382. -/
theorem precheck_not_fired (a b : Bits)
    (hpre : bitsToNat (unpack_f32 a).exponent + bitsToNat (unpack_f32 b).exponent
      < 382) :
    ¬ (0 ≤ compare_unsigned
      (add_unsigned ((unpack_f32 a).exponent ++ [false])
        ((unpack_f32 b).exponent ++ [false]) 9).1
      ([false, true, true, true, true, true, true, false, true] : Bits)) := by
  have hlen : (add_unsigned ((unpack_f32 a).exponent ++ [false])
      ((unpack_f32 b).exponent ++ [false]) 9).1.length = 9 := rippleAdd_length _ _ _ _
  rw [compare_unsigned, hlen]
  rw [show (min 9 ([false, true, true, true, true, true, true, false, true] :
    Bits).length) = 9 from rfl]
  rw [cmpFrom_nonneg_iff]
  rw [valW_of_length_le 9 _ (le_of_eq hlen), exp_sum9_val a b]
  have hth : valW 9 ([false, true, true, true, true, true, true, false, true] : Bits)
      = 382 := by decide
  rw [hth]
  omega

/-! ### Claim C1 -/

theorem fmulFinish_trace_getD (s : Bool) (e p : Bits) (sh : Nat) :
    ((fmulFinish s e p sh).trace.getD 1 "") =
      "fmul_f32: after significand multiply" := by
  simp only [fmulFinish]
  split
  · rfl
  · split
    · rfl
    · rfl

theorem fmulArith_flush (a b : Bits)
    (hpre : bitsToNat (unpack_f32 a).exponent + bitsToNat (unpack_f32 b).exponent
      < 382)
    (hbor : (subtract_unsigned (add_unsigned (unpack_f32 a).exponent
        (unpack_f32 b).exponent 8).1
      ([true, true, true, true, true, true, true, false] : Bits) 8).2 = true) :
    fmulArith a b = FpuResult.mk
      (pack_f32 (F32Fields.mk (Bool.xor (unpack_f32 a).sign (unpack_f32 b).sign)
        (List.replicate 8 false) (List.replicate 23 false)))
      (FpuFlags.mk false true false false)
      ["fmul_f32 start", "fmul_f32: exponent underflow before normalization"] := by
  simp only [fmulArith]
  rw [if_neg (precheck_not_fired a b hpre), hbor, ite_cond_true]

theorem fmulArith_no_flush_trace (a b : Bits)
    (hpre : bitsToNat (unpack_f32 a).exponent + bitsToNat (unpack_f32 b).exponent
      < 382)
    (hbor : (subtract_unsigned (add_unsigned (unpack_f32 a).exponent
        (unpack_f32 b).exponent 8).1
      ([true, true, true, true, true, true, true, false] : Bits) 8).2 = false) :
    ((fmulArith a b).trace.getD 1 "") =
      "fmul_f32: after significand multiply" := by
  simp only [fmulArith]
  rw [if_neg (precheck_not_fired a b hpre), hbor, ite_cond_false]
  split
  · split
    · rfl
    · exact fmulFinish_trace_getD _ _ _ _
  · exact fmulFinish_trace_getD _ _ _ _

/-- Claim C1 (amended): for finite non-zero-classified operands whose biased
exponents sum below 382, fmul flushes to a signed zero with `underflow = true`
at the pre-normalization step if and only if the 8-bit subtraction
`(expA + expB) mod 256 − 127` borrows, i.e. iff `(expA + expB) mod 256 < 127`.
(The 8-bit sum wraps: for sums in [256, 381] the subtraction also borrows,
which the original claim's bound `expA + expB < 127` misses.) -/
theorem c1_preflush_iff (a b : Bits) (ha : a.length = 32) (hb : b.length = 32)
    (hna : f32_is_nan a = false) (hnb : f32_is_nan b = false)
    (hia : f32_is_inf a = false) (hib : f32_is_inf b = false)
    (hza : f32_is_zero a = false) (hzb : f32_is_zero b = false)
    (hpre : bitsToNat (unpack_f32 a).exponent + bitsToNat (unpack_f32 b).exponent
      < 382) :
    (fmul_f32 a b = FpuResult.mk
        (pack_f32 (F32Fields.mk (Bool.xor (unpack_f32 a).sign (unpack_f32 b).sign)
          (List.replicate 8 false) (List.replicate 23 false)))
        (FpuFlags.mk false true false false)
        ["fmul_f32 start", "fmul_f32: exponent underflow before normalization"]) ↔
      (bitsToNat (unpack_f32 a).exponent + bitsToNat (unpack_f32 b).exponent) % 256
        < 127 := by
  rw [fmul_finite_branch a b ha hb hna hnb hia hib hza hzb]
  constructor
  · intro heq
    by_contra hge
    have hbor : (subtract_unsigned (add_unsigned (unpack_f32 a).exponent
        (unpack_f32 b).exponent 8).1
        ([true, true, true, true, true, true, true, false] : Bits) 8).2 = false := by
      rcases Bool.dichotomy ((subtract_unsigned (add_unsigned (unpack_f32 a).exponent
          (unpack_f32 b).exponent 8).1
        ([true, true, true, true, true, true, true, false] : Bits) 8).2) with h | h
      · exact h
      · exact absurd ((bias_borrow_iff a b).1 h) hge
    have h1 := fmulArith_no_flush_trace a b hpre hbor
    rw [heq] at h1
    have h2 : ("fmul_f32: exponent underflow before normalization" : String) =
        "fmul_f32: after significand multiply" := h1
    exact absurd h2 (by decide)
  · intro hlt
    exact fmulArith_flush a b hpre ((bias_borrow_iff a b).2 hlt)

/-- Counterexample to C1 as stated: at a = b = 0x4B000000 both operands are
finite, non-zero and non-NaN, the exponent sum 300 passes the 9-bit pre-check
(300 < 382) and is not below 127, yet fmul flushes to +0 with
`underflow = true` at the pre-normalization step — because the sum is formed
in 8 bits and 300 mod 256 = 44 < 127. -/
theorem c1_counterexample :
    c1x.length = 32 ∧
    f32_is_nan c1x = false ∧ f32_is_inf c1x = false ∧ f32_is_zero c1x = false ∧
    bitsToNat (unpack_f32 c1x).exponent + bitsToNat (unpack_f32 c1x).exponent
      < 382 ∧
    ¬ (bitsToNat (unpack_f32 c1x).exponent + bitsToNat (unpack_f32 c1x).exponent
      < 127) ∧
    fmul_f32 c1x c1x = FpuResult.mk
      (pack_f32 (F32Fields.mk (Bool.xor (unpack_f32 c1x).sign
        (unpack_f32 c1x).sign) (List.replicate 8 false) (List.replicate 23 false)))
      (FpuFlags.mk false true false false)
      ["fmul_f32 start", "fmul_f32: exponent underflow before normalization"] := by
  decide

/-- Witness for the amended C1 at a = b = 0x00800000 (exponent sum 2). -/
theorem c1_witness :
    (fmul_f32 c1w c1w = FpuResult.mk
        (pack_f32 (F32Fields.mk (Bool.xor (unpack_f32 c1w).sign
          (unpack_f32 c1w).sign) (List.replicate 8 false) (List.replicate 23 false)))
        (FpuFlags.mk false true false false)
        ["fmul_f32 start", "fmul_f32: exponent underflow before normalization"]) ↔
      (bitsToNat (unpack_f32 c1w).exponent + bitsToNat (unpack_f32 c1w).exponent)
        % 256 < 127 :=
  c1_preflush_iff c1w c1w (by decide) (by decide) (by decide) (by decide)
    (by decide) (by decide) (by decide) (by decide) (by decide)

/-! ### Reading bit windows as list segments -/

theorem map_range_getD (l : Bits) (n : Nat) (h : n ≤ l.length) :
    (List.range n).map (fun i => l.getD i false) = l.take n := by
  apply List.ext_get
  · simp [List.length_take]
    omega
  · intro i h1 h2
    simp only [List.get_eq_getElem, List.getElem_map, List.getElem_range]
    rw [List.getElem_take]
    simp only [List.length_map, List.length_range] at h1
    rw [List.getD_eq_getElem?_getD, List.getElem?_eq_getElem (by omega)]
    rfl

theorem getD_drop (l : Bits) (k i : Nat) :
    (l.drop k).getD i false = l.getD (k + i) false := by
  rw [List.getD_eq_getElem?_getD, List.getD_eq_getElem?_getD, List.getElem?_drop]

theorem map_range_getD_add (l : Bits) (k n : Nat) (h : k + n ≤ l.length) :
    (List.range n).map (fun i => l.getD (k + i) false) = (l.drop k).take n := by
  have h1 : ∀ i, l.getD (k + i) false = (l.drop k).getD i false := by
    intro i
    rw [getD_drop]
  have h2 : (fun i => l.getD (k + i) false) = (fun i => (l.drop k).getD i false) := by
    funext i
    exact h1 i
  rw [h2, map_range_getD]
  simp
  omega

/-- The high-half window of the 64-bit product register. -/
theorem hi_window (p : Bits) (hp : p.length = 64) :
    (List.range 32).map (fun i => p.getD (32 + i) false) = p.drop 32 := by
  rw [map_range_getD_add p 32 32 (by omega)]
  apply List.take_of_length_le
  simp
  omega

/-- Value of `twos_negate_fixed` at an exact width. -/
theorem twos_negate_fixed_val (v : Bits) (w : Nat) (hv : v.length = w)
    (hw : 0 < w) :
    bitsToNat (twos_negate_fixed v w) = (2 ^ w - bitsToNat v) % 2 ^ w := by
  have hinv : (List.range w).map (fun i => ! v.getD i false) =
      v.map (fun x => !x) := by
    apply List.ext_get
    · simp [hv]
    · intro i h1 h2
      simp only [List.get_eq_getElem, List.getElem_map, List.getElem_range]
      simp only [List.length_map, List.length_range] at h1
      rw [List.getD_eq_getElem?_getD, List.getElem?_eq_getElem (by omega)]
      rfl
  rw [twos_negate_fixed]
  simp only [hinv, if_neg (show ¬ w = 0 by omega)]
  have hone : bitsToNat (true :: List.replicate (w-1) false) = 1 := by
    show bitVal true + 2 * bitsToNat (List.replicate (w-1) false) = 1
    rw [bitVal_true, bitsToNat_replicate_false]
  have hval := rippleAdd_val (v.map (fun x => !x))
    (true :: List.replicate (w-1) false) false w
  rw [bitVal_false] at hval
  rw [valW_of_length_le w _ (by simp [hv]),
    valW_of_length_le w _ (by simp; omega), hone, map_not_val, hv] at hval
  have hlt : bitsToNat (rippleAdd (v.map (fun x => !x))
      (true :: List.replicate (w-1) false) false w).1 < 2 ^ w := by
    have h2 := bitsToNat_lt (rippleAdd (v.map (fun x => !x))
      (true :: List.replicate (w-1) false) false w).1
    rwa [rippleAdd_length] at h2
  have hvlt : bitsToNat v < 2 ^ w := by
    have h2 := bitsToNat_lt v
    rwa [hv] at h2
  have hmod : bitsToNat v = 0 → (2 ^ w - bitsToNat v) % 2 ^ w = 0 := by
    intro h0
    rw [h0, Nat.sub_zero, Nat.mod_self]
  have hmod2 : 0 < bitsToNat v → (2 ^ w - bitsToNat v) % 2 ^ w
      = 2 ^ w - bitsToNat v := by
    intro h0
    apply Nat.mod_eq_of_lt
    omega
  rw [add_unsigned]
  rcases Bool.dichotomy ((rippleAdd (v.map (fun x => !x))
      (true :: List.replicate (w-1) false) false w).2) with hc | hc
  · rw [hc, bitVal_false] at hval
    rcases Nat.eq_zero_or_pos (bitsToNat v) with h0 | h0
    · rw [hmod h0]
      omega
    · rw [hmod2 h0]
      omega
  · rw [hc, bitVal_true] at hval
    rcases Nat.eq_zero_or_pos (bitsToNat v) with h0 | h0
    · rw [hmod h0]
      omega
    · rw [hmod2 h0]
      omega

theorem twos_negate_fixed_length (v : Bits) (w : Nat) :
    (twos_negate_fixed v w).length = w := by
  rw [twos_negate_fixed]
  exact rippleAdd_length _ _ _ _

/-! ### Shift-add multiply: step and loop lemmas -/

theorem mulStep_eq (m p : Bits) :
    mulStep m p = shift_right_logical
      (if p.getD 0 false then
        p.take 32 ++
          (add_unsigned ((List.range 32).map (fun i => p.getD (32 + i) false)) m 32).1
      else p) 64 := rfl

theorem mulStep_length (m p : Bits) (hp : p.length = 64) :
    (mulStep m p).length = 64 := by
  rw [mulStep_eq]
  apply shift_right_logical_length _ 64 _ (by norm_num)
  split
  · rw [List.length_append, List.length_take, add_unsigned, rippleAdd_length]
    omega
  · exact hp

theorem mulStep_val (m p : Bits) (hp : p.length = 64) (hm : m.length = 32)
    (hcar : bitsToNat (p.drop 32) + bitsToNat m < 2 ^ 32) :
    bitsToNat (mulStep m p) =
      (bitsToNat p + (if p.getD 0 false then 2 ^ 32 * bitsToNat m else 0)) / 2 := by
  rw [mulStep_eq]
  rcases Bool.dichotomy (p.getD 0 false) with h0 | h0
  · rw [h0, if_neg (by simp), if_neg (by simp)]
    rw [shift_right_logical_val p 64 hp (by norm_num), Nat.add_zero]
  · rw [h0, if_pos rfl, if_pos rfl, hi_window p hp]
    have hs := rippleAdd_val (p.drop 32) m false 32
    rw [bitVal_false, valW_of_length_le 32 (p.drop 32) (by simp [hp]),
      valW_of_length_le 32 m (le_of_eq hm)] at hs
    have hcz : (rippleAdd (p.drop 32) m false 32).2 = false := by
      rcases Bool.dichotomy ((rippleAdd (p.drop 32) m false 32).2) with hc | hc
      · exact hc
      · rw [hc, bitVal_true] at hs
        exfalso
        omega
    rw [hcz, bitVal_false] at hs
    simp only [Nat.mul_zero, Nat.add_zero] at hs
    have hlen1 : (p.take 32).length = 32 := by
      rw [List.length_take]
      omega
    have hlenp1 : (p.take 32 ++ (add_unsigned (p.drop 32) m 32).1).length = 64 := by
      rw [List.length_append, hlen1, add_unsigned, rippleAdd_length]
    have hnum : bitsToNat (p.take 32 ++ (add_unsigned (p.drop 32) m 32).1) =
        bitsToNat p + 2 ^ 32 * bitsToNat m := by
      rw [bitsToNat_append, hlen1, add_unsigned, hs]
      have hdecomp := bitsToNat_take_add_drop p 32
      rw [hlen1] at hdecomp
      rw [hdecomp]
      ring
    rw [shift_right_logical_val _ 64 hlenp1 (by norm_num), hnum]

theorem mulFold_fst (m : Bits) (n : Nat) (p0 : Bits) (acc : List String) :
    ((List.range n).foldl
      (fun st step => (mulStep m st.1, st.2 ++ [mulSnapshot step st.1])) (p0, acc)).1 =
      (mulStep m)^[n] p0 := by
  induction n generalizing acc with
  | zero => rfl
  | succ k ih =>
    rw [List.range_succ, List.foldl_append]
    simp only [List.foldl_cons, List.foldl_nil]
    rw [Function.iterate_succ_apply']
    show mulStep m ((List.range k).foldl
      (fun st step => (mulStep m st.1, st.2 ++ [mulSnapshot step st.1])) (p0, acc)).1 = _
    rw [ih]

theorem mulFold_trace_length (m : Bits) (n : Nat) (p0 : Bits) (acc : List String) :
    ((List.range n).foldl
      (fun st step => (mulStep m st.1, st.2 ++ [mulSnapshot step st.1])) (p0, acc)).2.length =
      acc.length + n := by
  induction n generalizing acc with
  | zero => rfl
  | succ k ih =>
    rw [List.range_succ, List.foldl_append]
    simp only [List.foldl_cons, List.foldl_nil]
    show (((List.range k).foldl
      (fun st step => (mulStep m st.1, st.2 ++ [mulSnapshot step st.1])) (p0, acc)).2 ++
        [mulSnapshot k (((List.range k).foldl
          (fun st step => (mulStep m st.1, st.2 ++ [mulSnapshot step st.1])) (p0, acc)).1)]).length
      = acc.length + (k + 1)
    rw [List.length_append, ih]
    simp only [List.length_singleton]
    omega

/-- The carry out of the high-half add never fires: the running register value
divided by `2^32`, plus the multiplicand magnitude, stays below `2^32`. -/
theorem mul_carry_bound (m1 a q k : Nat) (hm1 : m1 ≤ 2 ^ 31) (ha : a < 2 ^ k)
    (hq : q ≤ 2 ^ 31) (hk : k ≤ 31) :
    (m1 * a * 2 ^ (32 - k) + q) / 2 ^ 32 + m1 < 2 ^ 32 := by
  have hpk : 2 ^ k * 2 ^ (32 - k) = 2 ^ 32 := by
    rw [← pow_add]
    congr 1
    omega
  have h2 : 2 ≤ 2 ^ (32 - k) := by
    have h1 : 1 ≤ 32 - k := by omega
    calc 2 = 2 ^ 1 := rfl
      _ ≤ 2 ^ (32 - k) := Nat.pow_le_pow_right (by norm_num) h1
  have hXY : m1 * a * 2 ^ (32 - k) + m1 * 2 ^ (32 - k) ≤ m1 * 2 ^ 32 := by
    calc m1 * a * 2 ^ (32 - k) + m1 * 2 ^ (32 - k)
        = m1 * (a + 1) * 2 ^ (32 - k) := by ring
      _ ≤ m1 * 2 ^ k * 2 ^ (32 - k) :=
          mul_le_mul_right' (mul_le_mul_left' (show a + 1 ≤ 2 ^ k from ha) m1) (2 ^ (32 - k))
      _ = m1 * 2 ^ 32 := by rw [mul_assoc, hpk]
  have hY2 : 2 * m1 ≤ m1 * 2 ^ (32 - k) := by
    calc 2 * m1 = m1 * 2 := by ring
      _ ≤ m1 * 2 ^ (32 - k) := mul_le_mul_left' h2 m1
  have hv : m1 * a * 2 ^ (32 - k) + q < (2 ^ 32 - m1) * 2 ^ 32 := by
    rw [Nat.sub_mul]
    rcases Nat.lt_or_ge m1 (2 ^ 31) with hlt | hge
    · omega
    · have hm1e : m1 = 2 ^ 31 := le_antisymm hm1 hge
      subst hm1e
      omega
  have hd := (Nat.div_lt_iff_lt_mul (show 0 < 2 ^ 32 by norm_num)).mpr hv
  omega

/-- Loop invariant of the shift-add multiplier: after `k` of the 32 steps the
64-bit register holds `m1·(m2 mod 2^k)·2^(32−k) + m2/2^k` where `m1` is the
multiplicand magnitude and `m2` the initial register value. -/
theorem mulIter_spec (m p0 : Bits) (hm : m.length = 32) (hp0 : p0.length = 64)
    (hm1 : bitsToNat m ≤ 2 ^ 31) (hm2 : bitsToNat p0 ≤ 2 ^ 31) :
    ∀ k, k ≤ 32 →
      ((mulStep m)^[k] p0).length = 64 ∧
      bitsToNat ((mulStep m)^[k] p0) =
        bitsToNat m * (bitsToNat p0 % 2 ^ k) * 2 ^ (32 - k) + bitsToNat p0 / 2 ^ k := by
  intro k
  induction k with
  | zero =>
    intro _
    refine ⟨hp0, ?_⟩
    simp [Nat.mod_one]
  | succ k ih =>
    intro hk1
    have hk : k ≤ 31 := by omega
    obtain ⟨hlen, hval⟩ := ih (by omega)
    rw [Function.iterate_succ_apply']
    have h2e : 2 ^ (32 - k) = 2 * 2 ^ (31 - k) := by
      rw [← pow_succ']
      congr 1
      omega
    have hcarry : bitsToNat (((mulStep m)^[k] p0).drop 32) + bitsToNat m < 2 ^ 32 := by
      rw [bitsToNat_drop, hval]
      exact mul_carry_bound (bitsToNat m) (bitsToNat p0 % 2 ^ k) (bitsToNat p0 / 2 ^ k) k
        hm1 (Nat.mod_lt _ (by positivity)) (le_trans (Nat.div_le_self _ _) hm2) hk
    have hstep := mulStep_val m ((mulStep m)^[k] p0) hlen hm hcarry
    have hvq : bitsToNat ((mulStep m)^[k] p0) =
        2 * (bitsToNat m * (bitsToNat p0 % 2 ^ k) * 2 ^ (31 - k)) + bitsToNat p0 / 2 ^ k := by
      rw [hval, h2e]
      ring
    have hlsb : ((mulStep m)^[k] p0).getD 0 false =
        decide (bitsToNat ((mulStep m)^[k] p0) % 2 = 1) := by
      rw [getD_eq_testBit, Nat.testBit_zero]
    have hmodsucc : bitsToNat p0 % 2 ^ (k + 1) =
        bitsToNat p0 % 2 ^ k + 2 ^ k * (bitsToNat p0 / 2 ^ k % 2) := Nat.mod_pow_succ
    have hdivsucc : bitsToNat p0 / 2 ^ (k + 1) = bitsToNat p0 / 2 ^ k / 2 := by
      rw [Nat.div_div_eq_div_mul, ← pow_succ]
    have hpk31 : 2 ^ k * 2 ^ (31 - k) = 2 ^ 31 := by
      rw [← pow_add]
      congr 1
      omega
    refine ⟨mulStep_length m _ hlen, ?_⟩
    rw [hstep, show 32 - (k + 1) = 31 - k from by omega]
    have hXrw : bitsToNat m * (bitsToNat p0 % 2 ^ (k + 1)) * 2 ^ (31 - k) =
        bitsToNat m * (bitsToNat p0 % 2 ^ k) * 2 ^ (31 - k) +
          2 ^ 31 * bitsToNat m * (bitsToNat p0 / 2 ^ k % 2) := by
      rw [hmodsucc]
      calc bitsToNat m * (bitsToNat p0 % 2 ^ k + 2 ^ k * (bitsToNat p0 / 2 ^ k % 2)) *
            2 ^ (31 - k)
          = bitsToNat m * (bitsToNat p0 % 2 ^ k) * 2 ^ (31 - k) +
            2 ^ k * 2 ^ (31 - k) * (bitsToNat m * (bitsToNat p0 / 2 ^ k % 2)) := by ring
        _ = _ := by
            rw [hpk31]
            ring
    rw [hXrw, hdivsucc]
    rcases Nat.mod_two_eq_zero_or_one (bitsToNat p0 / 2 ^ k) with hb | hb
    · have hq2 : bitsToNat ((mulStep m)^[k] p0) % 2 = 0 := by
        rw [hvq]
        omega
      have hlsbf : ((mulStep m)^[k] p0).getD 0 false = false := by
        rw [hlsb, hq2]
        decide
      rw [hlsbf, if_neg (by simp), hb]
      omega
    · have hq2 : ((mulStep m)^[k] p0).getD 0 false = true := by
        rw [hlsb, hvq]
        have hone : (2 * (bitsToNat m * (bitsToNat p0 % 2 ^ k) * 2 ^ (31 - k)) +
            bitsToNat p0 / 2 ^ k) % 2 = 1 := by omega
        rw [hone]
        decide
      rw [hq2, if_pos rfl, hb]
      omega

theorem mulLoop_eq (m p0 : Bits) :
    mulLoop m p0 = (List.range 32).foldl
      (fun st step => (mulStep m st.1, st.2 ++ [mulSnapshot step st.1])) (p0, []) := rfl

/-- The 32-step shift-add loop on a 64-bit register whose magnitudes fit in
31 bits: the final register holds the full product and 32 snapshots are
recorded. -/
theorem mulLoop_spec (m p0 : Bits) (hm : m.length = 32) (hp0 : p0.length = 64)
    (hm1 : bitsToNat m ≤ 2 ^ 31) (hm2 : bitsToNat p0 ≤ 2 ^ 31) :
    (mulLoop m p0).1.length = 64 ∧
    bitsToNat (mulLoop m p0).1 = bitsToNat m * bitsToNat p0 ∧
    (mulLoop m p0).2.length = 32 := by
  obtain ⟨hl, hv⟩ := mulIter_spec m p0 hm hp0 hm1 hm2 32 (le_refl 32)
  have hlt : bitsToNat p0 < 2 ^ 32 := lt_of_le_of_lt hm2 (by norm_num)
  rw [show (32 : Nat) - 32 = 0 from rfl, pow_zero, mul_one, Nat.mod_eq_of_lt hlt,
    Nat.div_eq_of_lt hlt, Nat.add_zero] at hv
  refine ⟨?_, ?_, ?_⟩
  · rw [mulLoop_eq, mulFold_fst]
    exact hl
  · rw [mulLoop_eq, mulFold_fst]
    exact hv
  · rw [mulLoop_eq, mulFold_trace_length]
    rfl

theorem prod_mod_toNat (t : Nat) :
    t % 2 ^ 32 = (((t : Int)) % 2 ^ 32).toNat := by
  omega

theorem negProd_mod_toNat (t : Nat) (ht : t ≤ 2 ^ 62) :
    ((2 ^ 64 - t) % 2 ^ 64) % 2 ^ 32 = ((-(t : Int)) % 2 ^ 32).toNat := by
  omega

/-- C2: for every pair of 32-bit vectors, the low 32 bits of
`mdu_mul(Mul, a, b)` equal the two's-complement truncation of the signed
product of `a` and `b`, and the returned trace has exactly 33 entries. -/
theorem c2_mdu_mul (a b : Bits) (ha : a.length = 32) (hb : b.length = 32) :
    bitsToNat (mdu_mul MulOp.Mul a b).lo =
      ((sint32 a * sint32 b) % 2 ^ 32).toNat ∧
    (mdu_mul MulOp.Mul a b).trace.length = 33 := by
  have hza : zero_extend a 32 = a := zero_extend_of_length_eq a 32 ha
  have hzb : zero_extend b 32 = b := zero_extend_of_length_eq b 32 hb
  have hlo : (mdu_mul MulOp.Mul a b).lo = (List.range 32).map (fun i =>
      (if Bool.xor (decode_i32_to_sign_and_magnitude (zero_extend a 32)).sign
            (decode_i32_to_sign_and_magnitude (zero_extend b 32)).sign = true then
        twos_negate_fixed (mulLoop
          (zero_extend (decode_i32_to_sign_and_magnitude (zero_extend a 32)).mag 32)
          (zero_extend (decode_i32_to_sign_and_magnitude (zero_extend b 32)).mag 32 ++
            List.replicate 32 false)).1 64
      else (mulLoop
          (zero_extend (decode_i32_to_sign_and_magnitude (zero_extend a 32)).mag 32)
          (zero_extend (decode_i32_to_sign_and_magnitude (zero_extend b 32)).mag 32 ++
            List.replicate 32 false)).1).getD i false) := rfl
  have htr : (mdu_mul MulOp.Mul a b).trace =
      (mulLoop
        (zero_extend (decode_i32_to_sign_and_magnitude (zero_extend a 32)).mag 32)
        (zero_extend (decode_i32_to_sign_and_magnitude (zero_extend b 32)).mag 32 ++
          List.replicate 32 false)).2 ++
      [mulSnapshot 32 (mulLoop
        (zero_extend (decode_i32_to_sign_and_magnitude (zero_extend a 32)).mag 32)
        (zero_extend (decode_i32_to_sign_and_magnitude (zero_extend b 32)).mag 32 ++
          List.replicate 32 false)).1] := rfl
  rw [hza, hzb] at hlo htr
  obtain ⟨hL, hV, hT⟩ := mulLoop_spec
    (zero_extend (decode_i32_to_sign_and_magnitude a).mag 32)
    (zero_extend (decode_i32_to_sign_and_magnitude b).mag 32 ++ List.replicate 32 false)
    (zero_extend_length _ 32)
    (by rw [List.length_append, zero_extend_length, List.length_replicate])
    (by
      rw [mag2_val a ha]
      exact sint32_natAbs_le a ha)
    (by
      rw [bitsToNat_append_replicate_false, mag2_val b hb]
      exact sint32_natAbs_le b hb)
  rw [mag2_val a ha] at hV
  rw [bitsToNat_append_replicate_false, mag2_val b hb] at hV
  have htrlen : (mdu_mul MulOp.Mul a b).trace.length = 33 := by
    rw [htr, List.length_append, hT]
    rfl
  have hAB : (sint32 a).natAbs * (sint32 b).natAbs ≤ 2 ^ 62 := by
    calc (sint32 a).natAbs * (sint32 b).natAbs
        ≤ 2 ^ 31 * 2 ^ 31 := Nat.mul_le_mul (sint32_natAbs_le a ha) (sint32_natAbs_le b hb)
      _ = 2 ^ 62 := by norm_num
  refine ⟨?_, htrlen⟩
  rw [hlo, sint32_eq_sign_mag a ha, sint32_eq_sign_mag b hb,
    decode_sign_eq a ha, decode_sign_eq b hb]
  rcases Bool.dichotomy (a.getD 31 false) with ha31 | ha31 <;>
    rcases Bool.dichotomy (b.getD 31 false) with hb31 | hb31 <;>
    rw [ha31, hb31]
  · rw [show Bool.xor false false = false from rfl, ite_cond_false, ite_cond_false,
      map_range_getD _ 32 (by
        rw [hL]
        norm_num), bitsToNat_take, hV]
    have hc : (1 * ((sint32 a).natAbs : Int)) * (1 * ((sint32 b).natAbs : Int)) =
        (((sint32 a).natAbs * (sint32 b).natAbs : Nat) : Int) := by
      push_cast
      ring
    rw [hc]
    exact prod_mod_toNat _
  · rw [show Bool.xor false true = true from rfl, ite_cond_true, ite_cond_false,
      ite_cond_true,
      map_range_getD _ 32 (by
        rw [twos_negate_fixed_length]
        norm_num), bitsToNat_take,
      twos_negate_fixed_val _ 64 hL (by norm_num), hV]
    have hc : (1 * ((sint32 a).natAbs : Int)) * (-1 * ((sint32 b).natAbs : Int)) =
        -(((sint32 a).natAbs * (sint32 b).natAbs : Nat) : Int) := by
      push_cast
      ring
    rw [hc]
    exact negProd_mod_toNat _ hAB
  · rw [show Bool.xor true false = true from rfl, ite_cond_true, ite_cond_true,
      ite_cond_false,
      map_range_getD _ 32 (by
        rw [twos_negate_fixed_length]
        norm_num), bitsToNat_take,
      twos_negate_fixed_val _ 64 hL (by norm_num), hV]
    have hc : (-1 * ((sint32 a).natAbs : Int)) * (1 * ((sint32 b).natAbs : Int)) =
        -(((sint32 a).natAbs * (sint32 b).natAbs : Nat) : Int) := by
      push_cast
      ring
    rw [hc]
    exact negProd_mod_toNat _ hAB
  · rw [show Bool.xor true true = false from rfl, ite_cond_false, ite_cond_true,
      map_range_getD _ 32 (by
        rw [hL]
        norm_num), bitsToNat_take, hV]
    have hc : (-1 * ((sint32 a).natAbs : Int)) * (-1 * ((sint32 b).natAbs : Int)) =
        (((sint32 a).natAbs * (sint32 b).natAbs : Nat) : Int) := by
      push_cast
      ring
    rw [hc]
    exact prod_mod_toNat _

theorem c2_witness :
    c2wa.length = 32 ∧ c2wb.length = 32 ∧
    bitsToNat (mdu_mul MulOp.Mul c2wa c2wb).lo = 4294967281 ∧
    (mdu_mul MulOp.Mul c2wa c2wb).trace.length = 33 := by
  have h := c2_mdu_mul c2wa c2wb (by decide) (by decide)
  refine ⟨by decide, by decide, ?_, h.2⟩
  rw [h.1]
  decide

/-! ### Restoring division: step and loop lemmas -/

theorem bitsToNat_set_of_false (l : Bits) (i : Nat) (c : Bool)
    (hi : i < l.length) (h : l.getD i false = false) :
    bitsToNat (l.set i c) = bitsToNat l + 2 ^ i * bitVal c := by
  induction l generalizing i with
  | nil => simp at hi
  | cons x r ih =>
    cases i with
    | zero =>
      have hx : x = false := h
      subst hx
      show bitVal c + 2 * bitsToNat r = bitVal false + 2 * bitsToNat r + 2 ^ 0 * bitVal c
      rw [bitVal_false, pow_zero]
      omega
    | succ j =>
      have hj : j < r.length := by
        simp at hi
        omega
      have hg : r.getD j false = false := h
      show bitVal x + 2 * bitsToNat (r.set j c) =
        bitVal x + 2 * bitsToNat r + 2 ^ (j + 1) * bitVal c
      rw [ih j hj hg, pow_succ]
      ring

theorem getD_set_of_ne (l : Bits) (i j : Nat) (c : Bool) (h : i ≠ j) :
    (l.set i c).getD j false = l.getD j false := by
  rw [List.getD_eq_getElem?_getD, List.getD_eq_getElem?_getD, List.getElem?_set_ne h]

theorem sint32_small (w : Bits) (h : bitsToNat w < 2 ^ 31) :
    sint32 w = (bitsToNat w : Int) := by
  rw [sint32, if_pos h]

/-- A 32-bit vector holding the two's-complement pattern of `−t` for a
magnitude `t ≤ 2^31` reads back as `−t`. -/
theorem sint32_of_neg_mag (w : Bits) (t : Nat) (ht : t ≤ 2 ^ 31)
    (hv : bitsToNat w = (2 ^ 32 - t) % 2 ^ 32) :
    sint32 w = -(t : Int) := by
  rcases Nat.eq_zero_or_pos t with h0 | h0
  · subst h0
    rw [sint32, hv]
    norm_num
  · have hv2 : bitsToNat w = 2 ^ 32 - t := by
      rw [hv]
      exact Nat.mod_eq_of_lt (by omega)
    rw [sint32, if_neg (by omega), hv2]
    have hcast : ((2 ^ 32 - t : Nat) : Int) = 2 ^ 32 - (t : Int) := by
      omega
    rw [hcast]
    ring

theorem divGo_succ (d v : Bits) (n : Nat) (st : Bits × Bits × List String) :
    divGo d v (n + 1) st = divGo d v n (divStep d v st n) := rfl

theorem divStep_pos (d v R Q : Bits) (tr : List String) (i : Nat)
    (hc : 0 ≤ compare_unsigned_32 ((shift_left_logical R 32).set 0 (d.getD i false)) v) :
    divStep d v (R, Q, tr) i =
      (subtract_unsigned_32 ((shift_left_logical R 32).set 0 (d.getD i false)) v,
       Q.set i true,
       tr ++ [divSnapshot (31 - i)
         (subtract_unsigned_32 ((shift_left_logical R 32).set 0 (d.getD i false)) v)
         (Q.set i true)]) := by
  simp only [divStep]
  rw [if_pos hc]

theorem divStep_neg (d v R Q : Bits) (tr : List String) (i : Nat)
    (hc : ¬ 0 ≤ compare_unsigned_32 ((shift_left_logical R 32).set 0 (d.getD i false)) v) :
    divStep d v (R, Q, tr) i =
      ((shift_left_logical R 32).set 0 (d.getD i false),
       Q.set i false,
       tr ++ [divSnapshot (31 - i)
         ((shift_left_logical R 32).set 0 (d.getD i false))
         (Q.set i false)]) := by
  simp only [divStep]
  rw [if_neg hc]

/-- Loop invariant of restoring division: starting at level `n` with remainder
`(d / 2^n) mod v` and quotient `(d / 2^n / v)·2^n` (low `n` quotient bits
still clear), the loop ends with remainder `d mod v`, quotient `d / v`, and
one trace line per step. -/
theorem divGo_spec (d v : Bits) (hpos : 0 < bitsToNat v)
    (hle : bitsToNat v ≤ 2 ^ 31) :
    ∀ n, n ≤ 32 → ∀ R Q (tr : List String),
      R.length = 32 → Q.length = 32 →
      bitsToNat R = bitsToNat d / 2 ^ n % bitsToNat v →
      bitsToNat Q = bitsToNat d / 2 ^ n / bitsToNat v * 2 ^ n →
      (∀ j, j < n → Q.getD j false = false) →
      (divGo d v n (R, Q, tr)).1.length = 32 ∧
      (divGo d v n (R, Q, tr)).2.1.length = 32 ∧
      bitsToNat (divGo d v n (R, Q, tr)).1 = bitsToNat d % bitsToNat v ∧
      bitsToNat (divGo d v n (R, Q, tr)).2.1 = bitsToNat d / bitsToNat v ∧
      (divGo d v n (R, Q, tr)).2.2.length = tr.length + n := by
  intro n
  induction n with
  | zero =>
    intro _ R Q tr hRl hQl hRv hQv hQlow
    refine ⟨hRl, hQl, ?_, ?_, rfl⟩
    · show bitsToNat R = _
      rw [hRv, pow_zero, Nat.div_one]
    · show bitsToNat Q = _
      rw [hQv, pow_zero, Nat.div_one, mul_one]
  | succ n ih =>
    intro hn1 R Q tr hRl hQl hRv hQv hQlow
    have hn : n ≤ 32 := by omega
    rw [divGo_succ]
    have hRlt : bitsToNat R < 2 ^ 31 := by
      rw [hRv]
      exact lt_of_lt_of_le (Nat.mod_lt _ hpos) hle
    have hR1len : ((shift_left_logical R 32).set 0 (d.getD n false)).length = 32 := by
      rw [List.length_set, shift_left_logical_length R 32 hRl (by norm_num)]
    have hsll : shift_left_logical R 32 = false :: R.take 31 :=
      shift_left_logical_exact R 32 hRl (by norm_num)
    have hR1val : bitsToNat ((shift_left_logical R 32).set 0 (d.getD n false)) =
        bitVal (d.getD n false) + 2 * bitsToNat R := by
      rw [hsll]
      show bitVal (d.getD n false) + 2 * bitsToNat (R.take 31) = _
      rw [bitsToNat_take, Nat.mod_eq_of_lt hRlt]
    have hbit : bitVal (d.getD n false) = bitsToNat d / 2 ^ n % 2 := by
      rw [getD_eq_testBit, Nat.testBit_to_div_mod]
      rcases Nat.mod_two_eq_zero_or_one (bitsToNat d / 2 ^ n) with h | h
      · rw [h]
        rfl
      · rw [h]
        rfl
    have hDhalf : bitsToNat d / 2 ^ n / 2 = bitsToNat d / 2 ^ (n + 1) := by
      rw [Nat.div_div_eq_div_mul, ← pow_succ]
    have hR1v2 : bitsToNat ((shift_left_logical R 32).set 0 (d.getD n false)) =
        bitsToNat d / 2 ^ n % 2 + 2 * (bitsToNat d / 2 ^ (n + 1) % bitsToNat v) := by
      rw [hR1val, hbit, hRv]
    have hmodlt := Nat.mod_lt (bitsToNat d / 2 ^ (n + 1)) hpos
    have hR1lt : bitsToNat ((shift_left_logical R 32).set 0 (d.getD n false)) <
        2 * bitsToNat v := by
      rw [hR1v2]
      omega
    have hvw : valW 32 v = bitsToNat v := by
      rw [valW_eq_mod]
      exact Nat.mod_eq_of_lt (by omega)
    have hcmp_iff : (0 ≤ compare_unsigned_32
        ((shift_left_logical R 32).set 0 (d.getD n false)) v) ↔
        bitsToNat v ≤ bitsToNat ((shift_left_logical R 32).set 0 (d.getD n false)) := by
      rw [compare_unsigned_32, cmpFrom_nonneg_iff, hvw,
        valW_of_length_le 32 _ (le_of_eq hR1len)]
    have hE := (Nat.div_add_mod (bitsToNat d / 2 ^ (n + 1)) (bitsToNat v)).symm
    have hprod2 : bitsToNat v * (2 * (bitsToNat d / 2 ^ (n + 1) / bitsToNat v)) =
        2 * (bitsToNat v * (bitsToNat d / 2 ^ (n + 1) / bitsToNat v)) := by
      ring
    have hDeq : bitsToNat d / 2 ^ n =
        2 * (bitsToNat d / 2 ^ (n + 1)) + bitsToNat d / 2 ^ n % 2 := by
      omega
    by_cases hc : (0 : Int) ≤ compare_unsigned_32
        ((shift_left_logical R 32).set 0 (d.getD n false)) v
    · rw [divStep_pos d v R Q tr n hc]
      have hge := hcmp_iff.mp hc
      have hsubval : bitsToNat (subtract_unsigned_32
          ((shift_left_logical R 32).set 0 (d.getD n false)) v) =
          bitsToNat ((shift_left_logical R 32).set 0 (d.getD n false)) - bitsToNat v := by
        rw [subtract_unsigned_32,
          rippleSub_val_of_no_borrow _ _ 32
            (by rw [hvw, valW_of_length_le 32 _ (le_of_eq hR1len)]; exact hge),
          hvw, valW_of_length_le 32 _ (le_of_eq hR1len)]
      have hDfor : bitsToNat d / 2 ^ n =
          (bitsToNat ((shift_left_logical R 32).set 0 (d.getD n false)) - bitsToNat v) +
            bitsToNat v * (2 * (bitsToNat d / 2 ^ (n + 1) / bitsToNat v) + 1) := by
        have hexp : bitsToNat v * (2 * (bitsToNat d / 2 ^ (n + 1) / bitsToNat v) + 1) =
            2 * (bitsToNat v * (bitsToNat d / 2 ^ (n + 1) / bitsToNat v)) + bitsToNat v := by
          ring
        omega
      have ht1 : bitsToNat d / 2 ^ n % bitsToNat v =
          bitsToNat ((shift_left_logical R 32).set 0 (d.getD n false)) - bitsToNat v := by
        rw [hDfor, Nat.add_mul_mod_self_left, Nat.mod_eq_of_lt (by omega)]
      have ht2 : bitsToNat d / 2 ^ n / bitsToNat v =
          2 * (bitsToNat d / 2 ^ (n + 1) / bitsToNat v) + 1 := by
        rw [hDfor, Nat.add_mul_div_left _ _ hpos, Nat.div_eq_of_lt (by omega)]
        omega
      have hQbit : Q.getD n false = false := hQlow n (by omega)
      have hQnval : bitsToNat (Q.set n true) = bitsToNat Q + 2 ^ n := by
        rw [bitsToNat_set_of_false Q n true (by omega) hQbit, bitVal_true, mul_one]
      have H := ih hn (subtract_unsigned_32
          ((shift_left_logical R 32).set 0 (d.getD n false)) v) (Q.set n true)
        (tr ++ [divSnapshot (31 - n)
          (subtract_unsigned_32 ((shift_left_logical R 32).set 0 (d.getD n false)) v)
          (Q.set n true)])
        (by rw [subtract_unsigned_32, rippleSub_length])
        (by rw [List.length_set, hQl])
        (by rw [hsubval, ht1])
        (by
          rw [hQnval, hQv, ht2, pow_succ]
          ring)
        (by
          intro j hj
          rw [getD_set_of_ne Q n j true (by omega)]
          exact hQlow j (by omega))
      refine ⟨H.1, H.2.1, H.2.2.1, H.2.2.2.1, ?_⟩
      rw [H.2.2.2.2, List.length_append, List.length_singleton]
      omega
    · rw [divStep_neg d v R Q tr n hc]
      have hlt2 : bitsToNat ((shift_left_logical R 32).set 0 (d.getD n false)) <
          bitsToNat v := by
        have := hcmp_iff
        omega
      have hDfor : bitsToNat d / 2 ^ n =
          bitsToNat ((shift_left_logical R 32).set 0 (d.getD n false)) +
            bitsToNat v * (2 * (bitsToNat d / 2 ^ (n + 1) / bitsToNat v)) := by
        omega
      have ht1 : bitsToNat d / 2 ^ n % bitsToNat v =
          bitsToNat ((shift_left_logical R 32).set 0 (d.getD n false)) := by
        rw [hDfor, Nat.add_mul_mod_self_left, Nat.mod_eq_of_lt hlt2]
      have ht2 : bitsToNat d / 2 ^ n / bitsToNat v =
          2 * (bitsToNat d / 2 ^ (n + 1) / bitsToNat v) := by
        rw [hDfor, Nat.add_mul_div_left _ _ hpos, Nat.div_eq_of_lt hlt2]
        omega
      have hQbit : Q.getD n false = false := hQlow n (by omega)
      have hQnval : bitsToNat (Q.set n false) = bitsToNat Q := by
        rw [bitsToNat_set_of_false Q n false (by omega) hQbit, bitVal_false, mul_zero,
          Nat.add_zero]
      have H := ih hn ((shift_left_logical R 32).set 0 (d.getD n false)) (Q.set n false)
        (tr ++ [divSnapshot (31 - n)
          ((shift_left_logical R 32).set 0 (d.getD n false))
          (Q.set n false)])
        hR1len
        (by rw [List.length_set, hQl])
        (by rw [ht1])
        (by
          rw [hQnval, hQv, ht2, pow_succ]
          ring)
        (by
          intro j hj
          rw [getD_set_of_ne Q n j false (by omega)]
          exact hQlow j (by omega))
      refine ⟨H.1, H.2.1, H.2.2.1, H.2.2.2.1, ?_⟩
      rw [H.2.2.2.2, List.length_append, List.length_singleton]
      omega

theorem div_unsigned_32_eq (d v : Bits) :
    div_unsigned_32 d v = UnsignedDivResult.mk
      (divGo d v 32 (List.replicate 32 false, List.replicate 32 false, [])).2.1
      (divGo d v 32 (List.replicate 32 false, List.replicate 32 false, [])).1
      (divGo d v 32 (List.replicate 32 false, List.replicate 32 false, [])).2.2 := rfl

/-- Correctness of unsigned restoring division for a dividend below `2^32`
and a divisor in `[1, 2^31]`: quotient, remainder, and 32 trace lines. -/
theorem div_unsigned_32_spec (d v : Bits) (hd : bitsToNat d < 2 ^ 32)
    (hpos : 0 < bitsToNat v) (hle : bitsToNat v ≤ 2 ^ 31) :
    ∃ q r t, div_unsigned_32 d v = UnsignedDivResult.mk q r t ∧
      q.length = 32 ∧ r.length = 32 ∧
      bitsToNat q = bitsToNat d / bitsToNat v ∧
      bitsToNat r = bitsToNat d % bitsToNat v ∧
      t.length = 32 := by
  have H := divGo_spec d v hpos hle 32 (le_refl 32)
    (List.replicate 32 false) (List.replicate 32 false) []
    (by simp)
    (by simp)
    (by rw [bitsToNat_replicate_false, Nat.div_eq_of_lt hd, Nat.zero_mod])
    (by rw [bitsToNat_replicate_false, Nat.div_eq_of_lt hd, Nat.zero_div, Nat.zero_mul])
    (by
      intro j hj
      rw [getD_eq_testBit, bitsToNat_replicate_false]
      exact Nat.zero_testBit j)
  refine ⟨_, _, _, div_unsigned_32_eq d v, H.2.1, H.1, H.2.2.2.1, H.2.2.1, ?_⟩
  rw [H.2.2.2.2]
  simp

theorem tmod_neg_left (a b : Int) : (-a).tmod b = -(a.tmod b) := by
  simp [Int.tmod_def]
  ring

/-- C3: for 32-bit operands with a nonzero divisor, excluding INT_MIN / −1,
signed division satisfies the Euclidean identity with the quotient truncated
toward zero and the remainder carrying the dividend's sign. -/
theorem c3_mdu_div (a b : Bits) (ha : a.length = 32) (hb : b.length = 32)
    (hz : sint32 b ≠ 0)
    (hs : ¬ (bitsToNat a = 2 ^ 31 ∧ bitsToNat b = 2 ^ 32 - 1)) :
    sint32 a =
      sint32 (mdu_div DivOp.Div a b).q * sint32 b +
        sint32 (mdu_div DivOp.Div a b).r ∧
    sint32 (mdu_div DivOp.Div a b).q = (sint32 a).tdiv (sint32 b) ∧
    sint32 (mdu_div DivOp.Div a b).r = (sint32 a).tmod (sint32 b) ∧
    (sint32 (mdu_div DivOp.Div a b).r ≠ 0 →
      (0 ≤ sint32 (mdu_div DivOp.Div a b).r ↔ 0 ≤ sint32 a)) := by
  have hzb : bitsToNat b ≠ 0 := by
    intro h0
    exact hz (Int.natAbs_eq_zero.mp ((natAbs_sint32_eq_zero_iff b hb).mpr h0))
  have hBposN : 0 < (sint32 b).natAbs :=
    Nat.pos_of_ne_zero fun h0 => hz (Int.natAbs_eq_zero.mp h0)
  have hAle := sint32_natAbs_le a ha
  have hBle := sint32_natAbs_le b hb
  have hmodlt : (sint32 a).natAbs % (sint32 b).natAbs < (sint32 b).natAbs :=
    Nat.mod_lt _ hBposN
  have hdivle : (sint32 a).natAbs / (sint32 b).natAbs ≤ (sint32 a).natAbs :=
    Nat.div_le_self _ _
  have hInt : (((sint32 a).natAbs : Nat) : Int) =
      (((sint32 b).natAbs : Nat) : Int) *
        (((sint32 a).natAbs / (sint32 b).natAbs : Nat) : Int) +
      (((sint32 a).natAbs % (sint32 b).natAbs : Nat) : Int) := by
    exact_mod_cast (Nat.div_add_mod (sint32 a).natAbs (sint32 b).natAbs).symm
  have hAvala := sint32_natAbs a ha
  have hBvalb := sint32_natAbs b hb
  have halt : bitsToNat a < 2 ^ 32 := by
    have h1 := bitsToNat_lt a
    rwa [ha] at h1
  have hblt : bitsToNat b < 2 ^ 32 := by
    have h1 := bitsToNat_lt b
    rwa [hb] at h1
  rw [mdu_div_general a b ha hb hzb hs]
  obtain ⟨uq, ur, ut, heq, hql, hrl, hqv, hrv, htl⟩ := div_unsigned_32_spec
    (zero_extend (decode_i32_to_sign_and_magnitude a).mag 32)
    (zero_extend (decode_i32_to_sign_and_magnitude b).mag 32)
    (by
      rw [mag2_val a ha]
      exact lt_of_le_of_lt hAle (by norm_num))
    (by
      rw [mag2_val b hb]
      exact hBposN)
    (by
      rw [mag2_val b hb]
      exact hBle)
  rw [mag2_val a ha, mag2_val b hb] at hqv hrv
  rw [heq]
  dsimp only
  rw [decode_sign_eq a ha, decode_sign_eq b hb, sint32_eq_sign_mag a ha,
    sint32_eq_sign_mag b hb]
  rcases Bool.dichotomy (a.getD 31 false) with ha31 | ha31 <;>
    rcases Bool.dichotomy (b.getD 31 false) with hb31 | hb31 <;>
    rw [ha31, hb31]
  · -- a ≥ 0, b > 0: quotient and remainder stay positive
    rw [ha31, ite_cond_false] at hAvala
    have hAlt : (sint32 a).natAbs < 2 ^ 31 := by
      rw [hAvala]
      exact (getD_31_false_iff a ha).mp ha31
    rw [show Bool.xor false false = false from rfl]
    simp only [ite_cond_false, ite_cond_true, if_true, if_false]
    have hq_val : sint32 uq =
        (((sint32 a).natAbs / (sint32 b).natAbs : Nat) : Int) := by
      rw [sint32_small uq (by
        rw [hqv]
        omega), hqv]
    have hr_val : sint32 ur =
        (((sint32 a).natAbs % (sint32 b).natAbs : Nat) : Int) := by
      rw [sint32_small ur (by
        rw [hrv]
        omega), hrv]
    refine ⟨?_, ?_, ?_, ?_⟩
    · rw [hq_val, hr_val, one_mul, one_mul, hInt]
      ring
    · rw [hq_val, one_mul, one_mul]
      rfl
    · rw [hr_val, one_mul, one_mul]
      rfl
    · rw [hr_val, one_mul]
      intro h
      constructor
      · intro h2
        exact Int.natCast_nonneg _
      · intro h2
        exact Int.natCast_nonneg _
  · -- a ≥ 0, b < 0: quotient negated, remainder keeps the dividend sign
    rw [ha31, ite_cond_false] at hAvala
    have hAlt : (sint32 a).natAbs < 2 ^ 31 := by
      rw [hAvala]
      exact (getD_31_false_iff a ha).mp ha31
    rw [show Bool.xor false true = true from rfl]
    simp only [ite_cond_false, ite_cond_true, if_true, if_false]
    have hq_val : sint32 (twos_negate_fixed uq 32) =
        -((((sint32 a).natAbs / (sint32 b).natAbs : Nat) : Int)) :=
      sint32_of_neg_mag _ _ (by omega)
        (by rw [twos_negate_fixed_val uq 32 hql (by norm_num), hqv])
    have hr_val : sint32 ur =
        (((sint32 a).natAbs % (sint32 b).natAbs : Nat) : Int) := by
      rw [sint32_small ur (by
        rw [hrv]
        omega), hrv]
    refine ⟨?_, ?_, ?_, ?_⟩
    · rw [hq_val, hr_val, one_mul, neg_one_mul, hInt]
      ring
    · rw [hq_val, one_mul, neg_one_mul, Int.tdiv_neg,
        show (((sint32 a).natAbs : Nat) : Int).tdiv (((sint32 b).natAbs : Nat) : Int) =
          (((sint32 a).natAbs / (sint32 b).natAbs : Nat) : Int) from rfl]
    · rw [hr_val, one_mul, neg_one_mul, Int.tmod_neg,
        show (((sint32 a).natAbs : Nat) : Int).tmod (((sint32 b).natAbs : Nat) : Int) =
          (((sint32 a).natAbs % (sint32 b).natAbs : Nat) : Int) from rfl]
    · rw [hr_val, one_mul]
      intro h
      constructor
      · intro h2
        exact Int.natCast_nonneg _
      · intro h2
        exact Int.natCast_nonneg _
  · -- a < 0, b > 0: quotient and remainder both negated
    rw [ha31, ite_cond_true] at hAvala
    have hApos : 0 < (sint32 a).natAbs := by
      have h31 := (getD_31_iff a ha).mp ha31
      omega
    rw [show Bool.xor true false = true from rfl]
    simp only [ite_cond_false, ite_cond_true, if_true, if_false]
    have hq_val : sint32 (twos_negate_fixed uq 32) =
        -((((sint32 a).natAbs / (sint32 b).natAbs : Nat) : Int)) :=
      sint32_of_neg_mag _ _ (by omega)
        (by rw [twos_negate_fixed_val uq 32 hql (by norm_num), hqv])
    have hr_val : sint32 (twos_negate_fixed ur 32) =
        -((((sint32 a).natAbs % (sint32 b).natAbs : Nat) : Int)) :=
      sint32_of_neg_mag _ _ (by omega)
        (by rw [twos_negate_fixed_val ur 32 hrl (by norm_num), hrv])
    refine ⟨?_, ?_, ?_, ?_⟩
    · rw [hq_val, hr_val, one_mul, neg_one_mul, hInt]
      ring
    · rw [hq_val, neg_one_mul, one_mul, Int.neg_tdiv,
        show (((sint32 a).natAbs : Nat) : Int).tdiv (((sint32 b).natAbs : Nat) : Int) =
          (((sint32 a).natAbs / (sint32 b).natAbs : Nat) : Int) from rfl]
    · rw [hr_val, neg_one_mul, one_mul, tmod_neg_left,
        show (((sint32 a).natAbs : Nat) : Int).tmod (((sint32 b).natAbs : Nat) : Int) =
          (((sint32 a).natAbs % (sint32 b).natAbs : Nat) : Int) from rfl]
    · rw [hr_val, neg_one_mul]
      intro h
      constructor <;> intro h2 <;> exfalso <;> omega
  · -- a < 0, b < 0: quotient positive, remainder negated
    rw [ha31, ite_cond_true] at hAvala
    rw [hb31, ite_cond_true] at hBvalb
    have hApos : 0 < (sint32 a).natAbs := by
      have h31 := (getD_31_iff a ha).mp ha31
      omega
    have hq31 : (sint32 a).natAbs / (sint32 b).natAbs < 2 ^ 31 := by
      by_contra hcon
      push_neg at hcon
      have h2 : 2 ^ 31 * (sint32 b).natAbs ≤ (sint32 a).natAbs :=
        (Nat.le_div_iff_mul_le hBposN).mp hcon
      have hB1 : (sint32 b).natAbs = 1 := by omega
      exact hs ⟨by omega, by omega⟩
    rw [show Bool.xor true true = false from rfl]
    simp only [ite_cond_false, ite_cond_true, if_true, if_false]
    have hq_val : sint32 uq =
        (((sint32 a).natAbs / (sint32 b).natAbs : Nat) : Int) := by
      rw [sint32_small uq (by
        rw [hqv]
        exact hq31), hqv]
    have hr_val : sint32 (twos_negate_fixed ur 32) =
        -((((sint32 a).natAbs % (sint32 b).natAbs : Nat) : Int)) :=
      sint32_of_neg_mag _ _ (by omega)
        (by rw [twos_negate_fixed_val ur 32 hrl (by norm_num), hrv])
    refine ⟨?_, ?_, ?_, ?_⟩
    · rw [hq_val, hr_val, neg_one_mul, neg_one_mul, hInt]
      ring
    · rw [hq_val, neg_one_mul, neg_one_mul, Int.tdiv_neg, Int.neg_tdiv, neg_neg,
        show (((sint32 a).natAbs : Nat) : Int).tdiv (((sint32 b).natAbs : Nat) : Int) =
          (((sint32 a).natAbs / (sint32 b).natAbs : Nat) : Int) from rfl]
    · rw [hr_val, neg_one_mul, neg_one_mul, Int.tmod_neg, tmod_neg_left,
        show (((sint32 a).natAbs : Nat) : Int).tmod (((sint32 b).natAbs : Nat) : Int) =
          (((sint32 a).natAbs % (sint32 b).natAbs : Nat) : Int) from rfl]
    · rw [hr_val, neg_one_mul]
      intro h
      constructor <;> intro h2 <;> exfalso <;> omega

theorem c3_witness :
    c3wa.length = 32 ∧ c3wb.length = 32 ∧ sint32 c3wb ≠ 0 ∧
    sint32 c3wa =
      sint32 (mdu_div DivOp.Div c3wa c3wb).q * sint32 c3wb +
        sint32 (mdu_div DivOp.Div c3wa c3wb).r ∧
    sint32 (mdu_div DivOp.Div c3wa c3wb).q = (sint32 c3wa).tdiv (sint32 c3wb) ∧
    sint32 (mdu_div DivOp.Div c3wa c3wb).r = (sint32 c3wa).tmod (sint32 c3wb) := by
  have h := c3_mdu_div c3wa c3wb (by decide) (by decide) (by decide) (by decide)
  exact ⟨by decide, by decide, by decide, h.1, h.2.1, h.2.2.1⟩

theorem hex_char_spec (c : Char) (v : Nat) (h : hex_nibble_from_char c = some v) :
    Char.toLower c = char_from_nibble v ∧ v < 16 := by
  by_cases hc0 : c = '0'
  · subst hc0
    have hval : hex_nibble_from_char '0' = some 0 := by decide
    rw [hval] at h
    cases h
    exact ⟨by decide, by decide⟩
  by_cases hc1 : c = '1'
  · subst hc1
    have hval : hex_nibble_from_char '1' = some 1 := by decide
    rw [hval] at h
    cases h
    exact ⟨by decide, by decide⟩
  by_cases hc2 : c = '2'
  · subst hc2
    have hval : hex_nibble_from_char '2' = some 2 := by decide
    rw [hval] at h
    cases h
    exact ⟨by decide, by decide⟩
  by_cases hc3 : c = '3'
  · subst hc3
    have hval : hex_nibble_from_char '3' = some 3 := by decide
    rw [hval] at h
    cases h
    exact ⟨by decide, by decide⟩
  by_cases hc4 : c = '4'
  · subst hc4
    have hval : hex_nibble_from_char '4' = some 4 := by decide
    rw [hval] at h
    cases h
    exact ⟨by decide, by decide⟩
  by_cases hc5 : c = '5'
  · subst hc5
    have hval : hex_nibble_from_char '5' = some 5 := by decide
    rw [hval] at h
    cases h
    exact ⟨by decide, by decide⟩
  by_cases hc6 : c = '6'
  · subst hc6
    have hval : hex_nibble_from_char '6' = some 6 := by decide
    rw [hval] at h
    cases h
    exact ⟨by decide, by decide⟩
  by_cases hc7 : c = '7'
  · subst hc7
    have hval : hex_nibble_from_char '7' = some 7 := by decide
    rw [hval] at h
    cases h
    exact ⟨by decide, by decide⟩
  by_cases hc8 : c = '8'
  · subst hc8
    have hval : hex_nibble_from_char '8' = some 8 := by decide
    rw [hval] at h
    cases h
    exact ⟨by decide, by decide⟩
  by_cases hc9 : c = '9'
  · subst hc9
    have hval : hex_nibble_from_char '9' = some 9 := by decide
    rw [hval] at h
    cases h
    exact ⟨by decide, by decide⟩
  by_cases hcl10 : c = 'a'
  · subst hcl10
    have hval : hex_nibble_from_char 'a' = some 10 := by decide
    rw [hval] at h
    cases h
    exact ⟨by decide, by decide⟩
  by_cases hcu10 : c = 'A'
  · subst hcu10
    have hval : hex_nibble_from_char 'A' = some 10 := by decide
    rw [hval] at h
    cases h
    exact ⟨by decide, by decide⟩
  by_cases hcl11 : c = 'b'
  · subst hcl11
    have hval : hex_nibble_from_char 'b' = some 11 := by decide
    rw [hval] at h
    cases h
    exact ⟨by decide, by decide⟩
  by_cases hcu11 : c = 'B'
  · subst hcu11
    have hval : hex_nibble_from_char 'B' = some 11 := by decide
    rw [hval] at h
    cases h
    exact ⟨by decide, by decide⟩
  by_cases hcl12 : c = 'c'
  · subst hcl12
    have hval : hex_nibble_from_char 'c' = some 12 := by decide
    rw [hval] at h
    cases h
    exact ⟨by decide, by decide⟩
  by_cases hcu12 : c = 'C'
  · subst hcu12
    have hval : hex_nibble_from_char 'C' = some 12 := by decide
    rw [hval] at h
    cases h
    exact ⟨by decide, by decide⟩
  by_cases hcl13 : c = 'd'
  · subst hcl13
    have hval : hex_nibble_from_char 'd' = some 13 := by decide
    rw [hval] at h
    cases h
    exact ⟨by decide, by decide⟩
  by_cases hcu13 : c = 'D'
  · subst hcu13
    have hval : hex_nibble_from_char 'D' = some 13 := by decide
    rw [hval] at h
    cases h
    exact ⟨by decide, by decide⟩
  by_cases hcl14 : c = 'e'
  · subst hcl14
    have hval : hex_nibble_from_char 'e' = some 14 := by decide
    rw [hval] at h
    cases h
    exact ⟨by decide, by decide⟩
  by_cases hcu14 : c = 'E'
  · subst hcu14
    have hval : hex_nibble_from_char 'E' = some 14 := by decide
    rw [hval] at h
    cases h
    exact ⟨by decide, by decide⟩
  by_cases hcl15 : c = 'f'
  · subst hcl15
    have hval : hex_nibble_from_char 'f' = some 15 := by decide
    rw [hval] at h
    cases h
    exact ⟨by decide, by decide⟩
  by_cases hcu15 : c = 'F'
  · subst hcu15
    have hval : hex_nibble_from_char 'F' = some 15 := by decide
    rw [hval] at h
    cases h
    exact ⟨by decide, by decide⟩
  have hnone : hex_nibble_from_char c = none := by
    rw [hex_nibble_from_char, if_neg hc0,
      if_neg hc1,
      if_neg hc2,
      if_neg hc3,
      if_neg hc4,
      if_neg hc5,
      if_neg hc6,
      if_neg hc7,
      if_neg hc8,
      if_neg hc9,
      if_neg (not_or.mpr ⟨hcl10, hcu10⟩),
      if_neg (not_or.mpr ⟨hcl11, hcu11⟩),
      if_neg (not_or.mpr ⟨hcl12, hcu12⟩),
      if_neg (not_or.mpr ⟨hcl13, hcu13⟩),
      if_neg (not_or.mpr ⟨hcl14, hcu14⟩),
      if_neg (not_or.mpr ⟨hcl15, hcu15⟩)]
  rw [hnone] at h
  exact Option.noConfusion h

theorem mapM_hex_of_valid (l : List Char)
    (h : ∀ c ∈ l, (hex_nibble_from_char c).isSome) :
    l.mapM hex_nibble_from_char =
      some (l.map fun c => (hex_nibble_from_char c).getD 0) := by
  induction l with
  | nil => rfl
  | cons c r ih =>
    have hc := h c (by simp)
    obtain ⟨v, hv⟩ := Option.isSome_iff_exists.mp hc
    have hr := ih fun x hx => h x (by simp [hx])
    rw [List.mapM_cons, hv, hr]
    simp [hv]

theorem nib4_length (n : Nat) : (nib4 n).length = 4 := rfl

theorem nib4_val (n : Nat) (h : n < 16) : bitsToNat (nib4 n) = n := by
  have hgen : ∀ m, m < 16 → bitsToNat (nib4 m) = m := by decide
  exact hgen n h

theorem flatten_nib4_val (ns : List Nat) (h : ∀ x ∈ ns, x < 16) :
    bitsToNat (List.flatten (ns.map nib4)) = digsVal ns := by
  induction ns with
  | nil => rfl
  | cons d r ih =>
    rw [List.map_cons, List.flatten_cons, bitsToNat_append, nib4_length,
      nib4_val d (h d (by simp)), ih fun x hx => h x (by simp [hx])]
    show d + 2 ^ 4 * digsVal r = digsVal (d :: r)
    rw [digsVal]
    norm_num

theorem digsVal_snoc (l : List Nat) (d : Nat) :
    digsVal (l ++ [d]) = digsVal l + 16 ^ l.length * d := by
  induction l with
  | nil =>
    show digsVal [d] = digsVal [] + 16 ^ 0 * d
    rw [digsVal, digsVal, digsVal]
    norm_num
  | cons e r ih =>
    show digsVal (e :: (r ++ [d])) = digsVal (e :: r) + 16 ^ (r.length + 1) * d
    rw [digsVal, digsVal, ih, pow_succ]
    ring

theorem dsLastNonzero_nil : dsLastNonzero [] := trivial

theorem dsLastNonzero_snoc (l : List Nat) (d : Nat) (hd : d ≠ 0) :
    dsLastNonzero (l ++ [d]) := by
  induction l with
  | nil => exact hd
  | cons e r ih =>
    rw [List.cons_append]
    obtain ⟨y, s, hys⟩ : ∃ y s, r ++ [d] = y :: s := by
      cases hx : r ++ [d] with
      | nil => exact absurd hx (by simp)
      | cons a b => exact ⟨a, b, rfl⟩
    rw [hys]
    show dsLastNonzero (y :: s)
    rw [← hys]
    exact ih

theorem digsVal_pos_of_lastNonzero (l : List Nat) (hne : l ≠ [])
    (hl : dsLastNonzero l) : 0 < digsVal l := by
  induction l with
  | nil => exact absurd rfl hne
  | cons e r ih =>
    cases r with
    | nil =>
      have he : e ≠ 0 := hl
      show 0 < digsVal [e]
      rw [digsVal, digsVal]
      omega
    | cons y s =>
      have hr : dsLastNonzero (y :: s) := hl
      have := ih (by simp) hr
      show 0 < digsVal (e :: y :: s)
      rw [digsVal]
      omega

theorem hexRev_zero : hexRev 0 = [] := by
  rw [hexRev]
  rfl

theorem hexRev_spec (ds : List Nat) (h16 : ∀ x ∈ ds, x < 16)
    (hlast : dsLastNonzero ds) :
    hexRev (digsVal ds) = ds.map char_from_nibble := by
  induction ds with
  | nil =>
    show hexRev 0 = []
    exact hexRev_zero
  | cons e r ih =>
    have he16 := h16 e (by simp)
    by_cases hrn : r = []
    · subst hrn
      have he : e ≠ 0 := hlast
      show hexRev (digsVal [e]) = [char_from_nibble e]
      have hv : digsVal [e] = e := by
        rw [digsVal, digsVal]
        omega
      rw [hv, hexRev, dif_neg he]
      have hm : e % 16 = e := Nat.mod_eq_of_lt he16
      have hd : e / 16 = 0 := Nat.div_eq_of_lt he16
      rw [hm, hd, hexRev_zero]
    · have hrl : dsLastNonzero r := by
        cases r with
        | nil => exact absurd rfl hrn
        | cons y s => exact hlast
      have hpos := digsVal_pos_of_lastNonzero r hrn hrl
      have hval : digsVal (e :: r) = e + 16 * digsVal r := rfl
      rw [hval, hexRev, dif_neg (by omega : ¬ (e + 16 * digsVal r = 0))]
      have hm : (e + 16 * digsVal r) % 16 = e := by omega
      have hd : (e + 16 * digsVal r) / 16 = digsVal r := by omega
      rw [hm, hd, ih (fun x hx => h16 x (by simp [hx])) hrl]
      rfl

theorem dropLeadZeros_cons_cons (c : Char) (r : List Char) :
    dropLeadZeros ('0' :: c :: r) = dropLeadZeros (c :: r) :=
  dropLeadZeros.eq_1 c r

theorem dropLeadZeros_single : dropLeadZeros ['0'] = ['0'] :=
  dropLeadZeros.eq_2 ['0'] (by
    intro c rest h
    simp at h)

theorem dropLeadZeros_of_head_ne (c : Char) (r : List Char) (h : c ≠ '0') :
    dropLeadZeros (c :: r) = c :: r :=
  dropLeadZeros.eq_2 (c :: r) (by
    intro c2 rest h2
    rw [List.cons.injEq] at h2
    exact absurd h2.1 h)

theorem char_from_nibble_ne_zero (d : Nat) (h1 : 0 < d) (h2 : d < 16) :
    char_from_nibble d ≠ '0' := by
  have hgen : ∀ m, m < 16 → 0 < m → char_from_nibble m ≠ '0' := by decide
  exact hgen d h2 h1

/-- Reversing a digit list to human order and trimming leading zeros yields
the minimal hex digits of its value. -/
theorem dropLeadZeros_digits (ds : List Nat) (h16 : ∀ x ∈ ds, x < 16)
    (hne : ds ≠ []) :
    dropLeadZeros ((ds.map char_from_nibble).reverse) = hexMin (digsVal ds) := by
  induction ds using List.reverseRecOn with
  | nil => exact absurd rfl hne
  | append_singleton l d ih =>
    have hmap : ((l ++ [d]).map char_from_nibble).reverse =
        char_from_nibble d :: (l.map char_from_nibble).reverse := by
      simp
    rw [hmap]
    rcases Nat.eq_zero_or_pos d with hd0 | hdpos
    · subst hd0
      have hch : char_from_nibble 0 = '0' := rfl
      rw [hch]
      have hval : digsVal (l ++ [0]) = digsVal l := by
        rw [digsVal_snoc]
        omega
      by_cases hlnil : l = []
      · subst hlnil
        rw [hval]
        show dropLeadZeros ['0'] = hexMin (digsVal [])
        rw [dropLeadZeros_single]
        rfl
      · have hrev : (l.map char_from_nibble).reverse ≠ [] := by
          simp [hlnil]
        obtain ⟨c2, cs2, hrw⟩ : ∃ c2 cs2,
            (l.map char_from_nibble).reverse = c2 :: cs2 := by
          cases hx : (l.map char_from_nibble).reverse with
          | nil => exact absurd hx hrev
          | cons a b => exact ⟨a, b, rfl⟩
        rw [hrw, dropLeadZeros_cons_cons, ← hrw, hval]
        exact ih (fun x hx => h16 x (by simp [hx])) hlnil
    · have hd16 : d < 16 := h16 d (by simp)
      have hch := char_from_nibble_ne_zero d hdpos hd16
      rw [dropLeadZeros_of_head_ne _ _ hch]
      have hlast := dsLastNonzero_snoc l d (by omega)
      have hpos := digsVal_pos_of_lastNonzero (l ++ [d]) (by simp) hlast
      rw [hexMin, if_neg (by omega), hexRev_spec (l ++ [d]) h16 hlast, hmap]

theorem nibsOf_val (L : Bits) (h : L.length % 4 = 0) :
    digsVal (nibsOf L) = bitsToNat L ∧ ∀ x ∈ nibsOf L, x < 16 := by
  induction L using nibsOf.induct with
  | case1 b0 b1 b2 b3 rest ih =>
    have hlen : rest.length % 4 = 0 := by
      simp at h
      omega
    obtain ⟨ihv, ih16⟩ := ih hlen
    constructor
    · show bitVal b0 + 2 * bitVal b1 + 4 * bitVal b2 + 8 * bitVal b3 +
        16 * digsVal (nibsOf rest) = _
      rw [ihv]
      show _ = bitVal b0 + 2 * (bitVal b1 + 2 * (bitVal b2 + 2 * (bitVal b3 +
        2 * bitsToNat rest)))
      ring
    · intro x hx
      rw [nibsOf] at hx
      rcases List.mem_cons.mp hx with hx1 | hx2
      · have h0 := bitVal_le_one b0
        have h1 := bitVal_le_one b1
        have h2 := bitVal_le_one b2
        have h3 := bitVal_le_one b3
        omega
      · exact ih16 x hx2
  | case2 L hshape =>
    cases L with
    | nil =>
      refine ⟨rfl, ?_⟩
      intro x hx
      have hn : nibsOf ([] : Bits) = [] := rfl
      rw [hn] at hx
      simp at hx
    | cons a r =>
      cases r with
      | nil => simp at h
      | cons b r2 =>
        cases r2 with
        | nil => simp at h
        | cons c r3 =>
          cases r3 with
          | nil => simp at h
          | cons d r4 => exact absurd rfl (hshape a b c d r4)

theorem pad4_mod (b : Bits) : (pad4 b).length % 4 = 0 := by
  rw [pad4]
  by_cases h : b.length % 4 = 0
  · rw [if_pos h]
    exact h
  · rw [if_neg h]
    rw [List.length_append, List.length_replicate]
    omega

theorem pad4_val (b : Bits) : bitsToNat (pad4 b) = bitsToNat b := by
  rw [pad4]
  by_cases h : b.length % 4 = 0
  · rw [if_pos h]
  · rw [if_neg h, bitsToNat_append_replicate_false]

theorem pad4_length_ge (b : Bits) (h : b ≠ []) : 4 ≤ (pad4 b).length := by
  have hpos : 0 < b.length := List.length_pos.mpr h
  rw [pad4]
  by_cases h4 : b.length % 4 = 0
  · rw [if_pos h4]
    omega
  · rw [if_neg h4, List.length_append, List.length_replicate]
    omega

theorem nibsOf_ne_nil (L : Bits) (h : 4 ≤ L.length) : nibsOf L ≠ [] := by
  cases L with
  | nil => simp at h
  | cons a r =>
    cases r with
    | nil => simp at h
    | cons b r2 =>
      cases r2 with
      | nil => simp at h
      | cons c r3 =>
        cases r3 with
        | nil => simp at h
        | cons d r4 =>
          rw [nibsOf]
          simp

/-- Source-side characterization: formatting any bit vector with the `0x`
prefix prints the minimal lowercase hex digits of its value. -/
theorem bv_to_hex_string_spec (b : Bits) :
    bv_to_hex_string b true = String.mk ('0' :: 'x' :: hexMin (bitsToNat b)) := by
  have hb' : bitsToNat (if b = [] then [false] else b) = bitsToNat b := by
    by_cases h : b = []
    · rw [if_pos h, h]
      rfl
    · rw [if_neg h]
  have hne : (if b = [] then [false] else b) ≠ [] := by
    by_cases h : b = []
    · rw [if_pos h]
      simp
    · rw [if_neg h]
      exact h
  obtain ⟨hdv, h16⟩ := nibsOf_val (pad4 (if b = [] then [false] else b))
    (pad4_mod _)
  have hnn := nibsOf_ne_nil (pad4 (if b = [] then [false] else b))
    (pad4_length_ge _ hne)
  show String.mk ('0' :: 'x' :: dropLeadZeros
    (((nibsOf (pad4 (if b = [] then [false] else b))).map char_from_nibble).reverse)) = _
  rw [dropLeadZeros_digits _ h16 hnn, hdv, pad4_val, hb']

/-- C8: parsing a well-formed hex string and formatting the result gives the
lowercase, `0x`-prefixed, zero-trimmed normal form of the input. -/
theorem c8_hex_roundtrip (s : String)
    (hne : (dropHexStart s.toList).filter (fun c => c != '_') ≠ [])
    (hvalid : ∀ c ∈ (dropHexStart s.toList).filter (fun c => c != '_'),
      (hex_nibble_from_char c).isSome = true) :
    ∃ b, bv_from_hex_string s = some b ∧
      bv_to_hex_string b true = hexNormalize s := by
  have hmapM : ((dropHexStart s.toList).filter (fun c => c != '_')).reverse.mapM
      hex_nibble_from_char =
      some (((dropHexStart s.toList).filter (fun c => c != '_')).reverse.map
        (fun c => (hex_nibble_from_char c).getD 0)) :=
    mapM_hex_of_valid _ (fun c hc => hvalid c (List.mem_reverse.mp hc))
  have hparse : bv_from_hex_string s = some (trim_leading (List.flatten
      ((((dropHexStart s.toList).filter (fun c => c != '_')).reverse.map
        (fun c => (hex_nibble_from_char c).getD 0)).map nib4))) := by
    show (if (dropHexStart s.toList).filter (fun c => c != '_') = [] then some [false]
      else match ((dropHexStart s.toList).filter (fun c => c != '_')).reverse.mapM
          hex_nibble_from_char with
        | none => none
        | some ns => some (trim_leading (List.flatten (ns.map nib4)))) = _
    rw [if_neg hne, hmapM]
  have h16 : ∀ x ∈ ((dropHexStart s.toList).filter (fun c => c != '_')).reverse.map
      (fun c => (hex_nibble_from_char c).getD 0), x < 16 := by
    intro x hx
    rw [List.mem_map] at hx
    obtain ⟨c, hcu, hcx⟩ := hx
    obtain ⟨v, hveq⟩ := Option.isSome_iff_exists.mp (hvalid c (List.mem_reverse.mp hcu))
    have h2 := (hex_char_spec c v hveq).2
    rw [← hcx, hveq]
    simpa using h2
  have hnsne : ((dropHexStart s.toList).filter (fun c => c != '_')).reverse.map
      (fun c => (hex_nibble_from_char c).getD 0) ≠ [] := by
    simpa using hne
  have hval_b : bitsToNat (trim_leading (List.flatten
      ((((dropHexStart s.toList).filter (fun c => c != '_')).reverse.map
        (fun c => (hex_nibble_from_char c).getD 0)).map nib4))) =
      digsVal (((dropHexStart s.toList).filter (fun c => c != '_')).reverse.map
        (fun c => (hex_nibble_from_char c).getD 0)) := by
    rw [bitsToNat_trim_leading, flatten_nib4_val _ h16]
  have hmapeq : ((dropHexStart s.toList).filter (fun c => c != '_')).map Char.toLower =
      (((((dropHexStart s.toList).filter (fun c => c != '_')).reverse.map
        (fun c => (hex_nibble_from_char c).getD 0)).map char_from_nibble)).reverse := by
    rw [List.map_map, List.map_reverse, List.reverse_reverse]
    apply List.map_congr_left
    intro c hc
    obtain ⟨v, hveq⟩ := Option.isSome_iff_exists.mp (hvalid c hc)
    have h1 := (hex_char_spec c v hveq).1
    show Char.toLower c = char_from_nibble ((hex_nibble_from_char c).getD 0)
    rw [hveq]
    exact h1
  refine ⟨_, hparse, ?_⟩
  rw [bv_to_hex_string_spec, hval_b, hexNormalize, hmapeq,
    dropLeadZeros_digits _ h16 hnsne]

theorem c8_witness :
    ((dropHexStart "0X00fF_3".toList).filter (fun c => c != '_') ≠ []) ∧
    (∃ b, bv_from_hex_string "0X00fF_3" = some b ∧
      bv_to_hex_string b true = hexNormalize "0X00fF_3") ∧
    hexNormalize "0X00fF_3" = "0xff3" := by
  refine ⟨by decide, c8_hex_roundtrip "0X00fF_3" (by decide) (by decide), ?_⟩
  have h0 : ((dropHexStart "0X00fF_3".toList).filter (fun c => c != '_')).map
      Char.toLower = ['0', '0', 'f', 'f', '3'] := by decide
  rw [hexNormalize, h0, dropLeadZeros_cons_cons, dropLeadZeros_cons_cons,
    dropLeadZeros_of_head_ne _ _ (by decide)]

theorem getD_set_ne_any {α : Type _} (l : List α) (d : α) (i j : Nat) (c : α)
    (h : i ≠ j) : (l.set i c).getD j d = l.getD j d := by
  rw [List.getD_eq_getElem?_getD, List.getD_eq_getElem?_getD, List.getElem?_set_ne h]

theorem writeReg_zero (regs : List Nat) (v : Nat) : writeReg regs 0 v = regs := by
  rw [writeReg, if_pos rfl]

theorem load_program_regs (s : CpuState) (ws : List Nat) (base : Nat)
    (s2 : CpuState) (h : load_program s ws base = some s2) : s2.regs = s.regs := by
  rw [load_program] at h
  split at h
  · exact absurd h (by simp)
  · cases h
    rfl

/-- Every successful step either keeps the register file or performs one
`writeReg`. -/
theorem stepCpu_regs (s s2 : CpuState) (h : stepCpu s = some s2) :
    s2.regs = s.regs ∨ ∃ i v, s2.regs = writeReg s.regs i v := by
  by_cases hpc : s.pc % 4 ≠ 0
  · rw [stepCpu.eq_def, if_pos hpc] at h
    exact Option.noConfusion h
  · rcases hload : load_u32 s.mem s.pc with _ | instr
    · rw [stepCpu.eq_def, if_neg hpc, hload] at h
      exact Option.noConfusion h
    · rw [stepCpu.eq_def, if_neg hpc, hload] at h
      dsimp only at h
      by_cases hx21 : instr % 2 ^ 7 = 0x13
      · rw [if_pos hx21] at h
        by_cases hx3 : instr / 2 ^ 12 % 2 ^ 3 = 0
        · rw [if_pos hx3] at h
          injection h with h3
          subst h3
          exact Or.inr ⟨_, _, rfl⟩
        · rw [if_neg hx3] at h
          by_cases hx4 : instr / 2 ^ 12 % 2 ^ 3 = 7
          · rw [if_pos hx4] at h
            injection h with h3
            subst h3
            exact Or.inr ⟨_, _, rfl⟩
          · rw [if_neg hx4] at h
            by_cases hx5 : instr / 2 ^ 12 % 2 ^ 3 = 6
            · rw [if_pos hx5] at h
              injection h with h3
              subst h3
              exact Or.inr ⟨_, _, rfl⟩
            · rw [if_neg hx5] at h
              by_cases hx6 : instr / 2 ^ 12 % 2 ^ 3 = 4
              · rw [if_pos hx6] at h
                injection h with h3
                subst h3
                exact Or.inr ⟨_, _, rfl⟩
              · rw [if_neg hx6] at h
                by_cases hx7 : instr / 2 ^ 12 % 2 ^ 3 = 1
                · rw [if_pos hx7] at h
                  injection h with h3
                  subst h3
                  exact Or.inr ⟨_, _, rfl⟩
                · rw [if_neg hx7] at h
                  by_cases hx8 : instr / 2 ^ 12 % 2 ^ 3 = 5
                  · rw [if_pos hx8] at h
                    by_cases hx1 : instr / 2 ^ 25 % 2 ^ 7 = 0
                    · rw [if_pos hx1] at h
                      injection h with h3
                      subst h3
                      exact Or.inr ⟨_, _, rfl⟩
                    · rw [if_neg hx1] at h
                      by_cases hx2 : instr / 2 ^ 25 % 2 ^ 7 = 0x20
                      · rw [if_pos hx2] at h
                        injection h with h3
                        subst h3
                        exact Or.inr ⟨_, _, rfl⟩
                      · rw [if_neg hx2] at h
                        injection h with h3
                        subst h3
                        exact Or.inl rfl
                  · rw [if_neg hx8] at h
                    injection h with h3
                    subst h3
                    exact Or.inl rfl
      · rw [if_neg hx21] at h
        by_cases hx22 : instr % 2 ^ 7 = 0x33
        · rw [if_pos hx22] at h
          by_cases hx13 : instr / 2 ^ 12 % 2 ^ 3 = 0
          · rw [if_pos hx13] at h
            by_cases hx9 : instr / 2 ^ 25 % 2 ^ 7 = 0
            · rw [if_pos hx9] at h
              injection h with h3
              subst h3
              exact Or.inr ⟨_, _, rfl⟩
            · rw [if_neg hx9] at h
              by_cases hx10 : instr / 2 ^ 25 % 2 ^ 7 = 0x20
              · rw [if_pos hx10] at h
                injection h with h3
                subst h3
                exact Or.inr ⟨_, _, rfl⟩
              · rw [if_neg hx10] at h
                injection h with h3
                subst h3
                exact Or.inl rfl
          · rw [if_neg hx13] at h
            by_cases hx14 : instr / 2 ^ 12 % 2 ^ 3 = 7
            · rw [if_pos hx14] at h
              injection h with h3
              subst h3
              exact Or.inr ⟨_, _, rfl⟩
            · rw [if_neg hx14] at h
              by_cases hx15 : instr / 2 ^ 12 % 2 ^ 3 = 6
              · rw [if_pos hx15] at h
                injection h with h3
                subst h3
                exact Or.inr ⟨_, _, rfl⟩
              · rw [if_neg hx15] at h
                by_cases hx16 : instr / 2 ^ 12 % 2 ^ 3 = 4
                · rw [if_pos hx16] at h
                  injection h with h3
                  subst h3
                  exact Or.inr ⟨_, _, rfl⟩
                · rw [if_neg hx16] at h
                  by_cases hx17 : instr / 2 ^ 12 % 2 ^ 3 = 1
                  · rw [if_pos hx17] at h
                    injection h with h3
                    subst h3
                    exact Or.inr ⟨_, _, rfl⟩
                  · rw [if_neg hx17] at h
                    by_cases hx18 : instr / 2 ^ 12 % 2 ^ 3 = 5
                    · rw [if_pos hx18] at h
                      by_cases hx11 : instr / 2 ^ 25 % 2 ^ 7 = 0
                      · rw [if_pos hx11] at h
                        injection h with h3
                        subst h3
                        exact Or.inr ⟨_, _, rfl⟩
                      · rw [if_neg hx11] at h
                        by_cases hx12 : instr / 2 ^ 25 % 2 ^ 7 = 0x20
                        · rw [if_pos hx12] at h
                          injection h with h3
                          subst h3
                          exact Or.inr ⟨_, _, rfl⟩
                        · rw [if_neg hx12] at h
                          injection h with h3
                          subst h3
                          exact Or.inl rfl
                    · rw [if_neg hx18] at h
                      injection h with h3
                      subst h3
                      exact Or.inl rfl
        · rw [if_neg hx22] at h
          by_cases hx23 : instr % 2 ^ 7 = 0x03
          · rw [if_pos hx23] at h
            by_cases hx19 : instr / 2 ^ 12 % 2 ^ 3 = 2
            · rw [if_pos hx19] at h
              split at h
              · exact Option.noConfusion h
              · injection h with h3
                subst h3
                exact Or.inr ⟨_, _, rfl⟩
            · rw [if_neg hx19] at h
              injection h with h3
              subst h3
              exact Or.inl rfl
          · rw [if_neg hx23] at h
            by_cases hx24 : instr % 2 ^ 7 = 0x23
            · rw [if_pos hx24] at h
              by_cases hx20 : instr / 2 ^ 12 % 2 ^ 3 = 2
              · rw [if_pos hx20] at h
                split at h
                · exact Option.noConfusion h
                · injection h with h3
                  subst h3
                  exact Or.inl rfl
              · rw [if_neg hx20] at h
                injection h with h3
                subst h3
                exact Or.inl rfl
            · rw [if_neg hx24] at h
              by_cases hx25 : instr % 2 ^ 7 = 0x63
              · rw [if_pos hx25] at h
                injection h with h3
                subst h3
                exact Or.inl rfl
              · rw [if_neg hx25] at h
                by_cases hx26 : instr % 2 ^ 7 = 0x6F
                · rw [if_pos hx26] at h
                  injection h with h3
                  subst h3
                  exact Or.inr ⟨_, _, rfl⟩
                · rw [if_neg hx26] at h
                  by_cases hx27 : instr % 2 ^ 7 = 0x67
                  · rw [if_pos hx27] at h
                    injection h with h3
                    subst h3
                    exact Or.inr ⟨_, _, rfl⟩
                  · rw [if_neg hx27] at h
                    by_cases hx28 : instr % 2 ^ 7 = 0x17
                    · rw [if_pos hx28] at h
                      injection h with h3
                      subst h3
                      exact Or.inr ⟨_, _, rfl⟩
                    · rw [if_neg hx28] at h
                      by_cases hx29 : instr % 2 ^ 7 = 0x37
                      · rw [if_pos hx29] at h
                        injection h with h3
                        subst h3
                        exact Or.inr ⟨_, _, rfl⟩
                      · rw [if_neg hx29] at h
                        injection h with h3
                        subst h3
                        exact Or.inl rfl

/-- A step whose fetched instruction has destination register x0 leaves the
register file unchanged. -/
theorem stepCpu_rd0 (s s2 : CpuState) (instr : Nat) (h : stepCpu s = some s2)
    (hl : load_u32 s.mem s.pc = some instr)
    (hrd : instr / 2 ^ 7 % 2 ^ 5 = 0) :
    s2.regs = s.regs := by
  by_cases hpc : s.pc % 4 ≠ 0
  · rw [stepCpu.eq_def, if_pos hpc] at h
    exact Option.noConfusion h
  · rw [stepCpu.eq_def, if_neg hpc, hl] at h
    dsimp only at h
    by_cases hy21 : instr % 2 ^ 7 = 0x13
    · rw [if_pos hy21] at h
      by_cases hy3 : instr / 2 ^ 12 % 2 ^ 3 = 0
      · rw [if_pos hy3] at h
        injection h with h3
        subst h3
        show writeReg s.regs (instr / 2 ^ 7 % 2 ^ 5) _ = s.regs
        rw [hrd]
        exact writeReg_zero _ _
      · rw [if_neg hy3] at h
        by_cases hy4 : instr / 2 ^ 12 % 2 ^ 3 = 7
        · rw [if_pos hy4] at h
          injection h with h3
          subst h3
          show writeReg s.regs (instr / 2 ^ 7 % 2 ^ 5) _ = s.regs
          rw [hrd]
          exact writeReg_zero _ _
        · rw [if_neg hy4] at h
          by_cases hy5 : instr / 2 ^ 12 % 2 ^ 3 = 6
          · rw [if_pos hy5] at h
            injection h with h3
            subst h3
            show writeReg s.regs (instr / 2 ^ 7 % 2 ^ 5) _ = s.regs
            rw [hrd]
            exact writeReg_zero _ _
          · rw [if_neg hy5] at h
            by_cases hy6 : instr / 2 ^ 12 % 2 ^ 3 = 4
            · rw [if_pos hy6] at h
              injection h with h3
              subst h3
              show writeReg s.regs (instr / 2 ^ 7 % 2 ^ 5) _ = s.regs
              rw [hrd]
              exact writeReg_zero _ _
            · rw [if_neg hy6] at h
              by_cases hy7 : instr / 2 ^ 12 % 2 ^ 3 = 1
              · rw [if_pos hy7] at h
                injection h with h3
                subst h3
                show writeReg s.regs (instr / 2 ^ 7 % 2 ^ 5) _ = s.regs
                rw [hrd]
                exact writeReg_zero _ _
              · rw [if_neg hy7] at h
                by_cases hy8 : instr / 2 ^ 12 % 2 ^ 3 = 5
                · rw [if_pos hy8] at h
                  by_cases hy1 : instr / 2 ^ 25 % 2 ^ 7 = 0
                  · rw [if_pos hy1] at h
                    injection h with h3
                    subst h3
                    show writeReg s.regs (instr / 2 ^ 7 % 2 ^ 5) _ = s.regs
                    rw [hrd]
                    exact writeReg_zero _ _
                  · rw [if_neg hy1] at h
                    by_cases hy2 : instr / 2 ^ 25 % 2 ^ 7 = 0x20
                    · rw [if_pos hy2] at h
                      injection h with h3
                      subst h3
                      show writeReg s.regs (instr / 2 ^ 7 % 2 ^ 5) _ = s.regs
                      rw [hrd]
                      exact writeReg_zero _ _
                    · rw [if_neg hy2] at h
                      injection h with h3
                      subst h3
                      rfl
                · rw [if_neg hy8] at h
                  injection h with h3
                  subst h3
                  rfl
    · rw [if_neg hy21] at h
      by_cases hy22 : instr % 2 ^ 7 = 0x33
      · rw [if_pos hy22] at h
        by_cases hy13 : instr / 2 ^ 12 % 2 ^ 3 = 0
        · rw [if_pos hy13] at h
          by_cases hy9 : instr / 2 ^ 25 % 2 ^ 7 = 0
          · rw [if_pos hy9] at h
            injection h with h3
            subst h3
            show writeReg s.regs (instr / 2 ^ 7 % 2 ^ 5) _ = s.regs
            rw [hrd]
            exact writeReg_zero _ _
          · rw [if_neg hy9] at h
            by_cases hy10 : instr / 2 ^ 25 % 2 ^ 7 = 0x20
            · rw [if_pos hy10] at h
              injection h with h3
              subst h3
              show writeReg s.regs (instr / 2 ^ 7 % 2 ^ 5) _ = s.regs
              rw [hrd]
              exact writeReg_zero _ _
            · rw [if_neg hy10] at h
              injection h with h3
              subst h3
              rfl
        · rw [if_neg hy13] at h
          by_cases hy14 : instr / 2 ^ 12 % 2 ^ 3 = 7
          · rw [if_pos hy14] at h
            injection h with h3
            subst h3
            show writeReg s.regs (instr / 2 ^ 7 % 2 ^ 5) _ = s.regs
            rw [hrd]
            exact writeReg_zero _ _
          · rw [if_neg hy14] at h
            by_cases hy15 : instr / 2 ^ 12 % 2 ^ 3 = 6
            · rw [if_pos hy15] at h
              injection h with h3
              subst h3
              show writeReg s.regs (instr / 2 ^ 7 % 2 ^ 5) _ = s.regs
              rw [hrd]
              exact writeReg_zero _ _
            · rw [if_neg hy15] at h
              by_cases hy16 : instr / 2 ^ 12 % 2 ^ 3 = 4
              · rw [if_pos hy16] at h
                injection h with h3
                subst h3
                show writeReg s.regs (instr / 2 ^ 7 % 2 ^ 5) _ = s.regs
                rw [hrd]
                exact writeReg_zero _ _
              · rw [if_neg hy16] at h
                by_cases hy17 : instr / 2 ^ 12 % 2 ^ 3 = 1
                · rw [if_pos hy17] at h
                  injection h with h3
                  subst h3
                  show writeReg s.regs (instr / 2 ^ 7 % 2 ^ 5) _ = s.regs
                  rw [hrd]
                  exact writeReg_zero _ _
                · rw [if_neg hy17] at h
                  by_cases hy18 : instr / 2 ^ 12 % 2 ^ 3 = 5
                  · rw [if_pos hy18] at h
                    by_cases hy11 : instr / 2 ^ 25 % 2 ^ 7 = 0
                    · rw [if_pos hy11] at h
                      injection h with h3
                      subst h3
                      show writeReg s.regs (instr / 2 ^ 7 % 2 ^ 5) _ = s.regs
                      rw [hrd]
                      exact writeReg_zero _ _
                    · rw [if_neg hy11] at h
                      by_cases hy12 : instr / 2 ^ 25 % 2 ^ 7 = 0x20
                      · rw [if_pos hy12] at h
                        injection h with h3
                        subst h3
                        show writeReg s.regs (instr / 2 ^ 7 % 2 ^ 5) _ = s.regs
                        rw [hrd]
                        exact writeReg_zero _ _
                      · rw [if_neg hy12] at h
                        injection h with h3
                        subst h3
                        rfl
                  · rw [if_neg hy18] at h
                    injection h with h3
                    subst h3
                    rfl
      · rw [if_neg hy22] at h
        by_cases hy23 : instr % 2 ^ 7 = 0x03
        · rw [if_pos hy23] at h
          by_cases hy19 : instr / 2 ^ 12 % 2 ^ 3 = 2
          · rw [if_pos hy19] at h
            split at h
            · exact Option.noConfusion h
            · injection h with h3
              subst h3
              show writeReg s.regs (instr / 2 ^ 7 % 2 ^ 5) _ = s.regs
              rw [hrd]
              exact writeReg_zero _ _
          · rw [if_neg hy19] at h
            injection h with h3
            subst h3
            rfl
        · rw [if_neg hy23] at h
          by_cases hy24 : instr % 2 ^ 7 = 0x23
          · rw [if_pos hy24] at h
            by_cases hy20 : instr / 2 ^ 12 % 2 ^ 3 = 2
            · rw [if_pos hy20] at h
              split at h
              · exact Option.noConfusion h
              · injection h with h3
                subst h3
                rfl
            · rw [if_neg hy20] at h
              injection h with h3
              subst h3
              rfl
          · rw [if_neg hy24] at h
            by_cases hy25 : instr % 2 ^ 7 = 0x63
            · rw [if_pos hy25] at h
              injection h with h3
              subst h3
              rfl
            · rw [if_neg hy25] at h
              by_cases hy26 : instr % 2 ^ 7 = 0x6F
              · rw [if_pos hy26] at h
                injection h with h3
                subst h3
                show writeReg s.regs (instr / 2 ^ 7 % 2 ^ 5) _ = s.regs
                rw [hrd]
                exact writeReg_zero _ _
              · rw [if_neg hy26] at h
                by_cases hy27 : instr % 2 ^ 7 = 0x67
                · rw [if_pos hy27] at h
                  injection h with h3
                  subst h3
                  show writeReg s.regs (instr / 2 ^ 7 % 2 ^ 5) _ = s.regs
                  rw [hrd]
                  exact writeReg_zero _ _
                · rw [if_neg hy27] at h
                  by_cases hy28 : instr % 2 ^ 7 = 0x17
                  · rw [if_pos hy28] at h
                    injection h with h3
                    subst h3
                    show writeReg s.regs (instr / 2 ^ 7 % 2 ^ 5) _ = s.regs
                    rw [hrd]
                    exact writeReg_zero _ _
                  · rw [if_neg hy28] at h
                    by_cases hy29 : instr % 2 ^ 7 = 0x37
                    · rw [if_pos hy29] at h
                      injection h with h3
                      subst h3
                      show writeReg s.regs (instr / 2 ^ 7 % 2 ^ 5) _ = s.regs
                      rw [hrd]
                      exact writeReg_zero _ _
                    · rw [if_neg hy29] at h
                      injection h with h3
                      subst h3
                      rfl

/-- C9: register x0 is hard-wired to zero in every reachable state — reads of
x0 give 0, the stored slot stays 0, and an instruction writing x0 leaves the
whole register file unchanged. -/
theorem c9_reg0 :
    (∀ s, Reach s → readReg s.regs 0 = 0 ∧ s.regs.getD 0 0 = 0) ∧
    (∀ s s2 instr, stepCpu s = some s2 → load_u32 s.mem s.pc = some instr →
      instr / 2 ^ 7 % 2 ^ 5 = 0 → s2.regs = s.regs) := by
  constructor
  · intro s hs
    refine ⟨by rw [readReg, if_pos rfl], ?_⟩
    induction hs with
    | init n => rfl
    | reset s1 hr ih => rfl
    | load s1 ws base s2 hr hload ih =>
      rw [load_program_regs s1 ws base s2 hload]
      exact ih
    | step s1 s2 hr hstep ih =>
      rcases stepCpu_regs s1 s2 hstep with he | ⟨i, v, he⟩
      · rw [he]
        exact ih
      · rw [he, writeReg]
        by_cases hi : i = 0
        · rw [if_pos hi]
          exact ih
        · rw [if_neg hi, getD_set_ne_any s1.regs 0 i 0 v hi]
          exact ih
  · intro s s2 instr hstep hl hrd
    exact stepCpu_rd0 s s2 instr hstep hl hrd

theorem c9_witness :
    readReg (initCpu 16).regs 0 = 0 ∧ (initCpu 16).regs.getD 0 0 = 0 ∧
    stepCpu c9s = some c9s2 ∧ c9s2.regs = c9s.regs := by
  obtain ⟨h1, h2⟩ := c9_reg0.1 (initCpu 16) (Reach.init 16)
  have hstep : stepCpu c9s = some c9s2 := by decide
  have hl : load_u32 c9s.mem c9s.pc = some 0x00100013 := by decide
  exact ⟨h1, h2, hstep, c9_reg0.2 c9s c9s2 0x00100013 hstep hl (by decide)⟩

end RV

